import Mathlib

/-!
Shallow embedding of the logic-circuit wire-graph engine of CosmosRust
(`cosmos_core/src/wires/mod.rs`), together with the tick-phase ordering of
`cosmos_core/src/logic/mod.rs`.

Rust `HashMap`s are embedded as association lists (`List (K × V)`) with
insert-or-overwrite, first-match lookup and key-filter removal; `HashSet`s of
visited ports as duplicate-free `List Port`.  Recursive graph searches
(`find_group`, `rename_group`) carry an explicit fuel parameter; a result of
`none` at the outermost layer means the fuel ran out or the source would have
panicked (an `expect`/index failure), while ordinary "no group found" results
are the inner `Option`.
-/

/-- Modelled from the spec: the six block faces, in the source's index order
"Right, Left, Top, Bottom, Front, Back" (`BlockFace` itself is declared in a
module that is not part of the provided sources). -/
inductive BlockFace where
  | Right
  | Left
  | Top
  | Bottom
  | Front
  | Back
deriving DecidableEq, Repr

/-- Modelled from the spec: opposite faces (`BlockFace::inverse`). -/
def BlockFace.inverse : BlockFace → BlockFace
  | .Right => .Left
  | .Left => .Right
  | .Top => .Bottom
  | .Bottom => .Top
  | .Front => .Back
  | .Back => .Front

/-- All six faces in index order, used to iterate a block's connection array. -/
def allBlockFaces : List BlockFace :=
  [.Right, .Left, .Top, .Bottom, .Front, .Back]

/-- The types of logic ports (`PortType` in `wires/mod.rs`). -/
inductive PortType where
  | Input
  | Output
deriving DecidableEq, Repr

/-- How a block face interacts with adjacent logic blocks
(`LogicConnection` in `wires/mod.rs`). -/
inductive LogicConnection where
  | Port (t : PortType)
  | Wire
deriving DecidableEq, Repr

/-- A block that interacts with the logic system (`LogicBlock`): the roles of
its six faces, indexed by `BlockFace`. -/
structure LogicBlock where
  connections : BlockFace → Option LogicConnection

/-- `LogicBlock::connection_on`. -/
def LogicBlock.connectionOn (lb : LogicBlock) (face : BlockFace) : Option LogicConnection :=
  lb.connections face

/-- `LogicBlock::faces_with`: faces whose connection equals the given one,
in `BlockFace` index order. -/
def LogicBlock.facesWith (lb : LogicBlock) (c : Option LogicConnection) : List BlockFace :=
  allBlockFaces.filter (fun f => lb.connections f = c)

/-- `LogicBlock::input_faces`. -/
def LogicBlock.inputFaces (lb : LogicBlock) : List BlockFace :=
  lb.facesWith (some (.Port .Input))

/-- `LogicBlock::output_faces`. -/
def LogicBlock.outputFaces (lb : LogicBlock) : List BlockFace :=
  lb.facesWith (some (.Port .Output))

/-- `LogicBlock::wire_faces`. -/
def LogicBlock.wireFaces (lb : LogicBlock) : List BlockFace :=
  lb.facesWith (some .Wire)

/-- Modelled from the spec: a block coordinate inside a structure (the concrete
`BlockCoordinate` type lives in `structure/coordinates`, not in the provided
sources).  Coordinates are unsigned triples. -/
structure Coord where
  x : Nat
  y : Nat
  z : Nat
deriving DecidableEq, Repr

/-- A logic port: block coordinate plus local face (`Port` in `wires/mod.rs`). -/
structure Port where
  coords : Coord
  localFace : BlockFace
deriving DecidableEq, Repr

/-- `Port::all_for`: the six ports of the block at the given coordinates. -/
def Port.allFor (c : Coord) : List Port :=
  allBlockFaces.map (fun f => Port.mk c f)

/-- Modelled from the spec: a block rotation, §4.2 "rotate(local_face,
block_rotation) -> global_direction and its inverse".  The source represents a
rotation by its up-face and defines `global_to_local`/`local_to_global` on it
in a module that is not part of the provided sources; here a rotation is the
pair of face maps itself. -/
structure Rotation where
  globalToLocal : BlockFace → BlockFace
  localToGlobal : BlockFace → BlockFace

/-- The identity rotation (an unrotated block). -/
def Rotation.id : Rotation :=
  { globalToLocal := fun f => f, localToGlobal := fun f => f }

/-- Modelled from the spec: the structure query surface used by graph
maintenance, §6 — `block_at(coords)`, `block_rotation(coords)` — plus the
block dimensions that bound `step`. Blocks are identified by a numeric id. -/
structure Struct where
  dims : Coord
  blockIdAt : Coord → Nat
  rotAt : Coord → Rotation

/-- Whether a coordinate lies inside the structure's bounds. -/
def Struct.inBounds (st : Struct) (c : Coord) : Bool :=
  c.x < st.dims.x && c.y < st.dims.y && c.z < st.dims.z

/-- Modelled from the spec: `step(coords, direction) -> Result<coords,
OutOfBounds>`, §4.2 — total, failing exactly when the neighbor would leave the
structure's bounds. -/
def Struct.step (st : Struct) (c : Coord) (f : BlockFace) : Option Coord :=
  match f with
  | .Right => if c.x + 1 < st.dims.x then some ⟨c.x + 1, c.y, c.z⟩ else none
  | .Left => if 0 < c.x then some ⟨c.x - 1, c.y, c.z⟩ else none
  | .Top => if c.y + 1 < st.dims.y then some ⟨c.x, c.y + 1, c.z⟩ else none
  | .Bottom => if 0 < c.y then some ⟨c.x, c.y - 1, c.z⟩ else none
  | .Front => if c.z + 1 < st.dims.z then some ⟨c.x, c.y, c.z + 1⟩ else none
  | .Back => if 0 < c.z then some ⟨c.x, c.y, c.z - 1⟩ else none

/-- The logic-block registry: `Registry<LogicBlock>`, keyed by the numeric
block id (`from_id` composed with `Block::unlocalized_name`). -/
abbrev LogicRegistry : Type :=
  List (Nat × LogicBlock)

/-- Registry lookup (`logic_blocks.from_id(block.unlocalized_name())`);
`none` means the block is not a logic block. -/
def LogicRegistry.lookup (reg : LogicRegistry) (blockId : Nat) : Option LogicBlock :=
  (List.find? (fun e => e.1 = blockId) reg).map (fun e => e.2)

/-- `structure.block_at(coords, blocks)` followed by the registry lookup:
the logic data of the block at a coordinate, if any. -/
def logicBlockAt (st : Struct) (reg : LogicRegistry) (c : Coord) : Option LogicBlock :=
  reg.lookup (st.blockIdAt c)

/-- Association-list lookup, mirroring `HashMap::get`. -/
def alistGet {K V : Type} [DecidableEq K] (l : List (K × V)) (k : K) : Option V :=
  (List.find? (fun e => e.1 = k) l).map (fun e => e.2)

/-- Association-list insert, mirroring `HashMap::insert`: overwrite in place
when the key is present, else append. -/
def alistInsert {K V : Type} [DecidableEq K] : List (K × V) → K → V → List (K × V)
  | [], k, v => [(k, v)]
  | e :: t, k, v => if e.1 = k then (k, v) :: t else e :: alistInsert t k v

/-- Association-list removal, mirroring `HashMap::remove` (result only). -/
def alistRemove {K V : Type} [DecidableEq K] : List (K × V) → K → List (K × V)
  | [], _ => []
  | e :: t, k => if e.1 = k then alistRemove t k else e :: alistRemove t k

/-- Association-list in-place update, mirroring `HashMap::get_mut` followed by
a mutation; `none` when the key is absent (the source `expect`s / panics). -/
def alistModify {K V : Type} [DecidableEq K] : List (K × V) → K → (V → V) →
    Option (List (K × V))
  | [], _, _ => none
  | e :: t, k, f =>
    if e.1 = k then some ((k, f e.2) :: t) else (alistModify t k f).map (fun t2 => e :: t2)

/-- Membership-checked insert into a visited set, mirroring `HashSet::insert`. -/
def vinsert (p : Port) (v : List Port) : List Port :=
  if p ∈ v then v else p :: v

/-- One maximal connected component of wires/ports (`LogicGroup`): its current
signal and the optional representative wire coordinate. -/
structure LogicGroup where
  isOn : Bool
  recentWireCoords : Option Coord
deriving DecidableEq, Repr

/-- The per-structure wire graph (`WireGraph`): bidirectional indices between
ports and group ids, plus the id counter. -/
structure WireGraph where
  nextGroupId : Nat
  groups : List (Nat × LogicGroup)
  groupOfOutputPort : List (Port × Nat)
  groupOfInputPort : List (Port × Nat)
  outputPortsOfGroup : List (Nat × List Port)
  inputPortsOfGroup : List (Nat × List Port)
deriving DecidableEq, Repr

/-- The empty wire graph (`WireGraph::default`). -/
def WireGraph.empty : WireGraph :=
  ⟨0, [], [], [], [], []⟩

/-- `WireGraph::new_group_id`. -/
def WireGraph.newGroupId (g : WireGraph) : WireGraph × Nat :=
  ({ g with nextGroupId := g.nextGroupId + 1 }, g.nextGroupId)

/-- `WireGraph::new_group`: allocate a fresh group with empty port lists. -/
def WireGraph.newGroup (g : WireGraph) (isOn : Bool) (coords : Option Coord) :
    WireGraph × Nat :=
  let gi := g.newGroupId
  let g1 := gi.1
  let id := gi.2
  ({ g1 with
      groups := alistInsert g1.groups id ⟨isOn, coords⟩
      outputPortsOfGroup := alistInsert g1.outputPortsOfGroup id []
      inputPortsOfGroup := alistInsert g1.inputPortsOfGroup id [] }, id)

/-- `WireGraph::add_completed_group`. -/
def WireGraph.addCompletedGroup (g : WireGraph) (id : Nat) (isOn : Bool)
    (coords : Option Coord) (outputPorts inputPorts : List Port) : WireGraph :=
  { g with
      groups := alistInsert g.groups id ⟨isOn, coords⟩
      outputPortsOfGroup := alistInsert g.outputPortsOfGroup id outputPorts
      inputPortsOfGroup := alistInsert g.inputPortsOfGroup id inputPorts }

/-- `WireGraph::remove_group`; `none` when the group does not exist (the
source `expect`s). -/
def WireGraph.removeGroup (g : WireGraph) (id : Nat) : Option (WireGraph × LogicGroup) :=
  match alistGet g.groups id with
  | none => none
  | some gr =>
      some
        ({ g with
            groups := alistRemove g.groups id
            outputPortsOfGroup := alistRemove g.outputPortsOfGroup id
            inputPortsOfGroup := alistRemove g.inputPortsOfGroup id }, gr)

/-- The port-to-group index for the given port type. -/
def WireGraph.portMap (g : WireGraph) (t : PortType) : List (Port × Nat) :=
  match t with
  | .Input => g.groupOfInputPort
  | .Output => g.groupOfOutputPort

/-- The group-to-ports index for the given port type. -/
def WireGraph.portsOfGroup (g : WireGraph) (t : PortType) : List (Nat × List Port) :=
  match t with
  | .Input => g.inputPortsOfGroup
  | .Output => g.outputPortsOfGroup

/-- Replace the port-to-group index for the given port type. -/
def WireGraph.setPortMap (g : WireGraph) (t : PortType) (m : List (Port × Nat)) :
    WireGraph :=
  match t with
  | .Input => { g with groupOfInputPort := m }
  | .Output => { g with groupOfOutputPort := m }

/-- Replace the group-to-ports index for the given port type. -/
def WireGraph.setPortsOfGroup (g : WireGraph) (t : PortType) (m : List (Nat × List Port)) :
    WireGraph :=
  match t with
  | .Input => { g with inputPortsOfGroup := m }
  | .Output => { g with outputPortsOfGroup := m }

/-- `WireGraph::add_port`: record the port in the port-to-group map and push it
onto the group's port list; `none` when the group has no port-list entry (the
source `expect`s). -/
def WireGraph.addPort (g : WireGraph) (coords : Coord) (localFace : BlockFace)
    (groupId : Nat) (portType : PortType) : Option WireGraph :=
  let g1 := g.setPortMap portType (alistInsert (g.portMap portType) ⟨coords, localFace⟩ groupId)
  match alistModify (g1.portsOfGroup portType) groupId
      (fun ports => ports ++ [⟨coords, localFace⟩]) with
  | none => none
  | some m => some (g1.setPortsOfGroup portType m)

/-- The face-loop of `WireGraph::find_group`'s wire arm: iterate the wire
faces, marking each wire-face port visited, stepping to the neighbor, skipping
already-visited entries, and recursing (`recurse` is `find_group` at the next
fuel level); the first group found is returned.  The visited set is threaded
exactly as the source's `&mut` reference. -/
def findGroupLoop (st : Struct) (coords : Coord)
    (recurse : Coord → BlockFace → List Port → Option (List Port × Option Nat)) :
    List BlockFace → List Port → Option (List Port × Option Nat)
  | [], visited => some (visited, none)
  | face :: faces, visited =>
    let localFace := (st.rotAt coords).globalToLocal face
    let visited1 := vinsert ⟨coords, localFace⟩ visited
    match st.step coords localFace with
    | none => findGroupLoop st coords recurse faces visited1
    | some neighborCoords =>
      if Port.mk neighborCoords localFace.inverse ∈ visited1 then
        findGroupLoop st coords recurse faces visited1
      else
        match recurse neighborCoords localFace.inverse visited1 with
        | none => none
        | some (v2, some gid) => some (v2, some gid)
        | some (v2, none) => findGroupLoop st coords recurse faces v2

/-- `WireGraph::find_group`, with explicit fuel.  Returns `none` when the fuel
runs out; otherwise `some (visited', result)` where `result` is the source's
`Option<usize>` and `visited'` the updated visited set. -/
def findGroup (st : Struct) (reg : LogicRegistry) (g : WireGraph) :
    Nat → Coord → BlockFace → List Port → Option (List Port × Option Nat)
  | 0, _, _, _ => none
  | fuel + 1, coords, encounteredLocalFace, visited =>
    match logicBlockAt st reg coords with
    | none => some (visited, none)
    | some lb =>
      let encounteredFace := (st.rotAt coords).localToGlobal encounteredLocalFace
      match lb.connectionOn encounteredFace with
      | some (.Port .Input) =>
          some (visited, alistGet g.groupOfInputPort ⟨coords, encounteredLocalFace⟩)
      | some (.Port .Output) =>
          some (visited, alistGet g.groupOfOutputPort ⟨coords, encounteredLocalFace⟩)
      | some .Wire =>
        match List.find? (fun e => e.2.recentWireCoords = some coords) g.groups with
        | some e => some (visited, some e.1)
        | none =>
          let visited1 := vinsert ⟨coords, encounteredLocalFace⟩ visited
          findGroupLoop st coords (findGroup st reg g fuel) lb.wireFaces visited1
      | none => some (visited, none)

/-- `WireGraph::find_group_all_faces`: search from every wire-face neighbor of
the block, sharing one visited set, returning the first group found. -/
def findGroupAllFaces (st : Struct) (reg : LogicRegistry) (g : WireGraph) (fuel : Nat)
    (coords : Coord) : List BlockFace → List Port → Option (List Port × Option Nat)
  | [], visited => some (visited, none)
  | face :: faces, visited =>
    let localFace := (st.rotAt coords).globalToLocal face
    match st.step coords localFace with
    | none => findGroupAllFaces st reg g fuel coords faces visited
    | some neighborCoords =>
      match findGroup st reg g fuel neighborCoords localFace.inverse visited with
      | none => none
      | some (v2, some gid) => some (v2, some gid)
      | some (v2, none) => findGroupAllFaces st reg g fuel coords faces v2

/-- `WireGraph::neighbor_port`: attach one declared port face of a new block.
If the neighbor coordinates don't exist, no port is added (and thus no new
group); otherwise the port joins the group found from the neighbor, or a fresh
empty-signal group. -/
def neighborPort (st : Struct) (reg : LogicRegistry) (fuel : Nat) (g : WireGraph)
    (coords : Coord) (globalFace : BlockFace) (portType : PortType) : Option WireGraph :=
  let localFace := (st.rotAt coords).globalToLocal globalFace
  match st.step coords localFace with
  | none => some g
  | some neighborCoords =>
    match findGroup st reg g fuel neighborCoords localFace.inverse (Port.allFor coords) with
    | none => none
    | some (_, maybeGroup) =>
      match maybeGroup with
      | some groupId => g.addPort coords localFace groupId portType
      | none =>
        let gi := g.newGroup false none
        gi.1.addPort coords localFace gi.2 portType

/-- `WireGraph::remove_port`: detach one port face of a removed block.  If the
neighbor search finds no group the port's whole group is removed, otherwise
only the port is deleted from its group's port list; in both cases the
port-to-group entry is deleted. -/
def removePort (st : Struct) (reg : LogicRegistry) (fuel : Nat) (g : WireGraph)
    (coords : Coord) (face : BlockFace) (portType : PortType) : Option WireGraph :=
  let localFace := (st.rotAt coords).globalToLocal face
  match st.step coords localFace with
  | none => some g
  | some neighborCoords =>
    let port : Port := ⟨coords, localFace⟩
    match alistGet (g.portMap portType) port with
    | none => some g
    | some groupId =>
      match findGroup st reg g fuel neighborCoords localFace.inverse (Port.allFor coords) with
      | none => none
      | some (_, maybeGroup) =>
        match maybeGroup with
        | none =>
          match g.removeGroup groupId with
          | none => none
          | some (g1, _) =>
            some (g1.setPortMap portType (alistRemove (g1.portMap portType) port))
        | some _ =>
          match alistGet (g.portsOfGroup portType) groupId with
          | none => none
          | some groupPorts =>
            if port ∈ groupPorts then
              let g1 := g.setPortsOfGroup portType
                (alistInsert (g.portsOfGroup portType) groupId (groupPorts.erase port))
              some (g1.setPortMap portType (alistRemove (g1.portMap portType) port))
            else
              none

/-- The wire-face scan of `WireGraph::add_logic_block`: collect the set of
distinct group ids reachable from all wire-neighbors (a fresh visited set per
face, as in the source), in scan order. -/
def collectWireGroupsLoop (st : Struct) (reg : LogicRegistry) (fuel : Nat) (g : WireGraph)
    (coords : Coord) : List BlockFace → List Nat → Option (List Nat)
  | [], groupIds => some groupIds
  | face :: faces, groupIds =>
    let localFace := (st.rotAt coords).globalToLocal face
    match st.step coords localFace with
    | none => collectWireGroupsLoop st reg fuel g coords faces groupIds
    | some neighborCoords =>
      match findGroup st reg g fuel neighborCoords localFace.inverse (Port.allFor coords) with
      | none => none
      | some (_, some gid) =>
        collectWireGroupsLoop st reg fuel g coords faces
          (if gid ∈ groupIds then groupIds else groupIds ++ [gid])
      | some (_, none) => collectWireGroupsLoop st reg fuel g coords faces groupIds

/-- The distinct group ids adjacent to a wire block's wire faces. -/
def collectWireGroups (st : Struct) (reg : LogicRegistry) (fuel : Nat) (g : WireGraph)
    (lb : LogicBlock) (coords : Coord) : Option (List Nat) :=
  collectWireGroupsLoop st reg fuel g coords lb.wireFaces []

/-- The signal fold of `WireGraph::merge_adjacent_groups`: the new group is on
if any of the merged groups was; `none` when a group id is missing (the source
indexes `self.groups[group_id]`, which panics). -/
def groupsOrSignal (gs : List (Nat × LogicGroup)) : List Nat → Bool → Option Bool
  | [], acc => some acc
  | id :: ids, acc =>
    match alistGet gs id with
    | none => none
    | some gr => groupsOrSignal gs ids (acc || gr.isOn)

/-- Remove each listed group in turn (`remove_group` per merged id). -/
def removeGroupsList : WireGraph → List Nat → Option WireGraph
  | g, [] => some g
  | g, id :: ids =>
    match g.removeGroup id with
    | none => none
    | some (g1, _) => removeGroupsList g1 ids

/-- `WireGraph::merge_adjacent_groups`: allocate one new id, rewrite every
input and output port of the old groups to it, OR the old signals, delete the
old groups and create the merged group with the collected ports and the new
wire as its representative coordinate. -/
def WireGraph.mergeAdjacentGroups (g : WireGraph) (groupIds : List Nat) (coords : Coord) :
    Option WireGraph :=
  let gi := g.newGroupId
  let g1 := gi.1
  let newGroupId := gi.2
  let outputPorts := (g1.groupOfOutputPort.filter (fun e => e.2 ∈ groupIds)).map (fun e => e.1)
  let inputPorts := (g1.groupOfInputPort.filter (fun e => e.2 ∈ groupIds)).map (fun e => e.1)
  let g2 :=
    { g1 with
        groupOfOutputPort :=
          g1.groupOfOutputPort.map (fun e => if e.2 ∈ groupIds then (e.1, newGroupId) else e)
        groupOfInputPort :=
          g1.groupOfInputPort.map (fun e => if e.2 ∈ groupIds then (e.1, newGroupId) else e) }
  match groupsOrSignal g2.groups groupIds false with
  | none => none
  | some newGroupOn =>
    match removeGroupsList g2 groupIds with
    | none => none
    | some g3 => some (g3.addCompletedGroup newGroupId newGroupOn (some coords) outputPorts inputPorts)

/-- Attach every listed port face via `neighbor_port`. -/
def neighborPortsLoop (st : Struct) (reg : LogicRegistry) (fuel : Nat) (coords : Coord)
    (portType : PortType) : List BlockFace → WireGraph → Option WireGraph
  | [], g => some g
  | face :: faces, g =>
    match neighborPort st reg fuel g coords face portType with
    | none => none
    | some g1 => neighborPortsLoop st reg fuel coords portType faces g1

/-- `WireGraph::add_logic_block`: attach input ports, then output ports, then
resolve the wire faces — creating a group if none is adjacent, adopting the
single adjacent group's representative coordinate, or merging several. -/
def addLogicBlock (st : Struct) (reg : LogicRegistry) (fuel : Nat) (g : WireGraph)
    (lb : LogicBlock) (coords : Coord) : Option WireGraph :=
  match neighborPortsLoop st reg fuel coords .Input lb.inputFaces g with
  | none => none
  | some g1 =>
    match neighborPortsLoop st reg fuel coords .Output lb.outputFaces g1 with
    | none => none
    | some g2 =>
      if 0 < lb.wireFaces.length then
        match collectWireGroups st reg fuel g2 lb coords with
        | none => none
        | some groupIds =>
          match groupIds with
          | [] => some (g2.newGroup false (some coords)).1
          | [gid] =>
            match alistModify g2.groups gid
                (fun gr => { gr with recentWireCoords := some coords }) with
            | none => none
            | some gs => some { g2 with groups := gs }
          | _ => g2.mergeAdjacentGroups groupIds coords
      else
        some g2

/-- The face-loop of `WireGraph::rename_group`'s wire arm (`recurse` is
`rename_group` at the next fuel level); the returned bool of recursive calls
is discarded, graph and visited set are threaded. -/
def renameGroupLoop (st : Struct) (coords : Coord)
    (recurse : WireGraph → Coord → BlockFace → List Port → Option (WireGraph × List Port × Bool)) :
    List BlockFace → WireGraph → List Port → Option (WireGraph × List Port)
  | [], g, visited => some (g, visited)
  | face :: faces, g, visited =>
    let localFace := (st.rotAt coords).globalToLocal face
    let visited1 := vinsert ⟨coords, localFace⟩ visited
    match st.step coords localFace with
    | none => renameGroupLoop st coords recurse faces g visited1
    | some neighborCoords =>
      if Port.mk neighborCoords localFace.inverse ∈ visited1 then
        renameGroupLoop st coords recurse faces g visited1
      else
        match recurse g neighborCoords localFace.inverse visited1 with
        | none => none
        | some (g2, v2, _) => renameGroupLoop st coords recurse faces g2 v2

/-- `WireGraph::rename_group`: DFS re-attaching every encountered port to the
new group id; returns whether the entered face had any logic connection (the
"new group was used" flag). -/
def renameGroup (st : Struct) (reg : LogicRegistry) :
    Nat → WireGraph → Nat → Coord → BlockFace → List Port →
    Option (WireGraph × List Port × Bool)
  | 0, _, _, _, _, _ => none
  | fuel + 1, g, newGroupId, coords, encounteredLocalFace, visited =>
    if Port.mk coords encounteredLocalFace ∈ visited then
      some (g, visited, false)
    else
      match logicBlockAt st reg coords with
      | none => some (g, visited, false)
      | some lb =>
        let encounteredFace := (st.rotAt coords).localToGlobal encounteredLocalFace
        match lb.connectionOn encounteredFace with
        | some (.Port portType) =>
          match g.addPort coords encounteredLocalFace newGroupId portType with
          | none => none
          | some g1 => some (g1, visited, true)
        | some .Wire =>
          let visited1 := vinsert ⟨coords, encounteredLocalFace⟩ visited
          match renameGroupLoop st coords
              (fun g' c f v => renameGroup st reg fuel g' newGroupId c f v)
              lb.wireFaces g visited1 with
          | none => none
          | some (g2, v2) =>
            match alistModify g2.groups newGroupId
                (fun gr => { gr with recentWireCoords := some coords }) with
            | none => none
            | some gs => some ({ g2 with groups := gs }, v2, true)
        | none => some (g, visited, false)

/-- The rebuild loop of `WireGraph::remove_logic_block`: per remaining
wire-neighbor, allocate a fresh group carrying the removed group's signal,
rename the reachable component to it, and discard the fresh group when the
rename did not use it. -/
def removeWireRebuildLoop (st : Struct) (reg : LogicRegistry) (fuel : Nat) (coords : Coord)
    (removedOn : Bool) : List BlockFace → WireGraph → List Port → Option WireGraph
  | [], g, _ => some g
  | face :: faces, g, visited =>
    let localFace := (st.rotAt coords).globalToLocal face
    match st.step coords localFace with
    | none => removeWireRebuildLoop st reg fuel coords removedOn faces g visited
    | some neighborCoords =>
      let gi := g.newGroup removedOn none
      match renameGroup st reg fuel gi.1 gi.2 neighborCoords localFace.inverse visited with
      | none => none
      | some (g2, v2, usedNewGroup) =>
        if usedNewGroup then
          removeWireRebuildLoop st reg fuel coords removedOn faces g2 v2
        else
          match g2.removeGroup gi.2 with
          | none => none
          | some (g3, _) => removeWireRebuildLoop st reg fuel coords removedOn faces g3 v2

/-- Detach every listed port face via `remove_port`. -/
def removePortsLoop (st : Struct) (reg : LogicRegistry) (fuel : Nat) (coords : Coord)
    (portType : PortType) : List BlockFace → WireGraph → Option WireGraph
  | [], g => some g
  | face :: faces, g =>
    match removePort st reg fuel g coords face portType with
    | none => none
    | some g1 => removePortsLoop st reg fuel coords portType faces g1

/-- `WireGraph::remove_logic_block`: detach the block's input and output
ports; for wire faces, find the wire's old group (representative-coordinate
shortcut, else searching all faces), delete it whole, and re-derive a fresh
group per remaining wire-neighbor. -/
def removeLogicBlock (st : Struct) (reg : LogicRegistry) (fuel : Nat) (g : WireGraph)
    (lb : LogicBlock) (coords : Coord) : Option WireGraph :=
  match removePortsLoop st reg fuel coords .Input lb.inputFaces g with
  | none => none
  | some g1 =>
    match removePortsLoop st reg fuel coords .Output lb.outputFaces g1 with
    | none => none
    | some g2 =>
      if 0 < lb.wireFaces.length then
        let hintId := (List.find? (fun e => e.2.recentWireCoords = some coords) g2.groups).map
          (fun e => e.1)
        match (match hintId with
               | some gid => some (some gid)
               | none =>
                 match findGroupAllFaces st reg g2 fuel coords lb.wireFaces (Port.allFor coords) with
                 | none => none
                 | some (_, r) => some r) with
        | none => none
        | some none => none
        | some (some groupId) =>
          match g2.removeGroup groupId with
          | none => none
          | some (g3, removedGroup) =>
            removeWireRebuildLoop st reg fuel coords removedGroup.isOn lb.wireFaces g3
              (Port.allFor coords)
      else
        some g2

/-- `logic_block_placed_event_listner` (one `BlockChangedEvent`): if the old
block id has a registry entry, remove it from the graph; if the new block id
has one, add it.  A block type missing from the registry triggers no graph
mutation at all. -/
def onBlockChanged (st : Struct) (reg : LogicRegistry) (fuel : Nat) (g : WireGraph)
    (oldBlockId newBlockId : Nat) (coords : Coord) : Option WireGraph :=
  match (match reg.lookup oldBlockId with
         | some lb => removeLogicBlock st reg fuel g lb coords
         | none => some g) with
  | none => none
  | some g1 =>
    match reg.lookup newBlockId with
    | some lb => addLogicBlock st reg fuel g1 lb coords
    | none => some g1

/-- A wire block: all six faces `Wire` (the registry entry for
"cosmos:logic_wire"). -/
def wireBlock : LogicBlock :=
  ⟨fun _ => some .Wire⟩

/-- A test block with a single output port on its `Right` face. -/
def outRightBlock : LogicBlock :=
  ⟨fun f => if f = .Right then some (.Port .Output) else none⟩

/-- A test block with a single output port on its `Left` face. -/
def outLeftBlock : LogicBlock :=
  ⟨fun f => if f = .Left then some (.Port .Output) else none⟩

/-- A test block with a single input port on its `Left` face. -/
def inLeftBlock : LogicBlock :=
  ⟨fun f => if f = .Left then some (.Port .Input) else none⟩

/-- A test registry: block id 1 is the wire, 2 the right-output block, 3 the
left-input block. -/
def testReg : LogicRegistry :=
  [(1, wireBlock), (2, outRightBlock), (3, inLeftBlock), (4, outLeftBlock)]

/-- A test structure: explicit cell contents (id 0, absent from the registry,
is air), identity rotations. -/
def mkStruct (dims : Coord) (cells : List (Coord × Nat)) : Struct :=
  { dims := dims
    blockIdAt := fun c => (alistGet cells c).getD 0
    rotAt := fun _ => Rotation.id }

/-- A 3-cell line structure holding wire blocks at the listed x positions. -/
def lineSt (cells : List Nat) : Struct :=
  mkStruct ⟨3, 1, 1⟩ (cells.map (fun x => (⟨x, 0, 0⟩, 1)))

/-- Scenario C of the spec: build the 3-wire line A-B-C by placing wires at
x = 0, 1, 2 (the structure grows with each placement, as the block-changed
listener sees it), then remove the middle wire B. -/
def scenarioCFinal : Option WireGraph :=
  (addLogicBlock (lineSt [0]) testReg 32 WireGraph.empty wireBlock ⟨0, 0, 0⟩).bind
    (fun g => (addLogicBlock (lineSt [0, 1]) testReg 32 g wireBlock ⟨1, 0, 0⟩).bind
      (fun g1 => (addLogicBlock (lineSt [0, 1, 2]) testReg 32 g1 wireBlock ⟨2, 0, 0⟩).bind
        (fun g2 => removeLogicBlock (lineSt [0, 2]) testReg 32 g2 wireBlock ⟨1, 0, 0⟩)))

/-- The graph Scenario C actually leaves: two portless wire groups, one per
side of the removed middle wire. -/
def scenarioCExpected : WireGraph :=
  { nextGroupId := 3
    groups := [(1, ⟨false, some ⟨2, 0, 0⟩⟩), (2, ⟨false, some ⟨0, 0, 0⟩⟩)]
    groupOfOutputPort := []
    groupOfInputPort := []
    outputPortsOfGroup := [(1, []), (2, [])]
    inputPortsOfGroup := [(1, []), (2, [])] }

/-- A 5-cell line structure with the listed (x, block id) contents. -/
def mergeSt (cells : List (Nat × Nat)) : Struct :=
  mkStruct ⟨5, 1, 1⟩ (cells.map (fun p => (⟨p.1, 0, 0⟩, p.2)))

/-- The merge scenario for P1: network A (output port at x = 0, wire at
x = 1, one port) and network B (output port at x = 4, wire at x = 3, one
port), then one wire placed at x = 2 adjacent to both. -/
def mergeScenarioFinal : Option WireGraph :=
  (addLogicBlock (mergeSt [(0, 2)]) testReg 32 WireGraph.empty outRightBlock ⟨0, 0, 0⟩).bind
    (fun g => (addLogicBlock (mergeSt [(0, 2), (1, 1)]) testReg 32 g wireBlock ⟨1, 0, 0⟩).bind
      (fun g1 =>
        (addLogicBlock (mergeSt [(0, 2), (1, 1), (4, 4)]) testReg 32 g1 outLeftBlock
            ⟨4, 0, 0⟩).bind
          (fun g2 =>
            (addLogicBlock (mergeSt [(0, 2), (1, 1), (4, 4), (3, 1)]) testReg 32 g2 wireBlock
                ⟨3, 0, 0⟩).bind
              (fun g3 =>
                addLogicBlock (mergeSt [(0, 2), (1, 1), (4, 4), (3, 1), (2, 1)]) testReg 32 g3
                  wireBlock ⟨2, 0, 0⟩))))

/-- The total number of ports of the single merged group (id 2) in the merge
scenario. -/
def mergeScenarioPortCount : Option Nat :=
  mergeScenarioFinal.map (fun g =>
    ((alistGet g.outputPortsOfGroup 2).getD []).length +
      ((alistGet g.inputPortsOfGroup 2).getD []).length)

/-- The no-dangling-groups property exactly as claimed: every existing group
id has at least one port in one of the input/output indices. -/
def ClaimedNoDangling (g : WireGraph) : Prop :=
  ∀ e ∈ g.groups,
    (alistGet g.outputPortsOfGroup e.1).getD [] ≠ [] ∨
      (alistGet g.inputPortsOfGroup e.1).getD [] ≠ []

/-- Adding one lone wire block to the empty graph. -/
def loneWireFinal : Option WireGraph :=
  addLogicBlock (mkStruct ⟨1, 1, 1⟩ [(⟨0, 0, 0⟩, 1)]) testReg 32 WireGraph.empty wireBlock
    ⟨0, 0, 0⟩

/-- The graph after adding one lone wire: a single group, no ports. -/
def loneWireExpected : WireGraph :=
  { nextGroupId := 1
    groups := [(0, ⟨false, some ⟨0, 0, 0⟩⟩)]
    groupOfOutputPort := []
    groupOfInputPort := []
    outputPortsOfGroup := [(0, [])]
    inputPortsOfGroup := [(0, [])] }

/-- A 2-cell structure with the right-output block at x = 0 and air at x = 1. -/
def dblSt : Struct :=
  mkStruct ⟨2, 1, 1⟩ [(⟨0, 0, 0⟩, 2)]

/-- The output port of the block at the origin. -/
def p00R : Port :=
  ⟨⟨0, 0, 0⟩, .Right⟩

/-- Adding the same output block twice in a row (a sequence of two
`add_logic_block` operations for one block). -/
def doubleAddFinal : Option WireGraph :=
  (addLogicBlock dblSt testReg 32 WireGraph.empty outRightBlock ⟨0, 0, 0⟩).bind
    (fun g => addLogicBlock dblSt testReg 32 g outRightBlock ⟨0, 0, 0⟩)

/-- The graph after the double add: the port is mapped to group 1 but still
listed (exactly once) under group 0. -/
def doubleAddExpected : WireGraph :=
  { nextGroupId := 2
    groups := [(0, ⟨false, none⟩), (1, ⟨false, none⟩)]
    groupOfOutputPort := [(p00R, 1)]
    groupOfInputPort := []
    outputPortsOfGroup := [(0, [p00R]), (1, [p00R])]
    inputPortsOfGroup := [(0, []), (1, [])] }

/-- A graph state in which `p00R` is already recorded under group 0. -/
def staleG : WireGraph :=
  { nextGroupId := 1
    groups := [(0, ⟨false, none⟩)]
    groupOfOutputPort := [(p00R, 0)]
    groupOfInputPort := []
    outputPortsOfGroup := [(0, [p00R])]
    inputPortsOfGroup := [(0, [])] }

/-- Add then immediately remove the same output block, same coordinates and
rotation, starting from `staleG`. -/
def staleRoundTripFinal : Option WireGraph :=
  (addLogicBlock dblSt testReg 32 staleG outRightBlock ⟨0, 0, 0⟩).bind
    (fun g => removeLogicBlock dblSt testReg 32 g outRightBlock ⟨0, 0, 0⟩)

/-- The graph the stale round trip actually leaves: the port's map entry is
gone entirely. -/
def staleRoundTripExpected : WireGraph :=
  { nextGroupId := 2
    groups := [(0, ⟨false, none⟩)]
    groupOfOutputPort := []
    groupOfInputPort := []
    outputPortsOfGroup := [(0, [p00R])]
    inputPortsOfGroup := [(0, [])] }

/-- Adding the right-output block in a 1-cell structure: its only declared
port face steps out of bounds. -/
def oobPortFinal : Option WireGraph :=
  addLogicBlock (mkStruct ⟨1, 1, 1⟩ [(⟨0, 0, 0⟩, 2)]) testReg 32 WireGraph.empty outRightBlock
    ⟨0, 0, 0⟩

/-- C2, counterexample: removing the middle wire of the 3-wire line A-B-C does
not leave zero groups — two (portless) groups remain, one per side. -/
theorem c2_counterexample :
    scenarioCFinal.map (fun g => g.groups.length) = some 2 ∧
      scenarioCFinal.map (fun g => g.groups.length) ≠ some 0 := by
  constructor
  · decide
  · decide

/-- C3, counterexample: after adding one lone wire block to the empty graph, a
group with zero ports in both indices exists, so the claimed invariant fails
already for this one-operation sequence. -/
theorem c3_counterexample :
    loneWireFinal = some loneWireExpected ∧ ¬ ClaimedNoDangling loneWireExpected := by
  constructor
  · decide
  · intro h
    exact absurd (h (0, ⟨false, some ⟨0, 0, 0⟩⟩) (by decide)) (by decide)

/-- C1, counterexample: merging two one-port networks through one new wire
block yields a single group with 1 + 1 = 2 ports, not 1 + 1 + 1 = 3 as
claimed (the connecting wire itself carries no port). -/
theorem c1_counterexample :
    mergeScenarioPortCount = some 2 ∧ mergeScenarioPortCount ≠ some 3 := by
  constructor
  · decide
  · decide

/-- C7, counterexample: a declared output-port face whose neighbor is out of
bounds is skipped entirely — no port is attached to any group — unlike a
present-but-empty neighbor, which yields a fresh group and an attached port. -/
theorem c7_counterexample :
    outRightBlock.outputFaces = [.Right] ∧
      oobPortFinal = some WireGraph.empty ∧
      alistGet WireGraph.empty.groupOfOutputPort ⟨⟨0, 0, 0⟩, .Right⟩ = none := by
  refine ⟨by decide, by decide, by decide⟩

/-- C10, counterexample: after two `add_logic_block` operations for the same
output block (starting from the empty graph), the port occurs exactly once in
the port list of group 0 yet is mapped to group 1, refuting the bidirectional
consistency claim for arbitrary operation sequences. -/
theorem c10_counterexample :
    doubleAddFinal = some doubleAddExpected ∧
      (doubleAddExpected.outputPortsOfGroup.head?.map (fun e => e.2.count p00R)) = some 1 ∧
      alistGet doubleAddExpected.groupOfOutputPort p00R = some 1 ∧ (1 : Nat) ≠ 0 := by
  refine ⟨by decide, by decide, by decide, by decide⟩

/-- C5, counterexample: from a graph state in which the block's port is
already recorded, add-then-remove of that block does not restore the partition
of ports into groups — the port was in group 0 beforehand and belongs to no
group afterwards. -/
theorem c5_counterexample :
    staleRoundTripFinal = some staleRoundTripExpected ∧
      alistGet staleG.groupOfOutputPort p00R = some 0 ∧
      alistGet staleRoundTripExpected.groupOfOutputPort p00R = none := by
  refine ⟨by decide, by decide, by decide⟩

theorem alistGet_cons {K V : Type} [DecidableEq K] (e : K × V) (l : List (K × V)) (k : K) :
    alistGet (e :: l) k = if e.1 = k then some e.2 else alistGet l k := by
  by_cases h : e.1 = k <;> simp [alistGet, List.find?_cons, h]

theorem alistGet_insert_self {K V : Type} [DecidableEq K] (l : List (K × V)) (k : K) (v : V) :
    alistGet (alistInsert l k v) k = some v := by
  induction l with
  | nil => simp [alistInsert, alistGet_cons]
  | cons e t ih =>
    by_cases he : e.1 = k
    · simp [alistInsert, he, alistGet_cons]
    · simp [alistInsert, he, alistGet_cons, ih]

theorem alistGet_insert_ne {K V : Type} [DecidableEq K] (l : List (K × V)) (k k' : K) (v : V)
    (h : k' ≠ k) : alistGet (alistInsert l k v) k' = alistGet l k' := by
  induction l with
  | nil => simp [alistInsert, alistGet_cons, Ne.symm h]
  | cons e t ih =>
    by_cases he : e.1 = k
    · have h2 : ¬ e.1 = k' := by rw [he]; exact Ne.symm h
      simp [alistInsert, he, alistGet_cons, Ne.symm h, h2]
    · simp [alistInsert, he, alistGet_cons, ih]

theorem alistGet_remove_self {K V : Type} [DecidableEq K] (l : List (K × V)) (k : K) :
    alistGet (alistRemove l k) k = none := by
  induction l with
  | nil => rfl
  | cons e t ih =>
    by_cases he : e.1 = k
    · simpa [alistRemove, he] using ih
    · simpa [alistRemove, he, alistGet_cons] using ih

theorem alistGet_remove_ne {K V : Type} [DecidableEq K] (l : List (K × V)) (k k' : K)
    (h : k' ≠ k) : alistGet (alistRemove l k) k' = alistGet l k' := by
  induction l with
  | nil => rfl
  | cons e t ih =>
    by_cases he : e.1 = k
    · have h2 : ¬ e.1 = k' := by rw [he]; exact Ne.symm h
      simp [alistRemove, he, alistGet_cons, h2, Ne.symm h, ih]
    · simp [alistRemove, he, alistGet_cons, ih]

theorem alistModify_isSome {K V : Type} [DecidableEq K] (l : List (K × V)) (k : K)
    (f : V → V) : (alistModify l k f).isSome = (alistGet l k).isSome := by
  induction l with
  | nil => rfl
  | cons e t ih =>
    by_cases he : e.1 = k
    · simp [alistModify, he, alistGet_cons]
    · simp [alistModify, he, alistGet_cons, ih]

theorem alistGet_modify_self {K V : Type} [DecidableEq K] {l l' : List (K × V)} {k : K}
    {f : V → V} (h : alistModify l k f = some l') :
    alistGet l' k = (alistGet l k).map f := by
  induction l generalizing l' with
  | nil => simp [alistModify] at h
  | cons e t ih =>
    by_cases he : e.1 = k
    · simp only [alistModify, he, if_true, Option.some.injEq] at h
      subst h
      simp [alistGet_cons, he]
    · simp only [alistModify, he, if_false] at h
      cases hm : alistModify t k f with
      | none => rw [hm] at h; simp at h
      | some t2 =>
        rw [hm] at h
        simp only [Option.map_some', Option.some.injEq] at h
        subst h
        simp [alistGet_cons, he, ih hm]

theorem alistGet_modify_ne {K V : Type} [DecidableEq K] {l l' : List (K × V)} {k k' : K}
    {f : V → V} (h : alistModify l k f = some l') (hne : k' ≠ k) :
    alistGet l' k' = alistGet l k' := by
  induction l generalizing l' with
  | nil => simp [alistModify] at h
  | cons e t ih =>
    by_cases he : e.1 = k
    · simp only [alistModify, he, if_true, Option.some.injEq] at h
      subst h
      have h2 : ¬ e.1 = k' := by rw [he]; exact Ne.symm hne
      simp [alistGet_cons, h2, Ne.symm hne]
    · simp only [alistModify, he, if_false] at h
      cases hm : alistModify t k f with
      | none => rw [hm] at h; simp at h
      | some t2 =>
        rw [hm] at h
        simp only [Option.map_some', Option.some.injEq] at h
        subst h
        simp [alistGet_cons, ih hm]

theorem alistGet_mapValues {K V : Type} [DecidableEq K] (l : List (K × V)) (k : K)
    (P : V → Bool) (n : V) :
    alistGet (l.map (fun e => if P e.2 then (e.1, n) else e)) k =
      (alistGet l k).map (fun v => if P v then n else v) := by
  induction l with
  | nil => rfl
  | cons e t ih =>
    by_cases hp : P e.2
    · by_cases he : e.1 = k
      · simp [alistGet_cons, hp, he]
      · simp [alistGet_cons, hp, he, ih]
    · by_cases he : e.1 = k
      · simp [alistGet_cons, hp, he]
      · simp [alistGet_cons, hp, he, ih]

theorem portMap_setPortsOfGroup (g : WireGraph) (t t' : PortType) (m : List (Nat × List Port)) :
    (g.setPortsOfGroup t m).portMap t' = g.portMap t' := by
  cases t <;> cases t' <;> rfl

theorem portMap_setPortMap_self (g : WireGraph) (t : PortType) (m : List (Port × Nat)) :
    (g.setPortMap t m).portMap t = m := by
  cases t <;> rfl

theorem portsOfGroup_setPortMap (g : WireGraph) (t t' : PortType) (m : List (Port × Nat)) :
    (g.setPortMap t m).portsOfGroup t' = g.portsOfGroup t' := by
  cases t <;> cases t' <;> rfl

theorem portsOfGroup_setPortsOfGroup_self (g : WireGraph) (t : PortType)
    (m : List (Nat × List Port)) : (g.setPortsOfGroup t m).portsOfGroup t = m := by
  cases t <;> rfl

theorem groups_setPortMap (g : WireGraph) (t : PortType) (m : List (Port × Nat)) :
    (g.setPortMap t m).groups = g.groups := by
  cases t <;> rfl

theorem groups_setPortsOfGroup (g : WireGraph) (t : PortType) (m : List (Nat × List Port)) :
    (g.setPortsOfGroup t m).groups = g.groups := by
  cases t <;> rfl

theorem newGroup_snd (g : WireGraph) (isOn : Bool) (co : Option Coord) :
    (g.newGroup isOn co).2 = g.nextGroupId :=
  rfl

theorem newGroup_groups (g : WireGraph) (isOn : Bool) (co : Option Coord) :
    (g.newGroup isOn co).1.groups = alistInsert g.groups g.nextGroupId ⟨isOn, co⟩ :=
  rfl

theorem newGroup_nextGroupId (g : WireGraph) (isOn : Bool) (co : Option Coord) :
    (g.newGroup isOn co).1.nextGroupId = g.nextGroupId + 1 :=
  rfl

theorem newGroup_portMap (g : WireGraph) (isOn : Bool) (co : Option Coord) (t : PortType) :
    (g.newGroup isOn co).1.portMap t = g.portMap t := by
  cases t <;> rfl

theorem newGroup_portsOfGroup (g : WireGraph) (isOn : Bool) (co : Option Coord) (t : PortType) :
    (g.newGroup isOn co).1.portsOfGroup t = alistInsert (g.portsOfGroup t) g.nextGroupId [] := by
  cases t <;> rfl

theorem addPort_portMap_self {g g' : WireGraph} {c : Coord} {f : BlockFace} {gid : Nat}
    {t : PortType} (h : g.addPort c f gid t = some g') :
    alistGet (g'.portMap t) ⟨c, f⟩ = some gid := by
  simp only [WireGraph.addPort] at h
  split at h
  · exact absurd h (by simp)
  · simp only [Option.some.injEq] at h
    subst h
    rw [portMap_setPortsOfGroup, portMap_setPortMap_self]
    exact alistGet_insert_self _ _ _

theorem addPort_groups {g g' : WireGraph} {c : Coord} {f : BlockFace} {gid : Nat}
    {t : PortType} (h : g.addPort c f gid t = some g') : g'.groups = g.groups := by
  simp only [WireGraph.addPort] at h
  split at h
  · exact absurd h (by simp)
  · simp only [Option.some.injEq] at h
    subst h
    rw [groups_setPortsOfGroup, groups_setPortMap]

/-- C7, amended: for a declared port face whose neighbor coordinates exist,
the port is attached to a group — the group found from the neighbor if the
search finds one, else a freshly allocated empty-signal (off, hintless) group;
an out-of-bounds neighbor (failed `step`) causes the port face to be skipped
entirely — no port and no group are created and no error is propagated. -/
theorem c7_amended (st : Struct) (reg : LogicRegistry) (fuel : Nat) (g : WireGraph)
    (coords : Coord) (face : BlockFace) (t : PortType) :
    (st.step coords ((st.rotAt coords).globalToLocal face) = none →
      neighborPort st reg fuel g coords face t = some g) ∧
    (∀ n g', st.step coords ((st.rotAt coords).globalToLocal face) = some n →
      neighborPort st reg fuel g coords face t = some g' →
      ∃ gid, alistGet (g'.portMap t) ⟨coords, (st.rotAt coords).globalToLocal face⟩ = some gid ∧
        ((∃ v, findGroup st reg g fuel n ((st.rotAt coords).globalToLocal face).inverse
            (Port.allFor coords) = some (v, some gid)) ∨
          ((∃ v, findGroup st reg g fuel n ((st.rotAt coords).globalToLocal face).inverse
              (Port.allFor coords) = some (v, none)) ∧
            gid = g.nextGroupId ∧ alistGet g'.groups gid = some ⟨false, none⟩))) := by
  constructor
  · intro hstep
    simp only [neighborPort, hstep]
  · intro n g' hstep hnp
    simp only [neighborPort, hstep] at hnp
    cases hf : findGroup st reg g fuel n ((st.rotAt coords).globalToLocal face).inverse
        (Port.allFor coords) with
    | none => rw [hf] at hnp; exact absurd hnp (by simp)
    | some pr =>
      rw [hf] at hnp
      obtain ⟨v, mg⟩ := pr
      cases mg with
      | some gid =>
        exact ⟨gid, addPort_portMap_self hnp, Or.inl ⟨v, rfl⟩⟩
      | none =>
        refine ⟨g.nextGroupId, ?_, Or.inr ⟨⟨v, rfl⟩, rfl, ?_⟩⟩
        · have := addPort_portMap_self hnp
          rwa [newGroup_snd] at this
        · rw [addPort_groups hnp, newGroup_groups]
          exact alistGet_insert_self _ _ _

/-- C7, witness for the amended theorem: in a 1-cell structure the single
declared output face steps out of bounds and the graph is left untouched; in a
2-cell structure the same face steps to an in-bounds empty neighbor and the
port ends up attached to a group. -/
theorem c7_witness :
    neighborPort (mkStruct ⟨1, 1, 1⟩ [(⟨0, 0, 0⟩, 2)]) testReg 3 WireGraph.empty ⟨0, 0, 0⟩
        .Right .Output = some WireGraph.empty ∧
      ∃ gid, alistGet (staleG.portMap .Output) ⟨⟨0, 0, 0⟩, .Right⟩ = some gid := by
  constructor
  · exact (c7_amended (mkStruct ⟨1, 1, 1⟩ [(⟨0, 0, 0⟩, 2)]) testReg 3 WireGraph.empty ⟨0, 0, 0⟩
      .Right .Output).1 (by decide)
  · obtain ⟨gid, hg, _⟩ := (c7_amended dblSt testReg 3 WireGraph.empty ⟨0, 0, 0⟩
      .Right .Output).2 ⟨1, 0, 0⟩ staleG (by decide) (by decide)
    exact ⟨gid, hg⟩

/-- C8: a block type with no registry entry is transparent to the logic graph
— `lookup` returns `none` when no entry carries the id, the block-changed
listener performs no graph mutation when neither the old nor the new block
type is registered, and both the group search and the rename search stop with
no result at an unregistered block. -/
theorem c8_transparent (st : Struct) (reg : LogicRegistry) (fuel : Nat) (g : WireGraph)
    (oldId newId gid : Nat) (coords : Coord) (enc : BlockFace) (v : List Port) :
    ((∀ e ∈ reg, ¬ e.1 = oldId) → reg.lookup oldId = none) ∧
    (reg.lookup oldId = none → reg.lookup newId = none →
      onBlockChanged st reg fuel g oldId newId coords = some g) ∧
    (logicBlockAt st reg coords = none →
      findGroup st reg g (fuel + 1) coords enc v = some (v, none)) ∧
    (logicBlockAt st reg coords = none →
      renameGroup st reg (fuel + 1) g gid coords enc v = some (g, v, false)) := by
  refine ⟨?_, ?_, ?_, ?_⟩
  · intro h
    unfold LogicRegistry.lookup
    rw [List.find?_eq_none.mpr (fun e he => by simpa using h e he)]
    rfl
  · intro h1 h2
    unfold onBlockChanged
    rw [h1, h2]
  · intro h
    unfold findGroup
    rw [h]
  · intro h
    unfold renameGroup
    rw [h]
    by_cases hv : Port.mk coords enc ∈ v <;> simp [hv]

/-- C8, witness: block id 9 has no entry in the test registry; replacing
block 9 by block 9 leaves the lone-wire graph untouched, and searches stop at
the air cell of the 2-cell structure. -/
theorem c8_witness :
    testReg.lookup 9 = none ∧
      onBlockChanged dblSt testReg 7 loneWireExpected 9 9 ⟨0, 0, 0⟩ = some loneWireExpected ∧
      findGroup dblSt testReg loneWireExpected 8 ⟨1, 0, 0⟩ .Left [] = some ([], none) ∧
      renameGroup dblSt testReg 8 loneWireExpected 0 ⟨1, 0, 0⟩ .Left [] =
        some (loneWireExpected, [], false) := by
  obtain ⟨h1, h2, h3, h4⟩ :=
    c8_transparent dblSt testReg 7 loneWireExpected 9 9 0 ⟨1, 0, 0⟩ .Left []
  refine ⟨h1 (by decide), ?_, h3 rfl, h4 rfl⟩
  exact (c8_transparent dblSt testReg 7 loneWireExpected 9 9 0 ⟨0, 0, 0⟩ .Left []).2.1
    rfl rfl

/-- The logic system sets of `cosmos_core/src/logic/mod.rs` (`LogicSystemSet`):
the scheduling phases of one pass. -/
inductive LogicSystemSet where
  | EditLogicGraph
  | QueueConsumers
  | QueueProducers
  | SendQueues
  | Consume
  | Produce
deriving DecidableEq, Repr

/-- The phase order configured by `register` in `logic/mod.rs`: the six sets
are chained in sequence, with `SendQueues`, `Consume`, `Produce` additionally
gated by the 20 Hz timer. -/
def logicSystemSetChain : List LogicSystemSet :=
  [.EditLogicGraph, .QueueConsumers, .QueueProducers, .SendQueues, .Consume, .Produce]

/-- `LOGIC_TICKS_PER_SECOND` in `logic/mod.rs`. -/
def LOGIC_TICKS_PER_SECOND : Nat :=
  20

/-- Modelled from the spec: the observable state of one input-port/output-port
pair sharing a group, across gated logic ticks (the group mutation code lives
in `logic/logic_driver.rs` and `logic/logic_graph.rs`, which are not part of
the provided sources).  `groupSignal` is the group's stored signal, `observed`
the value the input port read during the most recent Consume phase. -/
structure LogicTickState where
  groupSignal : Bool
  observed : Bool
deriving DecidableEq, Repr

/-- Modelled from the spec: one gated logic tick — the Consume phase reads the
group's current signal, then the Produce phase overwrites the group signal
with the value `produced` written by the output port's block this tick. -/
def logicTick (produced : Bool) (s : LogicTickState) : LogicTickState :=
  { groupSignal := produced, observed := s.groupSignal }

/-- Run the ticks `n, n+1, ...` with the given per-tick produced values. -/
def runLogicTicks : List Bool → LogicTickState → LogicTickState
  | [], s => s
  | w :: ws, s => runLogicTicks ws (logicTick w s)

/-- C4: the configured phase chain runs Consume strictly before Produce (and
graph edits before both); consequently the value an input port observes during
the Consume phase of a tick is the group signal as produced in the previous
tick — a write during Produce of tick N is observed at tick N+1 and is
invisible to tick N's own Consume. -/
theorem c4_one_tick_delay :
    (logicSystemSetChain.indexOf .EditLogicGraph < logicSystemSetChain.indexOf .Consume ∧
      logicSystemSetChain.indexOf .SendQueues < logicSystemSetChain.indexOf .Consume ∧
      logicSystemSetChain.indexOf .Consume < logicSystemSetChain.indexOf .Produce) ∧
    (∀ s w, (logicTick w s).observed = s.groupSignal) ∧
    (∀ s w w', (logicTick w' (logicTick w s)).observed = w) := by
  refine ⟨by decide, ?_, ?_⟩
  · intro s w
    rfl
  · intro s w w'
    rfl

/-- C4, witness: with the group off, producing on during tick N is not
observed at tick N (observed stays off) and is observed at tick N+1. -/
theorem c4_witness :
    (logicTick true ⟨false, false⟩).observed = false ∧
      (logicTick false (logicTick true ⟨false, false⟩)).observed = true := by
  exact ⟨c4_one_tick_delay.2.1 ⟨false, false⟩ true,
    c4_one_tick_delay.2.2 ⟨false, false⟩ true false⟩

/-- C2, amended: removing the middle wire of the 3-wire line deletes the old
group and re-derives one fresh group per side — the two pure-wire components
are kept as portless groups (zero groups would require discarding them).  A
freshly derived component is discarded exactly when the rename search returns
false, which happens iff the entered port was already visited or the entered
block has no logic connection on the entered face — not when the component has
zero ports. -/
theorem c2_amended :
    (scenarioCFinal = some scenarioCExpected ∧ scenarioCExpected.groups.length = 2) ∧
    (∀ st reg fuel g gid c f v g' v' b,
      renameGroup st reg (fuel + 1) g gid c f v = some (g', v', b) →
      (b = true ↔ (Port.mk c f ∉ v ∧ ∃ lb, logicBlockAt st reg c = some lb ∧
        lb.connectionOn ((st.rotAt c).localToGlobal f) ≠ none))) := by
  constructor
  · exact ⟨by decide, by decide⟩
  · intro st reg fuel g gid c f v g' v' b h
    simp only [renameGroup] at h
    by_cases hv : Port.mk c f ∈ v
    · rw [if_pos hv] at h
      simp only [Option.some.injEq, Prod.mk.injEq] at h
      obtain ⟨-, -, hb⟩ := h
      subst hb
      simp [hv]
    · rw [if_neg hv] at h
      split at h
      · rename_i hlb
        simp only [Option.some.injEq, Prod.mk.injEq] at h
        obtain ⟨-, -, hb⟩ := h
        subst hb
        refine iff_of_false (by simp) ?_
        rintro ⟨-, lb2, hlb2, -⟩
        rw [hlb] at hlb2
        exact absurd hlb2 (by simp)
      · rename_i lb hlb
        split at h
        · rename_i pt hcn
          split at h
          · exact absurd h (by simp)
          · rename_i g1 hap
            simp only [Option.some.injEq, Prod.mk.injEq] at h
            obtain ⟨-, -, hb⟩ := h
            subst hb
            exact iff_of_true rfl ⟨hv, lb, hlb, by rw [hcn]; simp⟩
        · rename_i hcn
          split at h
          · exact absurd h (by simp)
          · rename_i g2 v2 hloop
            split at h
            · exact absurd h (by simp)
            · rename_i gs hmod
              simp only [Option.some.injEq, Prod.mk.injEq] at h
              obtain ⟨-, -, hb⟩ := h
              subst hb
              exact iff_of_true rfl ⟨hv, lb, hlb, by rw [hcn]; simp⟩
        · rename_i hcn
          simp only [Option.some.injEq, Prod.mk.injEq] at h
          obtain ⟨-, -, hb⟩ := h
          subst hb
          refine iff_of_false (by simp) ?_
          rintro ⟨-, lb2, hlb2, hcn2⟩
          rw [hlb] at hlb2
          injection hlb2 with he
          subst he
          exact absurd hcn hcn2

/-- C2, witness for the amended theorem: entering the empty cell of the 2-cell
structure, the rename search returns false, so by the characterization no
logic connection can be claimed there. -/
theorem c2_witness :
    ¬ (Port.mk ⟨1, 0, 0⟩ .Left ∉ ([] : List Port) ∧
      ∃ lb, logicBlockAt dblSt testReg ⟨1, 0, 0⟩ = some lb ∧
        lb.connectionOn ((dblSt.rotAt ⟨1, 0, 0⟩).localToGlobal .Left) ≠ none) := by
  intro h
  have hiff := c2_amended.2 dblSt testReg 7 loneWireExpected 0 ⟨1, 0, 0⟩ .Left []
    loneWireExpected [] false (by rw [show (7 : Nat) + 1 = 8 from rfl]; rfl)
  exact absurd (hiff.mpr h) (by simp)

theorem mem_alistInsert {K V : Type} [DecidableEq K] {l : List (K × V)} {k : K} {v : V}
    {e : K × V} (h : e ∈ alistInsert l k v) : e ∈ l ∨ e = (k, v) := by
  induction l with
  | nil => simpa [alistInsert] using h
  | cons e0 t ih =>
    by_cases he : e0.1 = k
    · simp only [alistInsert, he, if_true, List.mem_cons] at h
      rcases h with h | h
      · exact Or.inr h
      · exact Or.inl (List.mem_cons_of_mem _ h)
    · simp only [alistInsert, he, if_false, List.mem_cons] at h
      rcases h with h | h
      · exact Or.inl (h ▸ List.mem_cons_self _ _)
      · rcases ih h with h2 | h2
        · exact Or.inl (List.mem_cons_of_mem _ h2)
        · exact Or.inr h2

theorem mem_alistRemove {K V : Type} [DecidableEq K] {l : List (K × V)} {k : K}
    {e : K × V} : e ∈ alistRemove l k ↔ e ∈ l ∧ ¬ e.1 = k := by
  induction l with
  | nil => simp [alistRemove]
  | cons e0 t ih =>
    by_cases he : e0.1 = k
    · simp only [alistRemove, he, if_true, ih, List.mem_cons]
      constructor
      · rintro ⟨h1, h2⟩
        exact ⟨Or.inr h1, h2⟩
      · rintro ⟨h1 | h1, h2⟩
        · rw [h1] at h2; exact absurd he h2
        · exact ⟨h1, h2⟩
    · simp only [alistRemove, he, if_false, List.mem_cons, ih]
      constructor
      · rintro (h | ⟨h1, h2⟩)
        · exact ⟨Or.inl h, h ▸ he⟩
        · exact ⟨Or.inr h1, h2⟩
      · rintro ⟨h1 | h1, h2⟩
        · exact Or.inl h1
        · exact Or.inr ⟨h1, h2⟩

theorem mem_alistModify {K V : Type} [DecidableEq K] {l l' : List (K × V)} {k : K}
    {f : V → V} (h : alistModify l k f = some l') {e : K × V} (he : e ∈ l') :
    e ∈ l ∨ ∃ v, (k, v) ∈ l ∧ e = (k, f v) := by
  induction l generalizing l' with
  | nil => simp [alistModify] at h
  | cons e0 t ih =>
    by_cases h0 : e0.1 = k
    · simp only [alistModify, h0, if_true, Option.some.injEq] at h
      subst h
      rcases List.mem_cons.mp he with he2 | hmem
      · right
        refine ⟨e0.2, ?_, he2⟩
        have hk : (k, e0.2) = e0 := by rw [← h0]
        rw [hk]
        exact List.mem_cons_self _ _
      · exact Or.inl (List.mem_cons_of_mem _ hmem)
    · simp only [alistModify, h0, if_false] at h
      cases hm : alistModify t k f with
      | none => rw [hm] at h; simp at h
      | some t2 =>
        rw [hm] at h
        simp only [Option.map_some', Option.some.injEq] at h
        subst h
        rcases List.mem_cons.mp he with he2 | hmem
        · exact Or.inl (he2 ▸ List.mem_cons_self _ _)
        · rcases ih hm hmem with h2 | ⟨v, hv, he2⟩
          · exact Or.inl (List.mem_cons_of_mem _ h2)
          · exact Or.inr ⟨v, List.mem_cons_of_mem _ hv, he2⟩

theorem removeGroup_spec {g g1 : WireGraph} {id : Nat} {gr : LogicGroup}
    (h : g.removeGroup id = some (g1, gr)) :
    g1.groups = alistRemove g.groups id ∧
      g1.outputPortsOfGroup = alistRemove g.outputPortsOfGroup id ∧
      g1.inputPortsOfGroup = alistRemove g.inputPortsOfGroup id ∧
      g1.nextGroupId = g.nextGroupId ∧
      g1.groupOfOutputPort = g.groupOfOutputPort ∧
      g1.groupOfInputPort = g.groupOfInputPort ∧
      alistGet g.groups id = some gr := by
  simp only [WireGraph.removeGroup] at h
  split at h
  · exact absurd h (by simp)
  · rename_i gr0 hget
    simp only [Option.some.injEq, Prod.mk.injEq] at h
    obtain ⟨hg, hgr⟩ := h
    subst hg
    subst hgr
    exact ⟨rfl, rfl, rfl, rfl, rfl, rfl, hget⟩

theorem removeGroupsList_spec : ∀ (ids : List Nat) (g g3 : WireGraph),
    removeGroupsList g ids = some g3 →
    (∀ e ∈ g3.groups, e ∈ g.groups ∧ e.1 ∉ ids) ∧
      (∀ id, id ∉ ids →
        alistGet g3.outputPortsOfGroup id = alistGet g.outputPortsOfGroup id ∧
          alistGet g3.inputPortsOfGroup id = alistGet g.inputPortsOfGroup id) ∧
      g3.nextGroupId = g.nextGroupId ∧
      g3.groupOfOutputPort = g.groupOfOutputPort ∧
      g3.groupOfInputPort = g.groupOfInputPort ∧
      (∀ e ∈ g3.outputPortsOfGroup, e ∈ g.outputPortsOfGroup) ∧
      (∀ e ∈ g3.inputPortsOfGroup, e ∈ g.inputPortsOfGroup) := by
  intro ids
  induction ids with
  | nil =>
    intro g g3 h
    simp only [removeGroupsList, Option.some.injEq] at h
    subst h
    exact ⟨fun e he => ⟨he, by simp⟩, fun id _ => ⟨rfl, rfl⟩, rfl, rfl, rfl,
      fun e he => he, fun e he => he⟩
  | cons id0 t ih =>
    intro g g3 h
    simp only [removeGroupsList] at h
    cases hr : g.removeGroup id0 with
    | none => rw [hr] at h; simp at h
    | some pr =>
      rw [hr] at h
      obtain ⟨g1, gr⟩ := pr
      obtain ⟨hgroups, houts, hins, hnext, hgop, hgip, -⟩ := removeGroup_spec hr
      obtain ⟨ih1, ih2, ih3, ih4, ih5, ih6, ih7⟩ := ih g1 g3 h
      refine ⟨?_, ?_, ?_, ?_, ?_, ?_, ?_⟩
      · intro e he
        obtain ⟨he1, he2⟩ := ih1 e he
        rw [hgroups] at he1
        rw [mem_alistRemove] at he1
        refine ⟨he1.1, ?_⟩
        simp only [List.mem_cons]
        rintro (hh | hh)
        · exact he1.2 hh
        · exact he2 hh
      · intro id hid
        simp only [List.mem_cons] at hid
        push_neg at hid
        obtain ⟨hout, hin⟩ := ih2 id hid.2
        rw [hout, hin, houts, hins]
        rw [alistGet_remove_ne _ _ _ hid.1, alistGet_remove_ne _ _ _ hid.1]
        exact ⟨rfl, rfl⟩
      · rw [ih3, hnext]
      · rw [ih4, hgop]
      · rw [ih5, hgip]
      · intro e he
        have h1 := ih6 e he
        rw [houts] at h1
        exact (mem_alistRemove.mp h1).1
      · intro e he
        have h1 := ih7 e he
        rw [hins] at h1
        exact (mem_alistRemove.mp h1).1

theorem portsOfGroup_setPortsOfGroup_ne (g : WireGraph) (t t' : PortType)
    (m : List (Nat × List Port)) (h : t' ≠ t) :
    (g.setPortsOfGroup t m).portsOfGroup t' = g.portsOfGroup t' := by
  cases t <;> cases t' <;> first | rfl | exact absurd rfl h

theorem portMap_setPortMap_ne (g : WireGraph) (t t' : PortType) (m : List (Port × Nat))
    (h : t' ≠ t) : (g.setPortMap t m).portMap t' = g.portMap t' := by
  cases t <;> cases t' <;> first | rfl | exact absurd rfl h

theorem nextGroupId_setPortMap (g : WireGraph) (t : PortType) (m : List (Port × Nat)) :
    (g.setPortMap t m).nextGroupId = g.nextGroupId := by
  cases t <;> rfl

theorem nextGroupId_setPortsOfGroup (g : WireGraph) (t : PortType)
    (m : List (Nat × List Port)) : (g.setPortsOfGroup t m).nextGroupId = g.nextGroupId := by
  cases t <;> rfl

theorem addPort_spec {g g' : WireGraph} {c : Coord} {f : BlockFace} {gid : Nat}
    {t : PortType} (h : g.addPort c f gid t = some g') :
    g'.groups = g.groups ∧
      g'.nextGroupId = g.nextGroupId ∧
      alistModify (g.portsOfGroup t) gid (fun ps => ps ++ [⟨c, f⟩]) =
        some (g'.portsOfGroup t) ∧
      (∀ t', t' ≠ t → g'.portsOfGroup t' = g.portsOfGroup t') ∧
      g'.portMap t = alistInsert (g.portMap t) ⟨c, f⟩ gid ∧
      (∀ t', t' ≠ t → g'.portMap t' = g.portMap t') := by
  simp only [WireGraph.addPort] at h
  split at h
  · exact absurd h (by simp)
  · rename_i m hm
    simp only [Option.some.injEq] at h
    subst h
    rw [portsOfGroup_setPortMap] at hm
    refine ⟨?_, ?_, ?_, ?_, ?_, ?_⟩
    · rw [groups_setPortsOfGroup, groups_setPortMap]
    · rw [nextGroupId_setPortsOfGroup, nextGroupId_setPortMap]
    · rw [portsOfGroup_setPortsOfGroup_self]
      exact hm
    · intro t' ht'
      rw [portsOfGroup_setPortsOfGroup_ne _ _ _ _ ht', portsOfGroup_setPortMap]
    · rw [portMap_setPortsOfGroup, portMap_setPortMap_self]
    · intro t' ht'
      rw [portMap_setPortsOfGroup, portMap_setPortMap_ne _ _ _ _ ht']

/-- The amended no-dangling-groups invariant: every group has at least one
port in one of the two indices, or records a representative wire coordinate. -/
def NoDanglingOrWire (g : WireGraph) : Prop :=
  ∀ e ∈ g.groups,
    (alistGet g.outputPortsOfGroup e.1).getD [] ≠ [] ∨
      (alistGet g.inputPortsOfGroup e.1).getD [] ≠ [] ∨ e.2.recentWireCoords ≠ none

/-- Every group id in the graph (groups map and port-list indices) is below
the id counter, so freshly allocated ids never collide. -/
def CounterConsistent (g : WireGraph) : Prop :=
  (∀ e ∈ g.groups, e.1 < g.nextGroupId) ∧
    (∀ e ∈ g.outputPortsOfGroup, e.1 < g.nextGroupId) ∧
    (∀ e ∈ g.inputPortsOfGroup, e.1 < g.nextGroupId)

/-- The invariant carried through sequences of graph operations. -/
def GraphInv (g : WireGraph) : Prop :=
  NoDanglingOrWire g ∧ CounterConsistent g

theorem counter_portsOfGroup {g : WireGraph} (hc : CounterConsistent g) (t : PortType) :
    ∀ e ∈ g.portsOfGroup t, e.1 < g.nextGroupId := by
  cases t
  · exact hc.2.2
  · exact hc.2.1

theorem addPort_preserves_inv {g g' : WireGraph} {c : Coord} {f : BlockFace} {gid : Nat}
    {t : PortType} (h : g.addPort c f gid t = some g') (hInv : GraphInv g) : GraphInv g' := by
  obtain ⟨hgroups, hnext, hmod, hlists, hmap, hmaps⟩ := addPort_spec h
  obtain ⟨hnd, hc⟩ := hInv
  constructor
  · intro e he
    rw [hgroups] at he
    rcases hnd e he with hd | hd | hd
    · left
      have : alistGet (g'.portsOfGroup .Output) e.1 = alistGet (g.portsOfGroup .Output) e.1 ∨
          alistGet (g'.portsOfGroup .Output) e.1 =
            (alistGet (g.portsOfGroup .Output) e.1).map (fun ps => ps ++ [⟨c, f⟩]) := by
        cases t
        · left
          rw [hlists .Output (by simp)]
        · by_cases hgid : e.1 = gid
          · right
            subst hgid
            exact alistGet_modify_self hmod
          · left
            exact alistGet_modify_ne hmod hgid
      show (alistGet g'.outputPortsOfGroup e.1).getD [] ≠ []
      have hout : g'.outputPortsOfGroup = g'.portsOfGroup .Output := rfl
      have hout2 : g.outputPortsOfGroup = g.portsOfGroup .Output := rfl
      rw [hout2] at hd
      rw [hout]
      rcases this with h2 | h2
      · rw [h2]; exact hd
      · rw [h2]
        cases hg : alistGet (g.portsOfGroup .Output) e.1 with
        | none => rw [hg] at hd; exact absurd rfl hd
        | some ps => simp
    · right; left
      have : alistGet (g'.portsOfGroup .Input) e.1 = alistGet (g.portsOfGroup .Input) e.1 ∨
          alistGet (g'.portsOfGroup .Input) e.1 =
            (alistGet (g.portsOfGroup .Input) e.1).map (fun ps => ps ++ [⟨c, f⟩]) := by
        cases t
        · by_cases hgid : e.1 = gid
          · right
            subst hgid
            exact alistGet_modify_self hmod
          · left
            exact alistGet_modify_ne hmod hgid
        · left
          rw [hlists .Input (by simp)]
      show (alistGet g'.inputPortsOfGroup e.1).getD [] ≠ []
      have hin : g'.inputPortsOfGroup = g'.portsOfGroup .Input := rfl
      have hin2 : g.inputPortsOfGroup = g.portsOfGroup .Input := rfl
      rw [hin2] at hd
      rw [hin]
      rcases this with h2 | h2
      · rw [h2]; exact hd
      · rw [h2]
        cases hg : alistGet (g.portsOfGroup .Input) e.1 with
        | none => rw [hg] at hd; exact absurd rfl hd
        | some ps => simp
    · right; right; exact hd
  · refine ⟨?_, ?_, ?_⟩
    · intro e he
      rw [hgroups] at he
      rw [hnext]
      exact hc.1 e he
    · intro e he
      rw [hnext]
      have : ∀ e2 ∈ g'.portsOfGroup .Output, e2.1 < g.nextGroupId := by
        cases t
        · rw [hlists .Output (by simp)]
          exact fun e2 he2 => hc.2.1 e2 he2
        · intro e2 he2
          rcases mem_alistModify hmod he2 with h2 | ⟨v, hv, he3⟩
          · exact hc.2.1 e2 h2
          · rw [he3]
            simpa using hc.2.1 (gid, v) hv
      exact this e he
    · intro e he
      rw [hnext]
      have : ∀ e2 ∈ g'.portsOfGroup .Input, e2.1 < g.nextGroupId := by
        cases t
        · intro e2 he2
          rcases mem_alistModify hmod he2 with h2 | ⟨v, hv, he3⟩
          · exact hc.2.2 e2 h2
          · rw [he3]
            simpa using hc.2.2 (gid, v) hv
        · rw [hlists .Input (by simp)]
          exact fun e2 he2 => hc.2.2 e2 he2
      exact this e he

theorem addPort_get_ne {g g' : WireGraph} {c : Coord} {f : BlockFace} {gid : Nat}
    {t : PortType} (h : g.addPort c f gid t = some g') (t' : PortType) (id : Nat)
    (hne : id ≠ gid) :
    alistGet (g'.portsOfGroup t') id = alistGet (g.portsOfGroup t') id := by
  obtain ⟨-, -, hmod, hlists, -, -⟩ := addPort_spec h
  by_cases ht : t' = t
  · subst ht
    exact alistGet_modify_ne hmod hne
  · rw [hlists t' ht]

theorem addPort_get_self {g g' : WireGraph} {c : Coord} {f : BlockFace} {gid : Nat}
    {t : PortType} (h : g.addPort c f gid t = some g') :
    alistGet (g'.portsOfGroup t) gid =
      (alistGet (g.portsOfGroup t) gid).map (fun ps => ps ++ [⟨c, f⟩]) := by
  obtain ⟨-, -, hmod, -, -, -⟩ := addPort_spec h
  exact alistGet_modify_self hmod

theorem nonempty_list_disjunct {g' : WireGraph} {id : Nat} (t : PortType)
    (h : (alistGet (g'.portsOfGroup t) id).getD [] ≠ []) :
    (alistGet g'.outputPortsOfGroup id).getD [] ≠ [] ∨
      (alistGet g'.inputPortsOfGroup id).getD [] ≠ [] := by
  cases t
  · exact Or.inr h
  · exact Or.inl h

theorem get_eq_disjunct_carries {g g' : WireGraph} {id : Nat}
    (hout : alistGet g'.outputPortsOfGroup id = alistGet g.outputPortsOfGroup id)
    (hin : alistGet g'.inputPortsOfGroup id = alistGet g.inputPortsOfGroup id)
    {gr : LogicGroup}
    (h : (alistGet g.outputPortsOfGroup id).getD [] ≠ [] ∨
      (alistGet g.inputPortsOfGroup id).getD [] ≠ [] ∨ gr.recentWireCoords ≠ none) :
    (alistGet g'.outputPortsOfGroup id).getD [] ≠ [] ∨
      (alistGet g'.inputPortsOfGroup id).getD [] ≠ [] ∨ gr.recentWireCoords ≠ none := by
  rw [hout, hin]
  exact h

theorem neighborPort_preserves {st : Struct} {reg : LogicRegistry} {fuel : Nat}
    {g g' : WireGraph} {coords : Coord} {face : BlockFace} {t : PortType}
    (h : neighborPort st reg fuel g coords face t = some g') (hInv : GraphInv g) :
    GraphInv g' := by
  simp only [neighborPort] at h
  split at h
  · simp only [Option.some.injEq] at h
    subst h
    exact hInv
  · rename_i n hstep
    cases hf : findGroup st reg g fuel n ((st.rotAt coords).globalToLocal face).inverse
        (Port.allFor coords) with
    | none => rw [hf] at h; exact absurd h (by simp)
    | some pr =>
      rw [hf] at h
      obtain ⟨v, mg⟩ := pr
      cases mg with
      | some gid => exact addPort_preserves_inv h hInv
      | none =>
        obtain ⟨hnd, hc⟩ := hInv
        obtain ⟨hgroups, hnext, hmod, hlists, hmap, hmaps⟩ := addPort_spec h
        have hg2groups : ((g.newGroup false none).1).groups =
            alistInsert g.groups g.nextGroupId ⟨false, none⟩ := newGroup_groups g false none
        have hnid : ((g.newGroup false none).2) = g.nextGroupId := rfl
        constructor
        · intro e he
          rw [hgroups, hg2groups] at he
          rcases mem_alistInsert he with he2 | he2
          · have hlt : e.1 < g.nextGroupId := hc.1 e he2
            have hne : e.1 ≠ g.nextGroupId := Nat.ne_of_lt hlt
            have hout : alistGet g'.outputPortsOfGroup e.1 =
                alistGet g.outputPortsOfGroup e.1 := by
              have h1 := addPort_get_ne h .Output e.1 (by rw [hnid]; exact hne)
              rw [newGroup_portsOfGroup, alistGet_insert_ne _ _ _ _ hne] at h1
              exact h1
            have hin : alistGet g'.inputPortsOfGroup e.1 =
                alistGet g.inputPortsOfGroup e.1 := by
              have h1 := addPort_get_ne h .Input e.1 (by rw [hnid]; exact hne)
              rw [newGroup_portsOfGroup, alistGet_insert_ne _ _ _ _ hne] at h1
              exact h1
            exact get_eq_disjunct_carries hout hin (hnd e he2)
          · subst he2
            refine (nonempty_list_disjunct t ?_).imp id (fun hh => Or.inl hh)
            have h1 := addPort_get_self h
            rw [hnid, newGroup_portsOfGroup, alistGet_insert_self] at h1
            rw [h1]
            simp
        · refine ⟨?_, ?_, ?_⟩
          · intro e he
            rw [hgroups, hg2groups] at he
            rw [hnext, newGroup_nextGroupId]
            rcases mem_alistInsert he with he2 | he2
            · exact Nat.lt_succ_of_lt (hc.1 e he2)
            · rw [he2]
              exact Nat.lt_succ_self _
          · intro e he
            rw [hnext, newGroup_nextGroupId]
            have : ∀ e2 ∈ g'.portsOfGroup .Output, e2.1 < g.nextGroupId + 1 := by
              intro e2 he2
              by_cases ht : PortType.Output = t
              · subst ht
                rcases mem_alistModify hmod he2 with h2 | ⟨ps, hps, he3⟩
                · rw [newGroup_portsOfGroup] at h2
                  rcases mem_alistInsert h2 with h3 | h3
                  · exact Nat.lt_succ_of_lt (hc.2.1 e2 h3)
                  · rw [h3]; exact Nat.lt_succ_self _
                · rw [he3, hnid]
                  simp [Nat.lt_succ_self]
              · obtain ⟨-, -, -, hlists2, -, -⟩ := addPort_spec h
                rw [hlists2 .Output ht, newGroup_portsOfGroup] at he2
                rcases mem_alistInsert he2 with h3 | h3
                · exact Nat.lt_succ_of_lt (hc.2.1 e2 h3)
                · rw [h3]; exact Nat.lt_succ_self _
            exact this e he
          · intro e he
            rw [hnext, newGroup_nextGroupId]
            have : ∀ e2 ∈ g'.portsOfGroup .Input, e2.1 < g.nextGroupId + 1 := by
              intro e2 he2
              by_cases ht : PortType.Input = t
              · subst ht
                rcases mem_alistModify hmod he2 with h2 | ⟨ps, hps, he3⟩
                · rw [newGroup_portsOfGroup] at h2
                  rcases mem_alistInsert h2 with h3 | h3
                  · exact Nat.lt_succ_of_lt (hc.2.2 e2 h3)
                  · rw [h3]; exact Nat.lt_succ_self _
                · rw [he3, hnid]
                  simp [Nat.lt_succ_self]
              · obtain ⟨-, -, -, hlists2, -, -⟩ := addPort_spec h
                rw [hlists2 .Input ht, newGroup_portsOfGroup] at he2
                rcases mem_alistInsert he2 with h3 | h3
                · exact Nat.lt_succ_of_lt (hc.2.2 e2 h3)
                · rw [h3]; exact Nat.lt_succ_self _
            exact this e he

theorem neighborPortsLoop_preserves {st : Struct} {reg : LogicRegistry} {fuel : Nat}
    {coords : Coord} {t : PortType} :
    ∀ {faces : List BlockFace} {g g' : WireGraph},
    neighborPortsLoop st reg fuel coords t faces g = some g' → GraphInv g → GraphInv g' := by
  intro faces
  induction faces with
  | nil =>
    intro g g' h hInv
    simp only [neighborPortsLoop, Option.some.injEq] at h
    subst h
    exact hInv
  | cons face rest ih =>
    intro g g' h hInv
    simp only [neighborPortsLoop] at h
    cases hnp : neighborPort st reg fuel g coords face t with
    | none => rw [hnp] at h; simp at h
    | some g1 =>
      rw [hnp] at h
      exact ih h (neighborPort_preserves hnp hInv)

theorem merge_preserves {g g' : WireGraph} {ids : List Nat} {coords : Coord}
    (h : g.mergeAdjacentGroups ids coords = some g') (hInv : GraphInv g) : GraphInv g' := by
  obtain ⟨hnd, hc⟩ := hInv
  simp only [WireGraph.mergeAdjacentGroups, WireGraph.newGroupId] at h
  split at h
  · exact absurd h (by simp)
  · rename_i newOn hsig
    split at h
    · exact absurd h (by simp)
    · rename_i g3 hrem
      simp only [Option.some.injEq] at h
      subst h
      obtain ⟨hs1, hs2, hs3, hs4, hs5, hs6, hs7⟩ := removeGroupsList_spec _ _ _ hrem
      constructor
      · intro e he
        have he2 : e ∈ alistInsert g3.groups g.nextGroupId ⟨newOn, some coords⟩ := he
        rcases mem_alistInsert he2 with he3 | he3
        · obtain ⟨hmem, hnotin⟩ := hs1 e he3
          have hmemg : e ∈ g.groups := hmem
          have hlt : e.1 < g.nextGroupId := hc.1 e hmemg
          have hne : e.1 ≠ g.nextGroupId := Nat.ne_of_lt hlt
          obtain ⟨hout3, hin3⟩ := hs2 e.1 hnotin
          refine get_eq_disjunct_carries ?_ ?_ (hnd e hmemg)
          · show alistGet (alistInsert g3.outputPortsOfGroup g.nextGroupId
              ((List.filter (fun e => e.2 ∈ ids) g.groupOfOutputPort).map (fun e => e.1)))
              e.1 = alistGet g.outputPortsOfGroup e.1
            rw [alistGet_insert_ne _ _ _ _ hne, hout3]
          · show alistGet (alistInsert g3.inputPortsOfGroup g.nextGroupId
              ((List.filter (fun e => e.2 ∈ ids) g.groupOfInputPort).map (fun e => e.1)))
              e.1 = alistGet g.inputPortsOfGroup e.1
            rw [alistGet_insert_ne _ _ _ _ hne, hin3]
        · rw [he3]
          right; right
          simp
      · refine ⟨?_, ?_, ?_⟩
        · intro e he
          have he2 : e ∈ alistInsert g3.groups g.nextGroupId ⟨newOn, some coords⟩ := he
          have hnext : g3.nextGroupId = g.nextGroupId + 1 := by
            rw [hs3]
          have hgoal : e.1 < g3.nextGroupId → e.1 < g.nextGroupId + 1 := by
            rw [hnext]; exact fun hh => hh
          show e.1 < g3.nextGroupId
          rw [hnext]
          rcases mem_alistInsert he2 with he3 | he3
          · exact Nat.lt_succ_of_lt (hc.1 e (hs1 e he3).1)
          · rw [he3]; exact Nat.lt_succ_self _
        · intro e he
          have he2 : e ∈ alistInsert g3.outputPortsOfGroup g.nextGroupId
              ((List.filter (fun e => decide (e.2 ∈ ids)) g.groupOfOutputPort).map
                (fun e => e.1)) := he
          have hnext : g3.nextGroupId = g.nextGroupId + 1 := by
            rw [hs3]
          show e.1 < g3.nextGroupId
          rw [hnext]
          rcases mem_alistInsert he2 with he3 | he3
          · exact Nat.lt_succ_of_lt (hc.2.1 e (hs6 e he3))
          · rw [he3]; exact Nat.lt_succ_self _
        · intro e he
          have he2 : e ∈ alistInsert g3.inputPortsOfGroup g.nextGroupId
              ((List.filter (fun e => decide (e.2 ∈ ids)) g.groupOfInputPort).map
                (fun e => e.1)) := he
          have hnext : g3.nextGroupId = g.nextGroupId + 1 := by
            rw [hs3]
          show e.1 < g3.nextGroupId
          rw [hnext]
          rcases mem_alistInsert he2 with he3 | he3
          · exact Nat.lt_succ_of_lt (hc.2.2 e (hs7 e he3))
          · rw [he3]; exact Nat.lt_succ_self _

theorem newGroupHint_preserves {g : WireGraph} (hInv : GraphInv g) (isOn : Bool)
    (co : Coord) : GraphInv (g.newGroup isOn (some co)).1 := by
  obtain ⟨hnd, hc⟩ := hInv
  constructor
  · intro e he
    rw [newGroup_groups] at he
    rcases mem_alistInsert he with he2 | he2
    · have hne : e.1 ≠ g.nextGroupId := Nat.ne_of_lt (hc.1 e he2)
      refine get_eq_disjunct_carries ?_ ?_ (hnd e he2)
      · show alistGet ((g.newGroup isOn (some co)).1.portsOfGroup .Output) e.1 =
          alistGet (g.portsOfGroup .Output) e.1
        rw [newGroup_portsOfGroup, alistGet_insert_ne _ _ _ _ hne]
      · show alistGet ((g.newGroup isOn (some co)).1.portsOfGroup .Input) e.1 =
          alistGet (g.portsOfGroup .Input) e.1
        rw [newGroup_portsOfGroup, alistGet_insert_ne _ _ _ _ hne]
    · rw [he2]
      right; right
      simp
  · refine ⟨?_, ?_, ?_⟩
    · intro e he
      rw [newGroup_groups] at he
      rw [newGroup_nextGroupId]
      rcases mem_alistInsert he with he2 | he2
      · exact Nat.lt_succ_of_lt (hc.1 e he2)
      · rw [he2]; exact Nat.lt_succ_self _
    · intro e he
      have he2 : e ∈ (g.newGroup isOn (some co)).1.portsOfGroup .Output := he
      rw [newGroup_portsOfGroup] at he2
      rw [newGroup_nextGroupId]
      rcases mem_alistInsert he2 with he3 | he3
      · exact Nat.lt_succ_of_lt (hc.2.1 e he3)
      · rw [he3]; exact Nat.lt_succ_self _
    · intro e he
      have he2 : e ∈ (g.newGroup isOn (some co)).1.portsOfGroup .Input := he
      rw [newGroup_portsOfGroup] at he2
      rw [newGroup_nextGroupId]
      rcases mem_alistInsert he2 with he3 | he3
      · exact Nat.lt_succ_of_lt (hc.2.2 e he3)
      · rw [he3]; exact Nat.lt_succ_self _

theorem addLogicBlock_preserves {st : Struct} {reg : LogicRegistry} {fuel : Nat}
    {g g' : WireGraph} {lb : LogicBlock} {coords : Coord}
    (h : addLogicBlock st reg fuel g lb coords = some g') (hInv : GraphInv g) : GraphInv g' := by
  simp only [addLogicBlock] at h
  split at h
  · exact absurd h (by simp)
  · rename_i g1 h1
    have hInv1 := neighborPortsLoop_preserves h1 hInv
    split at h
    · exact absurd h (by simp)
    · rename_i g2 h2
      have hInv2 := neighborPortsLoop_preserves h2 hInv1
      split at h
      · split at h
        · exact absurd h (by simp)
        · rename_i ids hcol
          split at h
          · simp only [Option.some.injEq] at h
            subst h
            exact newGroupHint_preserves hInv2 false coords
          · rename_i gid
            split at h
            · exact absurd h (by simp)
            · rename_i gs hmod
              simp only [Option.some.injEq] at h
              subst h
              obtain ⟨hnd, hc⟩ := hInv2
              constructor
              · intro e he
                have he2 : e ∈ gs := he
                rcases mem_alistModify hmod he2 with he3 | ⟨v, hv, he3⟩
                · exact hnd e he3
                · rw [he3]
                  right; right
                  simp
              · refine ⟨?_, ?_, ?_⟩
                · intro e he
                  have he2 : e ∈ gs := he
                  rcases mem_alistModify hmod he2 with he3 | ⟨v, hv, he3⟩
                  · exact hc.1 e he3
                  · rw [he3]
                    simpa using hc.1 (gid, v) hv
                · exact hc.2.1
                · exact hc.2.2
          · exact merge_preserves h hInv2
      · simp only [Option.some.injEq] at h
        subst h
        exact hInv2

/-- Run a list of `add_logic_block` operations (each with its own structure
snapshot, as the block-changed listener sees it) starting from a graph. -/
def runAddOps (reg : LogicRegistry) (fuel : Nat) :
    List (Struct × LogicBlock × Coord) → WireGraph → Option WireGraph
  | [], g => some g
  | op :: ops, g =>
    match addLogicBlock op.1 reg fuel g op.2.1 op.2.2 with
    | none => none
    | some g1 => runAddOps reg fuel ops g1

theorem runAddOps_preserves {reg : LogicRegistry} {fuel : Nat} :
    ∀ {ops : List (Struct × LogicBlock × Coord)} {g g' : WireGraph},
    runAddOps reg fuel ops g = some g' → GraphInv g → GraphInv g' := by
  intro ops
  induction ops with
  | nil =>
    intro g g' h hInv
    simp only [runAddOps, Option.some.injEq] at h
    subst h
    exact hInv
  | cons op rest ih =>
    intro g g' h hInv
    simp only [runAddOps] at h
    cases ha : addLogicBlock op.1 reg fuel g op.2.1 op.2.2 with
    | none => rw [ha] at h; simp at h
    | some g1 =>
      rw [ha] at h
      exact ih h (addLogicBlock_preserves ha hInv)

/-- C3, amended: after any sequence of `add_logic_block` operations starting
from the empty graph (each completing without an internal panic), every
existing group id has at least one port in one of the input/output indices
**or records a representative wire coordinate** — lone-wire groups
legitimately carry zero ports, so the ports-only form of the claim fails. -/
theorem c3_amended (reg : LogicRegistry) (fuel : Nat)
    (ops : List (Struct × LogicBlock × Coord)) (g' : WireGraph)
    (h : runAddOps reg fuel ops WireGraph.empty = some g') : NoDanglingOrWire g' := by
  have hEmpty : GraphInv WireGraph.empty := by
    constructor
    · intro e he
      exact absurd he (by simp [WireGraph.empty])
    · refine ⟨?_, ?_, ?_⟩ <;> intro e he <;> exact absurd he (by simp [WireGraph.empty])
  exact (runAddOps_preserves h hEmpty).1

/-- C3, witness for the amended theorem: the lone-wire sequence yields a graph
whose only group is portless but records its wire coordinate. -/
theorem c3_witness : NoDanglingOrWire loneWireExpected :=
  c3_amended testReg 32 [(mkStruct ⟨1, 1, 1⟩ [(⟨0, 0, 0⟩, 1)], wireBlock, ⟨0, 0, 0⟩)]
    loneWireExpected (by decide)

theorem removeGroupsList_pair {g : WireGraph} {a b : Nat} {ga gb : LogicGroup}
    (hga : alistGet g.groups a = some ga) (hgb : alistGet g.groups b = some gb)
    (hab : a ≠ b) :
    removeGroupsList g [a, b] = some
      { g with
          groups := alistRemove (alistRemove g.groups a) b
          outputPortsOfGroup := alistRemove (alistRemove g.outputPortsOfGroup a) b
          inputPortsOfGroup := alistRemove (alistRemove g.inputPortsOfGroup a) b } := by
  simp only [removeGroupsList, WireGraph.removeGroup, hga]
  rw [alistGet_remove_ne _ _ _ (Ne.symm hab), hgb]

theorem alistGet_mapIds {K : Type} [DecidableEq K] (l : List (K × Nat)) (k : K)
    (ids : List Nat) (n : Nat) :
    alistGet (l.map (fun e => if e.2 ∈ ids then (e.1, n) else e)) k =
      (alistGet l k).map (fun v => if v ∈ ids then n else v) := by
  induction l with
  | nil => rfl
  | cons e t ih =>
    by_cases hp : e.2 ∈ ids
    · by_cases he : e.1 = k
      · simp [alistGet_cons, hp, he]
      · simp [alistGet_cons, hp, he, ih]
    · by_cases he : e.1 = k
      · simp [alistGet_cons, hp, he]
      · simp [alistGet_cons, hp, he, ih]

theorem countP_pair_mem {K : Type} (l : List (K × Nat)) (a b : Nat) (hab : a ≠ b) :
    l.countP (fun e => decide (e.2 ∈ [a, b])) =
      l.countP (fun e => decide (e.2 = a)) + l.countP (fun e => decide (e.2 = b)) := by
  induction l with
  | nil => rfl
  | cons e t ih =>
    rw [List.countP_cons, List.countP_cons, List.countP_cons, ih]
    by_cases hea : e.2 = a
    · have heb : ¬ e.2 = b := by rw [hea]; exact hab
      simp [hea, heb, if_neg hab]
      omega
    · by_cases heb : e.2 = b
      · simp [hea, heb, if_neg (Ne.symm hab)]
        omega
      · simp [hea, heb]

theorem merge_pair_spec {g : WireGraph} {a b : Nat} {ga gb : LogicGroup} {coords : Coord}
    (hga : alistGet g.groups a = some ga) (hgb : alistGet g.groups b = some gb)
    (hab : a ≠ b) :
    g.mergeAdjacentGroups [a, b] coords = some
      { nextGroupId := g.nextGroupId + 1
        groups := alistInsert (alistRemove (alistRemove g.groups a) b) g.nextGroupId
          ⟨ga.isOn || gb.isOn, some coords⟩
        groupOfOutputPort := g.groupOfOutputPort.map
          (fun e => if e.2 ∈ [a, b] then (e.1, g.nextGroupId) else e)
        groupOfInputPort := g.groupOfInputPort.map
          (fun e => if e.2 ∈ [a, b] then (e.1, g.nextGroupId) else e)
        outputPortsOfGroup := alistInsert (alistRemove (alistRemove g.outputPortsOfGroup a) b)
          g.nextGroupId
          ((g.groupOfOutputPort.filter (fun e => e.2 ∈ [a, b])).map (fun e => e.1))
        inputPortsOfGroup := alistInsert (alistRemove (alistRemove g.inputPortsOfGroup a) b)
          g.nextGroupId
          ((g.groupOfInputPort.filter (fun e => e.2 ∈ [a, b])).map (fun e => e.1)) } := by
  have hsig : groupsOrSignal g.groups [a, b] false = some (ga.isOn || gb.isOn) := by
    simp only [groupsOrSignal, hga, hgb, Bool.false_or]
  simp only [WireGraph.mergeAdjacentGroups, WireGraph.newGroupId]
  rw [show groupsOrSignal g.groups [a, b] false = some (ga.isOn || gb.isOn) from hsig]
  rw [@removeGroupsList_pair
    { nextGroupId := g.nextGroupId + 1, groups := g.groups,
      groupOfOutputPort :=
        g.groupOfOutputPort.map (fun e => if e.2 ∈ [a, b] then (e.1, g.nextGroupId) else e),
      groupOfInputPort :=
        g.groupOfInputPort.map (fun e => if e.2 ∈ [a, b] then (e.1, g.nextGroupId) else e),
      outputPortsOfGroup := g.outputPortsOfGroup, inputPortsOfGroup := g.inputPortsOfGroup }
    a b ga gb hga hgb hab]
  rfl

/-- C1, amended: when `add_logic_block` is called for a pure-wire block whose
wire-face scan finds exactly two distinct existing groups A and B (with N and
M ports respectively), the result is a single merged group: every port
previously mapped to A or B is remapped to the one fresh group id, ports of
other groups keep their group, both old groups are deleted, the merged
group's signal is the OR of the two old signals, its representative wire
coordinate is the new wire, and its port lists hold exactly N + M ports — not
N + M + 1, since the connecting wire block itself carries no port. -/
theorem c1_amended (st : Struct) (reg : LogicRegistry) (fuel : Nat) (g : WireGraph)
    (lb : LogicBlock) (coords : Coord) (a b : Nat) (ga gb : LogicGroup)
    (hin : lb.inputFaces = []) (hout : lb.outputFaces = [])
    (hwf : 0 < lb.wireFaces.length)
    (hcol : collectWireGroups st reg fuel g lb coords = some [a, b])
    (hab : a ≠ b)
    (hga : alistGet g.groups a = some ga) (hgb : alistGet g.groups b = some gb)
    (hca : a < g.nextGroupId) (hcb : b < g.nextGroupId) :
    ∃ g', addLogicBlock st reg fuel g lb coords = some g' ∧
      alistGet g'.groups a = none ∧
      alistGet g'.groups b = none ∧
      alistGet g'.groups g.nextGroupId = some ⟨ga.isOn || gb.isOn, some coords⟩ ∧
      (∀ t p gid, alistGet (g.portMap t) p = some gid → (gid = a ∨ gid = b) →
        alistGet (g'.portMap t) p = some g.nextGroupId) ∧
      (∀ t p gid, alistGet (g.portMap t) p = some gid → ¬ (gid = a ∨ gid = b) →
        alistGet (g'.portMap t) p = some gid) ∧
      ((alistGet g'.outputPortsOfGroup g.nextGroupId).getD []).length +
          ((alistGet g'.inputPortsOfGroup g.nextGroupId).getD []).length =
        (g.groupOfOutputPort.countP (fun e => decide (e.2 = a)) +
            g.groupOfInputPort.countP (fun e => decide (e.2 = a))) +
          (g.groupOfOutputPort.countP (fun e => decide (e.2 = b)) +
            g.groupOfInputPort.countP (fun e => decide (e.2 = b))) := by
  have hadd : addLogicBlock st reg fuel g lb coords = g.mergeAdjacentGroups [a, b] coords := by
    simp only [addLogicBlock, hin, hout, neighborPortsLoop, if_pos hwf, hcol]
  refine ⟨_, by rw [hadd]; exact merge_pair_spec hga hgb hab, ?_, ?_, ?_, ?_, ?_, ?_⟩
  · show alistGet (alistInsert (alistRemove (alistRemove g.groups a) b) g.nextGroupId
      ⟨ga.isOn || gb.isOn, some coords⟩) a = none
    rw [alistGet_insert_ne _ _ _ _ (Nat.ne_of_lt hca),
      alistGet_remove_ne _ _ _ hab, alistGet_remove_self]
  · show alistGet (alistInsert (alistRemove (alistRemove g.groups a) b) g.nextGroupId
      ⟨ga.isOn || gb.isOn, some coords⟩) b = none
    rw [alistGet_insert_ne _ _ _ _ (Nat.ne_of_lt hcb), alistGet_remove_self]
  · show alistGet (alistInsert (alistRemove (alistRemove g.groups a) b) g.nextGroupId
      ⟨ga.isOn || gb.isOn, some coords⟩) g.nextGroupId = _
    rw [alistGet_insert_self]
  · intro t p gid hp hgid
    have hmem : gid ∈ [a, b] := by
      rcases hgid with h1 | h1 <;> simp [h1]
    cases t
    · show alistGet (g.groupOfInputPort.map
        (fun e => if e.2 ∈ [a, b] then (e.1, g.nextGroupId) else e)) p = some g.nextGroupId
      rw [alistGet_mapIds]
      have hp2 : alistGet g.groupOfInputPort p = some gid := hp
      rw [hp2]
      simp only [Option.map_some']
      rw [if_pos hmem]
    · show alistGet (g.groupOfOutputPort.map
        (fun e => if e.2 ∈ [a, b] then (e.1, g.nextGroupId) else e)) p = some g.nextGroupId
      rw [alistGet_mapIds]
      have hp2 : alistGet g.groupOfOutputPort p = some gid := hp
      rw [hp2]
      simp only [Option.map_some']
      rw [if_pos hmem]
  · intro t p gid hp hgid
    have hmem : gid ∉ [a, b] := by
      intro hm
      apply hgid
      rcases List.mem_cons.mp hm with h1 | h1
      · exact Or.inl h1
      · exact Or.inr (List.mem_singleton.mp h1)
    cases t
    · show alistGet (g.groupOfInputPort.map
        (fun e => if e.2 ∈ [a, b] then (e.1, g.nextGroupId) else e)) p = some gid
      rw [alistGet_mapIds]
      have hp2 : alistGet g.groupOfInputPort p = some gid := hp
      rw [hp2]
      simp only [Option.map_some']
      rw [if_neg hmem]
    · show alistGet (g.groupOfOutputPort.map
        (fun e => if e.2 ∈ [a, b] then (e.1, g.nextGroupId) else e)) p = some gid
      rw [alistGet_mapIds]
      have hp2 : alistGet g.groupOfOutputPort p = some gid := hp
      rw [hp2]
      simp only [Option.map_some']
      rw [if_neg hmem]
  · have e1 := alistGet_insert_self (alistRemove (alistRemove g.outputPortsOfGroup a) b)
      g.nextGroupId ((g.groupOfOutputPort.filter (fun e => e.2 ∈ [a, b])).map (fun e => e.1))
    have e2 := alistGet_insert_self (alistRemove (alistRemove g.inputPortsOfGroup a) b)
      g.nextGroupId ((g.groupOfInputPort.filter (fun e => e.2 ∈ [a, b])).map (fun e => e.1))
    show ((alistGet (alistInsert (alistRemove (alistRemove g.outputPortsOfGroup a) b)
        g.nextGroupId ((g.groupOfOutputPort.filter (fun e => e.2 ∈ [a, b])).map
          (fun e => e.1))) g.nextGroupId).getD []).length +
      ((alistGet (alistInsert (alistRemove (alistRemove g.inputPortsOfGroup a) b)
        g.nextGroupId ((g.groupOfInputPort.filter (fun e => e.2 ∈ [a, b])).map
          (fun e => e.1))) g.nextGroupId).getD []).length =
      (g.groupOfOutputPort.countP (fun e => decide (e.2 = a)) +
          g.groupOfInputPort.countP (fun e => decide (e.2 = a))) +
        (g.groupOfOutputPort.countP (fun e => decide (e.2 = b)) +
          g.groupOfInputPort.countP (fun e => decide (e.2 = b)))
    rw [e1, e2]
    simp only [Option.getD_some, List.length_map]
    rw [← List.countP_eq_length_filter, ← List.countP_eq_length_filter]
    rw [countP_pair_mem _ _ _ hab, countP_pair_mem _ _ _ hab]
    omega

/-- The full 5-cell structure of the merge scenario. -/
def c1FullSt : Struct :=
  mergeSt [(0, 2), (1, 1), (4, 4), (3, 1), (2, 1)]

/-- The graph just before the connecting wire is placed: network A (group 0,
one port) and network B (group 1, one port). -/
def c1PreMerge : WireGraph :=
  { nextGroupId := 2
    groups := [(0, ⟨false, some ⟨1, 0, 0⟩⟩), (1, ⟨false, some ⟨3, 0, 0⟩⟩)]
    groupOfOutputPort := [(⟨⟨0, 0, 0⟩, .Right⟩, 0), (⟨⟨4, 0, 0⟩, .Left⟩, 1)]
    groupOfInputPort := []
    outputPortsOfGroup := [(0, [⟨⟨0, 0, 0⟩, .Right⟩]), (1, [⟨⟨4, 0, 0⟩, .Left⟩])]
    inputPortsOfGroup := [(0, []), (1, [])] }

/-- C1, witness for the amended theorem: placing the connecting wire at x = 2
merges groups 1 and 0 of `c1PreMerge` into the new group 2 with the OR'd
(off) signal and the wire as its representative coordinate. -/
theorem c1_witness :
    ∃ g', addLogicBlock c1FullSt testReg 32 c1PreMerge wireBlock ⟨2, 0, 0⟩ = some g' ∧
      alistGet g'.groups 2 = some ⟨false, some ⟨2, 0, 0⟩⟩ ∧
      alistGet g'.groups 1 = none ∧ alistGet g'.groups 0 = none := by
  obtain ⟨g', hadd, hb, ha, hnew, -, -, -⟩ :=
    c1_amended c1FullSt testReg 32 c1PreMerge wireBlock ⟨2, 0, 0⟩ 1 0
      ⟨false, some ⟨3, 0, 0⟩⟩ ⟨false, some ⟨1, 0, 0⟩⟩ (by decide) (by decide) (by decide)
      (by decide) (by decide) (by decide) (by decide) (by decide) (by decide)
  exact ⟨g', hadd, hnew, hb, ha⟩

/-- All in-bounds coordinates of a structure. -/
def allCoords (st : Struct) : List Coord :=
  (List.range st.dims.x).flatMap (fun x =>
    (List.range st.dims.y).flatMap (fun y =>
      (List.range st.dims.z).map (fun z => ⟨x, y, z⟩)))

/-- All in-bounds ports of a structure (six per cell). -/
def allPortsList (st : Struct) : List Port :=
  (allCoords st).flatMap (fun c => Port.allFor c)

theorem mem_allCoords {st : Struct} {c : Coord} (h : st.inBounds c = true) :
    c ∈ allCoords st := by
  simp only [Struct.inBounds, Bool.and_eq_true, decide_eq_true_eq] at h
  obtain ⟨⟨hx, hy⟩, hz⟩ := h
  simp only [allCoords, List.mem_flatMap, List.mem_map, List.mem_range]
  exact ⟨c.x, hx, c.y, hy, c.z, hz, rfl⟩

theorem mem_allPortsList {st : Struct} {c : Coord} {f : BlockFace}
    (h : st.inBounds c = true) : Port.mk c f ∈ allPortsList st := by
  simp only [allPortsList, List.mem_flatMap]
  refine ⟨c, mem_allCoords h, ?_⟩
  simp only [Port.allFor, List.mem_map]
  exact ⟨f, by cases f <;> simp [allBlockFaces], rfl⟩

/-- The number of in-bounds ports not yet visited: the termination measure of
the recursive searches. -/
def unvisitedCount (st : Struct) (v : List Port) : Nat :=
  (allPortsList st).countP (fun p => decide (¬ p ∈ v))

theorem countP_le_countP {α : Type} {l : List α} {p q : α → Bool}
    (h : ∀ a ∈ l, p a = true → q a = true) : l.countP p ≤ l.countP q := by
  induction l with
  | nil => exact Nat.le_refl _
  | cons x t ih =>
    rw [List.countP_cons, List.countP_cons]
    have ht := ih (fun a ha => h a (List.mem_cons_of_mem _ ha))
    have h1 : (if (true = true) then 1 else 0) = 1 := rfl
    have h0 : (if (false = true) then 1 else 0) = 0 := rfl
    by_cases hp : p x = true
    · rw [hp, h x (List.mem_cons_self _ _) hp, h1]
      omega
    · rw [Bool.not_eq_true] at hp
      rw [hp, h0]
      by_cases hq : q x = true
      · rw [hq, h1]
        omega
      · rw [Bool.not_eq_true] at hq
        rw [hq, h0]
        omega

theorem countP_lt_of_mem {α : Type} {l : List α} {p q : α → Bool} {a : α}
    (ha : a ∈ l) (hpa : p a = false) (hqa : q a = true)
    (h : ∀ x ∈ l, p x = true → q x = true) : l.countP p < l.countP q := by
  induction l with
  | nil => exact absurd ha (by simp)
  | cons x t ih =>
    rw [List.countP_cons, List.countP_cons]
    rcases List.mem_cons.mp ha with h1 | h1
    · subst h1
      rw [hpa, hqa]
      have hif1 : (if (true = true) then 1 else 0) = 1 := rfl
      have hif0 : (if (false = true) then 1 else 0) = 0 := rfl
      rw [hif1, hif0]
      have := countP_le_countP (fun y hy => h y (List.mem_cons_of_mem _ hy))
      omega
    · have hlt := ih h1 (fun y hy => h y (List.mem_cons_of_mem _ hy))
      have h1 : (if (true = true) then 1 else 0) = 1 := rfl
      have h0 : (if (false = true) then 1 else 0) = 0 := rfl
      by_cases hp : p x = true
      · rw [hp, h x (List.mem_cons_self _ _) hp, h1]
        omega
      · rw [Bool.not_eq_true] at hp
        rw [hp, h0]
        by_cases hq : q x = true
        · rw [hq, h1]
          omega
        · rw [Bool.not_eq_true] at hq
          rw [hq, h0]
          omega

theorem unvisitedCount_le {st : Struct} {v v' : List Port} (h : v ⊆ v') :
    unvisitedCount st v' ≤ unvisitedCount st v := by
  refine countP_le_countP (fun p _ hp => ?_)
  simp only [decide_eq_true_eq] at hp ⊢
  exact fun hmem => hp (h hmem)

theorem unvisitedCount_insert_lt {st : Struct} {v : List Port} {p0 : Port}
    (hmem : p0 ∈ allPortsList st) (hnot : p0 ∉ v) :
    unvisitedCount st (vinsert p0 v) < unvisitedCount st v := by
  unfold vinsert
  rw [if_neg hnot]
  refine countP_lt_of_mem hmem ?_ ?_ ?_
  · simp
  · simp [hnot]
  · intro x _ hx
    simp only [decide_eq_true_eq, List.mem_cons] at hx ⊢
    exact fun hmem2 => hx (Or.inr hmem2)

theorem subset_vinsert (p : Port) (v : List Port) : v ⊆ vinsert p v := by
  unfold vinsert
  by_cases h : p ∈ v
  · rw [if_pos h]
    exact fun a ha => ha
  · rw [if_neg h]
    exact fun a ha => List.mem_cons_of_mem _ ha

theorem step_inBounds {st : Struct} {c n : Coord} {f : BlockFace}
    (hc : st.inBounds c = true) (h : st.step c f = some n) : st.inBounds n = true := by
  simp only [Struct.inBounds, Bool.and_eq_true, decide_eq_true_eq] at hc ⊢
  obtain ⟨⟨hx, hy⟩, hz⟩ := hc
  cases f <;> simp only [Struct.step] at h <;> split at h <;> rename_i hcond
  case Right.isTrue =>
    simp only [Option.some.injEq] at h
    subst h
    exact ⟨⟨by show c.x + 1 < st.dims.x; omega, by show c.y < st.dims.y; omega⟩, by show c.z < st.dims.z; omega⟩
  case Right.isFalse => exact absurd h (by simp)
  case Left.isTrue =>
    simp only [Option.some.injEq] at h
    subst h
    exact ⟨⟨by show c.x - 1 < st.dims.x; omega, by show c.y < st.dims.y; omega⟩, by show c.z < st.dims.z; omega⟩
  case Left.isFalse => exact absurd h (by simp)
  case Top.isTrue =>
    simp only [Option.some.injEq] at h
    subst h
    exact ⟨⟨by show c.x < st.dims.x; omega, by show c.y + 1 < st.dims.y; omega⟩, by show c.z < st.dims.z; omega⟩
  case Top.isFalse => exact absurd h (by simp)
  case Bottom.isTrue =>
    simp only [Option.some.injEq] at h
    subst h
    exact ⟨⟨by show c.x < st.dims.x; omega, by show c.y - 1 < st.dims.y; omega⟩, by show c.z < st.dims.z; omega⟩
  case Bottom.isFalse => exact absurd h (by simp)
  case Front.isTrue =>
    simp only [Option.some.injEq] at h
    subst h
    exact ⟨⟨by show c.x < st.dims.x; omega, by show c.y < st.dims.y; omega⟩, by show c.z + 1 < st.dims.z; omega⟩
  case Front.isFalse => exact absurd h (by simp)
  case Back.isTrue =>
    simp only [Option.some.injEq] at h
    subst h
    exact ⟨⟨by show c.x < st.dims.x; omega, by show c.y < st.dims.y; omega⟩, by show c.z - 1 < st.dims.z; omega⟩
  case Back.isFalse => exact absurd h (by simp)

theorem findGroupLoop_mono {st : Struct} {c : Coord}
    {recurse : Coord → BlockFace → List Port → Option (List Port × Option Nat)}
    (hrec : ∀ c' f' v v2 r, recurse c' f' v = some (v2, r) → v ⊆ v2) :
    ∀ {faces : List BlockFace} {v v' : List Port} {r : Option Nat},
    findGroupLoop st c recurse faces v = some (v', r) → v ⊆ v' := by
  intro faces
  induction faces with
  | nil =>
    intro v v' r h
    simp only [findGroupLoop, Option.some.injEq, Prod.mk.injEq] at h
    rw [← h.1]
    exact fun a ha => ha
  | cons face rest ih =>
    intro v v' r h
    simp only [findGroupLoop] at h
    have hsub1 : v ⊆ vinsert ⟨c, (st.rotAt c).globalToLocal face⟩ v :=
      subset_vinsert _ _
    split at h
    · exact fun a ha => ih h (hsub1 ha)
    · rename_i n hstep
      split at h
      · exact fun a ha => ih h (hsub1 ha)
      · cases hr : recurse n ((st.rotAt c).globalToLocal face).inverse
            (vinsert ⟨c, (st.rotAt c).globalToLocal face⟩ v) with
        | none => rw [hr] at h; exact absurd h (by simp)
        | some pr =>
          rw [hr] at h
          obtain ⟨v2, r2⟩ := pr
          have hsub2 := hrec _ _ _ _ _ hr
          cases r2 with
          | some gid =>
            simp only [Option.some.injEq, Prod.mk.injEq] at h
            rw [← h.1]
            exact fun a ha => hsub2 (hsub1 ha)
          | none =>
            exact fun a ha => ih h (hsub2 (hsub1 ha))

theorem findGroup_mono {st : Struct} {reg : LogicRegistry} {g : WireGraph} :
    ∀ (fuel : Nat) {c : Coord} {enc : BlockFace} {v v' : List Port} {r : Option Nat},
    findGroup st reg g fuel c enc v = some (v', r) → v ⊆ v' := by
  intro fuel
  induction fuel with
  | zero =>
    intro c enc v v' r h
    exact absurd h (by simp [findGroup])
  | succ fuel ih =>
    intro c enc v v' r h
    simp only [findGroup] at h
    split at h
    · simp only [Option.some.injEq, Prod.mk.injEq] at h
      rw [← h.1]
      exact fun a ha => ha
    · rename_i lb hlb
      split at h
      · simp only [Option.some.injEq, Prod.mk.injEq] at h
        rw [← h.1]
        exact fun a ha => ha
      · simp only [Option.some.injEq, Prod.mk.injEq] at h
        rw [← h.1]
        exact fun a ha => ha
      · split at h
        · simp only [Option.some.injEq, Prod.mk.injEq] at h
          rw [← h.1]
          exact fun a ha => ha
        · have hloop := findGroupLoop_mono (fun c' f' v0 v2 r0 hh => ih hh) h
          exact fun a ha => hloop (subset_vinsert _ _ ha)
      · simp only [Option.some.injEq, Prod.mk.injEq] at h
        rw [← h.1]
        exact fun a ha => ha

theorem findGroupLoop_suff {st : Struct} {c : Coord} {fuel : Nat}
    {recurse : Coord → BlockFace → List Port → Option (List Port × Option Nat)}
    (hrec : ∀ c' f' v', st.inBounds c' = true → Port.mk c' f' ∉ v' →
      unvisitedCount st v' < fuel → recurse c' f' v' ≠ none)
    (hmono : ∀ c' f' v v2 r, recurse c' f' v = some (v2, r) → v ⊆ v2)
    (hc : st.inBounds c = true) :
    ∀ {faces : List BlockFace} {v : List Port}, unvisitedCount st v < fuel →
    findGroupLoop st c recurse faces v ≠ none := by
  intro faces
  induction faces with
  | nil =>
    intro v hcount
    simp [findGroupLoop]
  | cons face rest ih =>
    intro v hcount
    simp only [findGroupLoop]
    have hcount1 : unvisitedCount st (vinsert ⟨c, (st.rotAt c).globalToLocal face⟩ v) < fuel :=
      Nat.lt_of_le_of_lt (unvisitedCount_le (subset_vinsert _ _)) hcount
    split
    · exact ih hcount1
    · rename_i n hstep
      split
      · exact ih hcount1
      · rename_i hmem
        have hn : st.inBounds n = true := step_inBounds hc hstep
        cases hr : recurse n ((st.rotAt c).globalToLocal face).inverse
            (vinsert ⟨c, (st.rotAt c).globalToLocal face⟩ v) with
        | none => exact absurd hr (hrec _ _ _ hn hmem hcount1)
        | some pr =>
          obtain ⟨v2, r2⟩ := pr
          cases r2 with
          | some gid => simp
          | none =>
            refine ih ?_
            exact Nat.lt_of_le_of_lt (unvisitedCount_le (hmono _ _ _ _ _ hr)) hcount1

theorem findGroup_suff {st : Struct} {reg : LogicRegistry} {g : WireGraph} :
    ∀ (fuel : Nat) (c : Coord) (enc : BlockFace) (v : List Port),
    st.inBounds c = true → Port.mk c enc ∉ v → unvisitedCount st v < fuel →
    findGroup st reg g fuel c enc v ≠ none := by
  intro fuel
  induction fuel with
  | zero =>
    intro c enc v _ _ hcount
    exact absurd hcount (by omega)
  | succ fuel ih =>
    intro c enc v hc hnv hcount
    simp only [findGroup]
    split
    · simp
    · rename_i lb hlb
      split
      · simp
      · simp
      · split
        · simp
        · have hmemp : Port.mk c enc ∈ allPortsList st := mem_allPortsList hc
          have hlt := unvisitedCount_insert_lt hmemp hnv
          refine findGroupLoop_suff (fun c' f' v' hb hm hcnt => ih c' f' v' hb hm hcnt)
            (fun c' f' v0 v2 r0 hh => findGroup_mono fuel hh) hc ?_
          omega
      · simp

/-- C9: the recursive `find_group` search terminates on every finite
structure, cycles included — with fuel exceeding the number of unvisited
in-bounds ports, the search never exhausts its fuel, because every wire-arm
recursion first marks the entered port visited.  Entering on an input or
output port face returns that port's stored group id at any fuel, without
recursing; a face with no logic connection, or a non-logic block, yields no
group. -/
theorem c9_find_group_terminates :
    (∀ (st : Struct) (reg : LogicRegistry) (g : WireGraph) (coords : Coord)
      (enc : BlockFace) (visited : List Port),
      st.inBounds coords = true → Port.mk coords enc ∉ visited →
      ∃ r, findGroup st reg g (unvisitedCount st visited + 1) coords enc visited = some r) ∧
    (∀ (st : Struct) (reg : LogicRegistry) (g : WireGraph) (fuel : Nat) (coords : Coord)
      (enc : BlockFace) (visited : List Port) (lb : LogicBlock),
      logicBlockAt st reg coords = some lb →
      lb.connectionOn ((st.rotAt coords).localToGlobal enc) = some (.Port .Input) →
      findGroup st reg g (fuel + 1) coords enc visited =
        some (visited, alistGet g.groupOfInputPort ⟨coords, enc⟩)) ∧
    (∀ (st : Struct) (reg : LogicRegistry) (g : WireGraph) (fuel : Nat) (coords : Coord)
      (enc : BlockFace) (visited : List Port) (lb : LogicBlock),
      logicBlockAt st reg coords = some lb →
      lb.connectionOn ((st.rotAt coords).localToGlobal enc) = some (.Port .Output) →
      findGroup st reg g (fuel + 1) coords enc visited =
        some (visited, alistGet g.groupOfOutputPort ⟨coords, enc⟩)) ∧
    (∀ (st : Struct) (reg : LogicRegistry) (g : WireGraph) (fuel : Nat) (coords : Coord)
      (enc : BlockFace) (visited : List Port) (lb : LogicBlock),
      logicBlockAt st reg coords = some lb →
      lb.connectionOn ((st.rotAt coords).localToGlobal enc) = none →
      findGroup st reg g (fuel + 1) coords enc visited = some (visited, none)) := by
  refine ⟨?_, ?_, ?_, ?_⟩
  · intro st reg g coords enc visited hb hnv
    have h := @findGroup_suff st reg g (unvisitedCount st visited + 1) coords enc visited hb hnv
      (Nat.lt_succ_self _)
    cases hr : findGroup st reg g (unvisitedCount st visited + 1) coords enc visited with
    | none => exact absurd hr h
    | some r => exact ⟨r, rfl⟩
  · intro st reg g fuel coords enc visited lb hlb hcn
    simp only [findGroup, hlb, hcn]
  · intro st reg g fuel coords enc visited lb hlb hcn
    simp only [findGroup, hlb, hcn]
  · intro st reg g fuel coords enc visited lb hlb hcn
    simp only [findGroup, hlb, hcn]

/-- C9, witness: on the full 3-wire line, the search from the middle cell with
18 unvisited ports returns within fuel 19, and entering the output block of
the 2-cell structure on its port face returns the stored group at once. -/
theorem c9_witness :
    (∃ r, findGroup (lineSt [0, 1, 2]) testReg WireGraph.empty
        (unvisitedCount (lineSt [0, 1, 2]) [] + 1) ⟨1, 0, 0⟩ .Left [] = some r) ∧
      findGroup dblSt testReg staleG 4 ⟨0, 0, 0⟩ .Right [] =
        some ([], alistGet staleG.groupOfOutputPort ⟨⟨0, 0, 0⟩, .Right⟩) := by
  constructor
  · exact c9_find_group_terminates.1 (lineSt [0, 1, 2]) testReg WireGraph.empty ⟨1, 0, 0⟩
      .Left [] (by decide) (by decide)
  · exact c9_find_group_terminates.2.2.1 dblSt testReg staleG 3 ⟨0, 0, 0⟩ .Right []
      outRightBlock rfl rfl

theorem alistGet_some_mem {K V : Type} [DecidableEq K] {l : List (K × V)} {k : K} {v : V}
    (h : alistGet l k = some v) : (k, v) ∈ l := by
  simp only [alistGet, Option.map_eq_some'] at h
  obtain ⟨e, he, hv⟩ := h
  have hk := List.find?_some he
  simp only [decide_eq_true_eq] at hk
  have hm := List.mem_of_find?_eq_some he
  have : e = (k, v) := by
    cases e
    simp only at hk hv
    rw [hk, hv]
  rw [← this]
  exact hm

theorem alistGet_isSome_of_mem {K V : Type} [DecidableEq K] {l : List (K × V)} {e : K × V}
    (h : e ∈ l) : (alistGet l e.1).isSome = true := by
  simp only [alistGet, Option.isSome_map']
  rw [List.find?_isSome]
  exact ⟨e, h, by simp⟩

theorem alistGet_of_mem_nodup {K V : Type} [DecidableEq K] {l : List (K × V)} {e : K × V}
    (hnd : (l.map Prod.fst).Nodup) (h : e ∈ l) : alistGet l e.1 = some e.2 := by
  induction l with
  | nil => cases h
  | cons x t ih =>
    simp only [List.map_cons, List.nodup_cons] at hnd
    rcases List.mem_cons.mp h with he | he
    · subst he
      simp [alistGet_cons]
    · have hne : ¬ x.1 = e.1 := by
        intro hx
        exact hnd.1 (hx ▸ List.mem_map_of_mem Prod.fst he)
      rw [alistGet_cons, if_neg hne]
      exact ih hnd.2 he

theorem alistInsert_keys_nodup {K V : Type} [DecidableEq K] {l : List (K × V)} (k : K) (v : V)
    (hnd : (l.map Prod.fst).Nodup) : ((alistInsert l k v).map Prod.fst).Nodup := by
  induction l with
  | nil => simp [alistInsert]
  | cons x t ih =>
    simp only [List.map_cons, List.nodup_cons] at hnd
    by_cases hx : x.1 = k
    · simp only [alistInsert, hx, if_true, List.map_cons, List.nodup_cons]
      exact ⟨hx ▸ hnd.1, hnd.2⟩
    · simp only [alistInsert, hx, if_false, List.map_cons, List.nodup_cons]
      refine ⟨?_, ih hnd.2⟩
      intro hmem
      rcases List.mem_map.mp hmem with ⟨e, he, hfst⟩
      rcases mem_alistInsert he with he2 | he2
      · exact hnd.1 (hfst ▸ List.mem_map_of_mem Prod.fst he2)
      · rw [he2] at hfst
        exact hx hfst.symm

theorem alistRemove_sublist {K V : Type} [DecidableEq K] (l : List (K × V)) (k : K) :
    List.Sublist (alistRemove l k) l := by
  induction l with
  | nil => simp [alistRemove]
  | cons x t ih =>
    by_cases hx : x.1 = k
    · simp only [alistRemove, hx, if_true]
      exact List.Sublist.cons x ih
    · simp only [alistRemove, hx, if_false]
      exact ih.cons₂ x

theorem alistRemove_keys_nodup {K V : Type} [DecidableEq K] {l : List (K × V)} (k : K)
    (hnd : (l.map Prod.fst).Nodup) : ((alistRemove l k).map Prod.fst).Nodup :=
  ((alistRemove_sublist l k).map Prod.fst).nodup hnd

theorem alistModify_keys {K V : Type} [DecidableEq K] {l l' : List (K × V)} {k : K}
    {f : V → V} (h : alistModify l k f = some l') : l'.map Prod.fst = l.map Prod.fst := by
  induction l generalizing l' with
  | nil => simp [alistModify] at h
  | cons e t ih =>
    by_cases he : e.1 = k
    · simp only [alistModify, he, if_true, Option.some.injEq] at h
      subst h
      simp [he]
    · simp only [alistModify, he, if_false] at h
      cases hm : alistModify t k f with
      | none => rw [hm] at h; simp at h
      | some t2 =>
        rw [hm] at h
        simp only [Option.map_some', Option.some.injEq] at h
        subst h
        simp [ih hm]

theorem mem_alistInsert_nodup {K V : Type} [DecidableEq K] {l : List (K × V)} {k : K} {v : V}
    {e : K × V} (hnd : (l.map Prod.fst).Nodup) (h : e ∈ alistInsert l k v) :
    (e ∈ l ∧ e.1 ≠ k) ∨ e = (k, v) := by
  induction l with
  | nil =>
    simp only [alistInsert, List.mem_singleton] at h
    exact Or.inr h
  | cons x t ih =>
    simp only [List.map_cons, List.nodup_cons] at hnd
    by_cases hx : x.1 = k
    · simp only [alistInsert, hx, if_true, List.mem_cons] at h
      rcases h with h | h
      · exact Or.inr h
      · refine Or.inl ⟨List.mem_cons_of_mem _ h, ?_⟩
        intro hek
        exact hnd.1 ((hek.trans hx.symm) ▸ List.mem_map_of_mem Prod.fst h)
    · simp only [alistInsert, hx, if_false, List.mem_cons] at h
      rcases h with h | h
      · exact Or.inl ⟨h ▸ List.mem_cons_self _ _, h ▸ hx⟩
      · rcases ih hnd.2 h with ⟨h1, h2⟩ | h1
        · exact Or.inl ⟨List.mem_cons_of_mem _ h1, h2⟩
        · exact Or.inr h1

theorem mapIds_keys {K : Type} (l : List (K × Nat)) (ids : List Nat) (n : Nat) :
    (l.map (fun e => if e.2 ∈ ids then (e.1, n) else e)).map Prod.fst = l.map Prod.fst := by
  induction l with
  | nil => rfl
  | cons e t ih =>
    by_cases hp : e.2 ∈ ids
    · simp [hp, ih]
    · simp [hp, ih]

theorem count_collected {K : Type} [DecidableEq K] {l : List (K × Nat)} {e : K × Nat}
    (ids : List Nat) (hnd : (l.map Prod.fst).Nodup) (hmem : e ∈ l) (hin : e.2 ∈ ids) :
    ((l.filter (fun x => x.2 ∈ ids)).map (fun x => x.1)).count e.1 = 1 := by
  induction l with
  | nil => cases hmem
  | cons x t ih =>
    simp only [List.map_cons, List.nodup_cons] at hnd
    rcases List.mem_cons.mp hmem with he | he
    · subst he
      have hf : decide (e.2 ∈ ids) = true := decide_eq_true hin
      simp only [List.filter_cons, hf, if_true, List.map_cons, List.count_cons]
      have h0 : ((t.filter (fun x => decide (x.2 ∈ ids))).map (fun x => x.1)).count e.1 = 0 := by
        rw [List.count_eq_zero]
        intro hc
        rcases List.mem_map.mp hc with ⟨y, hy, hfst⟩
        have hyt := List.mem_of_mem_filter hy
        exact hnd.1 (hfst ▸ List.mem_map_of_mem Prod.fst hyt)
      rw [h0]
      simp
    · have hne : e.1 ≠ x.1 := by
        intro hx
        exact hnd.1 (hx ▸ List.mem_map_of_mem Prod.fst he)
      by_cases hx : decide (x.2 ∈ ids) = true
      · simp only [List.filter_cons, hx, if_true, List.map_cons, List.count_cons]
        have hb : (x.1 == e.1) = false := by
          exact beq_eq_false_iff_ne.mpr (Ne.symm hne)
        rw [hb]
        have h1 : (if false = true then 1 else 0) = 0 := rfl
        rw [h1, Nat.add_zero]
        exact ih hnd.2 he
      · simp only [List.filter_cons, hx, if_false]
        exact ih hnd.2 he

theorem removeGroupsList_more : ∀ (ids : List Nat) (g g3 : WireGraph),
    removeGroupsList g ids = some g3 →
    (∀ id, id ∉ ids → alistGet g3.groups id = alistGet g.groups id) ∧
      (∀ id ∈ ids, alistGet g3.outputPortsOfGroup id = none ∧
        alistGet g3.inputPortsOfGroup id = none) ∧
      List.Sublist g3.outputPortsOfGroup g.outputPortsOfGroup ∧
      List.Sublist g3.inputPortsOfGroup g.inputPortsOfGroup := by
  intro ids
  induction ids with
  | nil =>
    intro g g3 h
    simp only [removeGroupsList, Option.some.injEq] at h
    subst h
    exact ⟨fun id _ => rfl, fun id hid => absurd hid (by simp), List.Sublist.refl _,
      List.Sublist.refl _⟩
  | cons id0 t ih =>
    intro g g3 h
    simp only [removeGroupsList] at h
    cases hr : g.removeGroup id0 with
    | none => rw [hr] at h; simp at h
    | some pr =>
      rw [hr] at h
      obtain ⟨g1, gr⟩ := pr
      obtain ⟨hgroups, houts, hins, -, -, -, -⟩ := removeGroup_spec hr
      obtain ⟨ih1, ih2, ih3, ih4⟩ := ih g1 g3 h
      have hnone : ∀ (pg1 pg3 : List (Nat × List Port)), List.Sublist pg3 pg1 →
          alistGet pg1 id0 = none → alistGet pg3 id0 = none := by
        intro pg1 pg3 hsub h1
        cases h3 : alistGet pg3 id0 with
        | none => rfl
        | some v =>
          have hm := alistGet_some_mem h3
          have hm1 : ((id0, v) : Nat × List Port) ∈ pg1 := hsub.mem hm
          have := alistGet_isSome_of_mem hm1
          rw [h1] at this
          cases this
      refine ⟨?_, ?_, ?_, ?_⟩
      · intro id hid
        simp only [List.mem_cons] at hid
        push_neg at hid
        rw [ih1 id hid.2, hgroups, alistGet_remove_ne _ _ _ hid.1]
      · intro id hid
        rcases List.mem_cons.mp hid with hid | hid
        · subst hid
          have hout1 : alistGet g1.outputPortsOfGroup id = none := by
            rw [houts]; exact alistGet_remove_self _ _
          have hin1 : alistGet g1.inputPortsOfGroup id = none := by
            rw [hins]; exact alistGet_remove_self _ _
          exact ⟨hnone _ _ ih3 hout1, hnone _ _ ih4 hin1⟩
        · exact ih2 id hid
      · refine ih3.trans ?_
        rw [houts]
        exact alistRemove_sublist _ _
      · refine ih4.trans ?_
        rw [hins]
        exact alistRemove_sublist _ _

/-- One side (one port type) of the bidirectional index consistency invariant:
the port-to-group map and the group-to-ports list have unique keys (as
`HashMap`s do), every mapped port occurs exactly once in its group's port
list, every listed port is mapped back to its group, and every group id
keying a port list is live in the groups map. -/
def SideOK (pm : List (Port × Nat)) (pg : List (Nat × List Port))
    (gs : List (Nat × LogicGroup)) : Prop :=
  (pm.map Prod.fst).Nodup ∧
    (pg.map Prod.fst).Nodup ∧
    (∀ e ∈ pm, (alistGet pg e.2).isSome = true ∧
      ((alistGet pg e.2).getD []).count e.1 = 1) ∧
    (∀ e ∈ pg, ∀ p ∈ e.2, alistGet pm p = some e.1) ∧
    (∀ e ∈ pg, (alistGet gs e.1).isSome = true)

/-- Bidirectional index consistency of a wire graph, for both port types. -/
def IndexConsistent (g : WireGraph) : Prop :=
  ∀ t : PortType, SideOK (g.portMap t) (g.portsOfGroup t) g.groups

instance decidableForallPortType (p : PortType → Prop) [DecidablePred p] :
    Decidable (∀ t : PortType, p t) :=
  decidable_of_iff (p PortType.Input ∧ p PortType.Output)
    ⟨fun h t => match t with | .Input => h.1 | .Output => h.2, fun h => ⟨h _, h _⟩⟩

instance decidableSideOK (pm : List (Port × Nat)) (pg : List (Nat × List Port))
    (gs : List (Nat × LogicGroup)) : Decidable (SideOK pm pg gs) := by
  unfold SideOK
  infer_instance

instance decidableIndexConsistent (g : WireGraph) : Decidable (IndexConsistent g) := by
  unfold IndexConsistent
  infer_instance

instance decidableCounterConsistent (g : WireGraph) : Decidable (CounterConsistent g) := by
  unfold CounterConsistent
  infer_instance

theorem sideOK_addPort {pm : List (Port × Nat)} {pg pg' : List (Nat × List Port)}
    {gs : List (Nat × LogicGroup)} {port : Port} {gid : Nat}
    (hok : SideOK pm pg gs) (hfresh : alistGet pm port = none)
    (hmod : alistModify pg gid (fun ps => ps ++ [port]) = some pg')
    (hlive : (alistGet gs gid).isSome = true) :
    SideOK (alistInsert pm port gid) pg' gs := by
  obtain ⟨hnd1, hnd2, h3, h4, h5⟩ := hok
  have hpgSome : (alistGet pg gid).isSome = true := by
    rw [← alistModify_isSome pg gid (fun ps => ps ++ [port]), hmod]
    rfl
  refine ⟨alistInsert_keys_nodup _ _ hnd1, ?_, ?_, ?_, ?_⟩
  · rw [alistModify_keys hmod]
    exact hnd2
  · intro e he
    rcases mem_alistInsert he with he2 | he2
    · have hne : e.1 ≠ port := by
        intro h
        have hs := alistGet_isSome_of_mem he2
        rw [h, hfresh] at hs
        cases hs
      obtain ⟨hs, hcnt⟩ := h3 e he2
      by_cases hgid : e.2 = gid
      · rw [hgid] at hs hcnt ⊢
        rw [alistGet_modify_self hmod]
        cases hpg : alistGet pg gid with
        | none => rw [hpg] at hs; cases hs
        | some l =>
          rw [hpg] at hcnt
          simp only [Option.map_some', Option.isSome_some, Option.getD_some, true_and]
          rw [List.count_append]
          simp only [Option.getD_some] at hcnt
          rw [hcnt]
          have hz : List.count e.1 [port] = 0 := by
            rw [List.count_eq_zero]
            simpa using hne
          rw [hz]
      · rw [alistGet_modify_ne hmod hgid]
        exact ⟨hs, hcnt⟩
    · rw [he2]
      simp only
      rw [alistGet_modify_self hmod]
      cases hpg : alistGet pg gid with
      | none => rw [hpg] at hpgSome; cases hpgSome
      | some l =>
        simp only [Option.map_some', Option.isSome_some, Option.getD_some, true_and]
        rw [List.count_append]
        have hz : List.count port l = 0 := by
          rw [List.count_eq_zero]
          intro hmem
          have := h4 (gid, l) (alistGet_some_mem hpg) port hmem
          rw [hfresh] at this
          cases this
        rw [hz]
        simp
  · intro e' he' p hp
    rcases mem_alistModify hmod he' with he2 | ⟨v, hv, he2⟩
    · have hback := h4 e' he2 p hp
      have hne : p ≠ port := by
        intro h
        rw [h, hfresh] at hback
        cases hback
      rw [alistGet_insert_ne _ _ _ _ hne]
      exact hback
    · rw [he2] at hp ⊢
      simp only at hp ⊢
      rcases List.mem_append.mp hp with hp2 | hp2
      · have hback := h4 (gid, v) hv p hp2
        have hne : p ≠ port := by
          intro h
          rw [h, hfresh] at hback
          cases hback
        rw [alistGet_insert_ne _ _ _ _ hne]
        exact hback
      · have hpe : p = port := by simpa using hp2
        rw [hpe]
        exact alistGet_insert_self _ _ _
  · intro e' he'
    rcases mem_alistModify hmod he' with he2 | ⟨v, hv, he2⟩
    · exact h5 e' he2
    · rw [he2]
      exact hlive

theorem sideOK_merge {pm : List (Port × Nat)} {pg pg3 : List (Nat × List Port)}
    {gs gs3 : List (Nat × LogicGroup)} {ids : List Nat} {newId : Nat} {gr : LogicGroup}
    (hok : SideOK pm pg gs)
    (hsub : List.Sublist pg3 pg)
    (hkeep : ∀ id, id ∉ ids → alistGet pg3 id = alistGet pg id)
    (hgone : ∀ id ∈ ids, alistGet pg3 id = none)
    (hgskeep : ∀ id, id ∉ ids → alistGet gs3 id = alistGet gs id)
    (hfreshPg : ∀ e ∈ pg, e.1 ≠ newId) :
    SideOK (pm.map (fun e => if e.2 ∈ ids then (e.1, newId) else e))
      (alistInsert pg3 newId ((pm.filter (fun e => e.2 ∈ ids)).map (fun e => e.1)))
      (alistInsert gs3 newId gr) := by
  obtain ⟨hnd1, hnd2, h3, h4, h5⟩ := hok
  have hnd3 : (pg3.map Prod.fst).Nodup := ((hsub.map Prod.fst).nodup) hnd2
  have hmemPg3 : ∀ e ∈ pg3, e ∈ pg ∧ e.1 ∉ ids ∧ e.1 ≠ newId := by
    intro e he
    have hepg := hsub.mem he
    refine ⟨hepg, ?_, hfreshPg e hepg⟩
    intro hin
    have hs := alistGet_isSome_of_mem he
    rw [hgone e.1 hin] at hs
    cases hs
  refine ⟨?_, ?_, ?_, ?_, ?_⟩
  · rw [mapIds_keys]
    exact hnd1
  · exact alistInsert_keys_nodup _ _ hnd3
  · intro e' he'
    rcases List.mem_map.mp he' with ⟨e, he, heq⟩
    by_cases hin : e.2 ∈ ids
    · have he2 : e' = (e.1, newId) := by
        rw [← heq]
        simp [hin]
      rw [he2]
      simp only
      rw [alistGet_insert_self]
      simp only [Option.isSome_some, Option.getD_some, true_and]
      exact count_collected ids hnd1 he hin
    · have he2 : e' = e := by
        rw [← heq]
        simp [hin]
      rw [he2]
      obtain ⟨hs, hcnt⟩ := h3 e he
      have hne : e.2 ≠ newId := by
        intro h
        cases hpg : alistGet pg e.2 with
        | none => rw [hpg] at hs; cases hs
        | some l => exact hfreshPg _ (alistGet_some_mem hpg) h
      rw [alistGet_insert_ne _ _ _ _ hne, hkeep e.2 hin]
      exact ⟨hs, hcnt⟩
  · intro e' he' p hp
    rcases mem_alistInsert_nodup hnd3 he' with ⟨he2, hne⟩ | he2
    · obtain ⟨hepg, hnotin, -⟩ := hmemPg3 e' he2
      have hback := h4 e' hepg p hp
      rw [alistGet_mapIds, hback]
      simp [hnotin]
    · rw [he2] at hp ⊢
      simp only at hp ⊢
      rcases List.mem_map.mp hp with ⟨e, he, heq⟩
      have hein := List.mem_filter.mp he
      have hin : e.2 ∈ ids := of_decide_eq_true hein.2
      have hget : alistGet pm e.1 = some e.2 := alistGet_of_mem_nodup hnd1 hein.1
      rw [← heq, alistGet_mapIds, hget]
      simp [hin]
  · intro e' he'
    rcases mem_alistInsert_nodup hnd3 he' with ⟨he2, hne⟩ | he2
    · obtain ⟨hepg, hnotin, hnenew⟩ := hmemPg3 e' he2
      rw [alistGet_insert_ne _ _ _ _ hnenew, hgskeep e'.1 hnotin]
      exact h5 e' hepg
    · rw [he2]
      simp only
      rw [alistGet_insert_self]
      rfl

theorem sideOK_removePortKeep {pm : List (Port × Nat)} {pg : List (Nat × List Port)}
    {gs : List (Nat × LogicGroup)} {port : Port} {gid : Nat} {groupPorts : List Port}
    (hok : SideOK pm pg gs) (hpm : alistGet pm port = some gid)
    (hpg : alistGet pg gid = some groupPorts) :
    SideOK (alistRemove pm port) (alistInsert pg gid (groupPorts.erase port)) gs := by
  obtain ⟨hnd1, hnd2, h3, h4, h5⟩ := hok
  have hcnt1 : groupPorts.count port = 1 := by
    have := (h3 (port, gid) (alistGet_some_mem hpm)).2
    rw [hpg] at this
    simpa using this
  have hnomem : port ∉ groupPorts.erase port := by
    intro h
    have := List.count_erase_self port groupPorts
    rw [hcnt1] at this
    simp only [Nat.sub_self] at this
    rw [← List.count_pos_iff] at h
    rw [this] at h
    cases h
  refine ⟨alistRemove_keys_nodup _ hnd1, alistInsert_keys_nodup _ _ hnd2, ?_, ?_, ?_⟩
  · intro e he
    have he2 := mem_alistRemove.mp he
    have hnep : e.1 ≠ port := he2.2
    obtain ⟨hs, hcnt⟩ := h3 e he2.1
    by_cases hgid : e.2 = gid
    · rw [hgid] at hcnt ⊢
      rw [alistGet_insert_self]
      simp only [Option.isSome_some, Option.getD_some, true_and]
      rw [List.count_erase_of_ne hnep]
      rw [hpg] at hcnt
      simpa using hcnt
    · rw [alistGet_insert_ne _ _ _ _ hgid]
      exact ⟨hs, hcnt⟩
  · intro e' he' p hp
    rcases mem_alistInsert_nodup hnd2 he' with ⟨he2, hne⟩ | he2
    · have hback := h4 e' he2 p hp
      have hnep : p ≠ port := by
        intro h
        rw [h, hpm] at hback
        have : gid = e'.1 := Option.some.inj hback
        exact hne this.symm
      rw [alistGet_remove_ne _ _ _ hnep]
      exact hback
    · rw [he2] at hp ⊢
      simp only at hp ⊢
      have hpg2 : p ∈ groupPorts := List.mem_of_mem_erase hp
      have hnep : p ≠ port := by
        intro h
        rw [h] at hp
        exact hnomem hp
      rw [alistGet_remove_ne _ _ _ hnep]
      exact h4 (gid, groupPorts) (alistGet_some_mem hpg) p hpg2
  · intro e' he'
    rcases mem_alistInsert_nodup hnd2 he' with ⟨he2, -⟩ | he2
    · exact h5 e' he2
    · rw [he2]
      simp only
      exact h5 (gid, groupPorts) (alistGet_some_mem hpg)

theorem sideOK_removePortSole {pm : List (Port × Nat)} {pg : List (Nat × List Port)}
    {gs : List (Nat × LogicGroup)} {port : Port} {gid : Nat}
    (hok : SideOK pm pg gs) (hpm : alistGet pm port = some gid)
    (hpg : alistGet pg gid = some [port]) :
    SideOK (alistRemove pm port) (alistRemove pg gid) (alistRemove gs gid) := by
  obtain ⟨hnd1, hnd2, h3, h4, h5⟩ := hok
  refine ⟨alistRemove_keys_nodup _ hnd1, alistRemove_keys_nodup _ hnd2, ?_, ?_, ?_⟩
  · intro e he
    have he2 := mem_alistRemove.mp he
    obtain ⟨hs, hcnt⟩ := h3 e he2.1
    have hgid : e.2 ≠ gid := by
      intro h
      rw [h, hpg] at hcnt
      simp only [Option.getD_some] at hcnt
      have hcp : e.1 = port := by
        by_contra hne
        have hz : List.count e.1 [port] = 0 := by
          rw [List.count_eq_zero]
          simpa using hne
        rw [hz] at hcnt
        exact absurd hcnt (by decide)
      exact he2.2 hcp
    rw [alistGet_remove_ne _ _ _ hgid]
    exact ⟨hs, hcnt⟩
  · intro e' he' p hp
    have he2 := mem_alistRemove.mp he'
    have hback := h4 e' he2.1 p hp
    have hnep : p ≠ port := by
      intro h
      rw [h, hpm] at hback
      exact he2.2 (Option.some.inj hback).symm
    rw [alistGet_remove_ne _ _ _ hnep]
    exact hback
  · intro e' he'
    have he2 := mem_alistRemove.mp he'
    rw [alistGet_remove_ne _ _ _ he2.2]
    exact h5 e' he2.1

theorem sideOK_removePortOther {pm : List (Port × Nat)} {pg : List (Nat × List Port)}
    {gs : List (Nat × LogicGroup)} {gid : Nat}
    (hok : SideOK pm pg gs) (hempty : (alistGet pg gid).getD [] = []) :
    SideOK pm (alistRemove pg gid) (alistRemove gs gid) := by
  obtain ⟨hnd1, hnd2, h3, h4, h5⟩ := hok
  refine ⟨hnd1, alistRemove_keys_nodup _ hnd2, ?_, ?_, ?_⟩
  · intro e he
    obtain ⟨hs, hcnt⟩ := h3 e he
    have hgid : e.2 ≠ gid := by
      intro h
      rw [h, hempty] at hcnt
      simp at hcnt
    rw [alistGet_remove_ne _ _ _ hgid]
    exact ⟨hs, hcnt⟩
  · intro e' he' p hp
    have he2 := mem_alistRemove.mp he'
    exact h4 e' he2.1 p hp
  · intro e' he'
    have he2 := mem_alistRemove.mp he'
    rw [alistGet_remove_ne _ _ _ he2.2]
    exact h5 e' he2.1

theorem removeGroup_portMap {g g1 : WireGraph} {id : Nat} {gr : LogicGroup}
    (h : g.removeGroup id = some (g1, gr)) (t : PortType) : g1.portMap t = g.portMap t := by
  obtain ⟨-, -, -, -, ho, hi, -⟩ := removeGroup_spec h
  cases t
  · exact hi
  · exact ho

theorem removeGroup_portsOfGroup {g g1 : WireGraph} {id : Nat} {gr : LogicGroup}
    (h : g.removeGroup id = some (g1, gr)) (t : PortType) :
    g1.portsOfGroup t = alistRemove (g.portsOfGroup t) id := by
  obtain ⟨-, ho, hi, -, -, -, -⟩ := removeGroup_spec h
  cases t
  · exact hi
  · exact ho

theorem indexConsistent_addPort {g : WireGraph} {c : Coord} {f : BlockFace} {gid : Nat}
    {t : PortType} (hInv : IndexConsistent g)
    (hfresh : alistGet (g.portMap t) ⟨c, f⟩ = none)
    (hlist : (alistGet (g.portsOfGroup t) gid).isSome = true)
    (hlive : (alistGet g.groups gid).isSome = true) :
    ∃ g', g.addPort c f gid t = some g' ∧ IndexConsistent g' := by
  cases hadd : g.addPort c f gid t with
  | none =>
    exfalso
    simp only [WireGraph.addPort] at hadd
    split at hadd
    · rename_i hm
      rw [portsOfGroup_setPortMap] at hm
      have := alistModify_isSome (g.portsOfGroup t) gid (fun ports => ports ++ [⟨c, f⟩])
      rw [hm, hlist] at this
      cases this
    · cases hadd
  | some g' =>
    refine ⟨g', rfl, ?_⟩
    obtain ⟨hgroups, -, hmod, hlists, hmap, hmaps⟩ := addPort_spec hadd
    intro t'
    by_cases ht : t' = t
    · subst ht
      rw [hmap, hgroups]
      exact sideOK_addPort (hInv t') hfresh hmod hlive
    · rw [hmaps t' ht, hlists t' ht, hgroups]
      exact hInv t'

theorem indexConsistent_merge {g g' : WireGraph} {ids : List Nat} {coords : Coord}
    (hInv : IndexConsistent g) (hcc : CounterConsistent g)
    (h : g.mergeAdjacentGroups ids coords = some g') : IndexConsistent g' := by
  simp only [WireGraph.mergeAdjacentGroups, WireGraph.newGroupId] at h
  split at h
  · cases h
  · rename_i sig hsig
    split at h
    · cases h
    · rename_i g3 hrem
      simp only [Option.some.injEq] at h
      obtain ⟨-, hkeep2, -, hpmO, hpmI, -, -⟩ := removeGroupsList_spec _ _ _ hrem
      obtain ⟨hgskeep, hgone, hsubO, hsubI⟩ := removeGroupsList_more _ _ _ hrem
      have hfreshO : ∀ e ∈ g.outputPortsOfGroup, e.1 ≠ g.nextGroupId := by
        intro e he hne
        have := hcc.2.1 e he
        omega
      have hfreshI : ∀ e ∈ g.inputPortsOfGroup, e.1 ≠ g.nextGroupId := by
        intro e he hne
        have := hcc.2.2 e he
        omega
      intro t
      cases t
      · have hpm : g'.portMap .Input = g.groupOfInputPort.map
            (fun e => if e.2 ∈ ids then (e.1, g.nextGroupId) else e) := by
          rw [← h]
          show g3.groupOfInputPort = _
          rw [hpmI]
        have hpg : g'.portsOfGroup .Input = alistInsert g3.inputPortsOfGroup g.nextGroupId
            ((g.groupOfInputPort.filter (fun e => e.2 ∈ ids)).map (fun e => e.1)) := by
          rw [← h]
          rfl
        have hgs : g'.groups = alistInsert g3.groups g.nextGroupId ⟨sig, some coords⟩ := by
          rw [← h]
          rfl
        rw [hpm, hpg, hgs]
        refine sideOK_merge (hInv .Input) hsubI ?_ ?_ ?_ hfreshI
        · intro id hid
          exact (hkeep2 id hid).2
        · intro id hid
          exact (hgone id hid).2
        · intro id hid
          exact hgskeep id hid
      · have hpm : g'.portMap .Output = g.groupOfOutputPort.map
            (fun e => if e.2 ∈ ids then (e.1, g.nextGroupId) else e) := by
          rw [← h]
          show g3.groupOfOutputPort = _
          rw [hpmO]
        have hpg : g'.portsOfGroup .Output = alistInsert g3.outputPortsOfGroup g.nextGroupId
            ((g.groupOfOutputPort.filter (fun e => e.2 ∈ ids)).map (fun e => e.1)) := by
          rw [← h]
          rfl
        have hgs : g'.groups = alistInsert g3.groups g.nextGroupId ⟨sig, some coords⟩ := by
          rw [← h]
          rfl
        rw [hpm, hpg, hgs]
        refine sideOK_merge (hInv .Output) hsubO ?_ ?_ ?_ hfreshO
        · intro id hid
          exact (hkeep2 id hid).1
        · intro id hid
          exact (hgone id hid).1
        · intro id hid
          exact hgskeep id hid

theorem indexConsistent_removePort {st : Struct} {reg : LogicRegistry} {fuel : Nat}
    {g g' : WireGraph} {coords : Coord} {face : BlockFace} {t : PortType}
    (hInv : IndexConsistent g)
    (h : removePort st reg fuel g coords face t = some g')
    (hcond : ∀ gid,
      alistGet (g.portMap t) ⟨coords, (st.rotAt coords).globalToLocal face⟩ = some gid →
      (∃ nbr v g2, st.step coords ((st.rotAt coords).globalToLocal face) = some nbr ∧
          findGroup st reg g fuel nbr ((st.rotAt coords).globalToLocal face).inverse
            (Port.allFor coords) = some (v, some g2)) ∨
        (alistGet (g.portsOfGroup t) gid =
            some [⟨coords, (st.rotAt coords).globalToLocal face⟩] ∧
          ∀ t2, t2 ≠ t → (alistGet (g.portsOfGroup t2) gid).getD [] = [])) :
    IndexConsistent g' := by
  cases hstep : st.step coords ((st.rotAt coords).globalToLocal face) with
  | none =>
    have hval : removePort st reg fuel g coords face t = some g := by
      simp only [removePort, hstep]
    rw [hval] at h
    rw [← Option.some.inj h]
    exact hInv
  | some neighborCoords =>
    cases hpm : alistGet (g.portMap t) ⟨coords, (st.rotAt coords).globalToLocal face⟩ with
    | none =>
      have hval : removePort st reg fuel g coords face t = some g := by
        simp only [removePort, hstep, hpm]
      rw [hval] at h
      rw [← Option.some.inj h]
      exact hInv
    | some gid =>
      cases hfg : findGroup st reg g fuel neighborCoords
          ((st.rotAt coords).globalToLocal face).inverse (Port.allFor coords) with
      | none =>
        have hval : removePort st reg fuel g coords face t = none := by
          simp only [removePort, hstep, hpm, hfg]
        rw [hval] at h
        cases h
      | some pr =>
        obtain ⟨v, maybeGroup⟩ := pr
        cases maybeGroup with
        | none =>
          rcases hcond gid hpm with ⟨nbr, v2, g2, hstep2, hfg2⟩ | ⟨hsole1, hsole2⟩
          · rw [hstep] at hstep2
            have hn : neighborCoords = nbr := Option.some.inj hstep2
            rw [← hn, hfg] at hfg2
            exact absurd hfg2 (by simp)
          · cases hrg : g.removeGroup gid with
            | none =>
              have hval : removePort st reg fuel g coords face t = none := by
                simp only [removePort, hstep, hpm, hfg, hrg]
              rw [hval] at h
              cases h
            | some pr2 =>
              obtain ⟨g1, gr⟩ := pr2
              have hval : removePort st reg fuel g coords face t = some (g1.setPortMap t
                  (alistRemove (g1.portMap t)
                    ⟨coords, (st.rotAt coords).globalToLocal face⟩)) := by
                simp only [removePort, hstep, hpm, hfg, hrg]
              rw [hval] at h
              have hg' := Option.some.inj h
              intro t'
              have hpgEq : g'.portsOfGroup t' = alistRemove (g.portsOfGroup t') gid := by
                rw [← hg', portsOfGroup_setPortMap, removeGroup_portsOfGroup hrg]
              have hgsEq : g'.groups = alistRemove g.groups gid := by
                rw [← hg', groups_setPortMap, (removeGroup_spec hrg).1]
              by_cases ht : t' = t
              · have hpmEq : g'.portMap t' = alistRemove (g.portMap t)
                    ⟨coords, (st.rotAt coords).globalToLocal face⟩ := by
                  rw [← hg', ht, portMap_setPortMap_self, removeGroup_portMap hrg]
                rw [hpmEq, hpgEq, hgsEq, ht]
                exact sideOK_removePortSole (hInv t) hpm hsole1
              · have hpmEq : g'.portMap t' = g.portMap t' := by
                  rw [← hg', portMap_setPortMap_ne _ _ _ _ ht, removeGroup_portMap hrg]
                rw [hpmEq, hpgEq, hgsEq]
                exact sideOK_removePortOther (hInv t') (hsole2 t' ht)
        | some foundGid =>
          cases hpg : alistGet (g.portsOfGroup t) gid with
          | none =>
            have hval : removePort st reg fuel g coords face t = none := by
              simp only [removePort, hstep, hpm, hfg, hpg]
            rw [hval] at h
            cases h
          | some groupPorts =>
            by_cases hmem :
                (⟨coords, (st.rotAt coords).globalToLocal face⟩ : Port) ∈ groupPorts
            · have hval : removePort st reg fuel g coords face t = some
                  ((g.setPortsOfGroup t (alistInsert (g.portsOfGroup t) gid
                      (groupPorts.erase
                        ⟨coords, (st.rotAt coords).globalToLocal face⟩))).setPortMap t
                    (alistRemove ((g.setPortsOfGroup t (alistInsert (g.portsOfGroup t) gid
                        (groupPorts.erase
                          ⟨coords, (st.rotAt coords).globalToLocal face⟩))).portMap t)
                      ⟨coords, (st.rotAt coords).globalToLocal face⟩)) := by
                simp only [removePort, hstep, hpm, hfg, hpg, hmem, if_true]
              rw [hval] at h
              have hg' := Option.some.inj h
              intro t'
              have hgsEq : g'.groups = g.groups := by
                rw [← hg', groups_setPortMap, groups_setPortsOfGroup]
              by_cases ht : t' = t
              · have hpmEq : g'.portMap t' = alistRemove (g.portMap t)
                    ⟨coords, (st.rotAt coords).globalToLocal face⟩ := by
                  rw [← hg', ht, portMap_setPortMap_self, portMap_setPortsOfGroup]
                have hpgEq : g'.portsOfGroup t' = alistInsert (g.portsOfGroup t) gid
                    (groupPorts.erase ⟨coords, (st.rotAt coords).globalToLocal face⟩) := by
                  rw [← hg', ht, portsOfGroup_setPortMap, portsOfGroup_setPortsOfGroup_self]
                rw [hpmEq, hpgEq, hgsEq]
                exact sideOK_removePortKeep (hInv t) hpm hpg
              · have hpmEq : g'.portMap t' = g.portMap t' := by
                  rw [← hg', portMap_setPortMap_ne _ _ _ _ ht, portMap_setPortsOfGroup]
                have hpgEq : g'.portsOfGroup t' = g.portsOfGroup t' := by
                  rw [← hg', portsOfGroup_setPortMap,
                    portsOfGroup_setPortsOfGroup_ne _ _ _ _ ht]
                rw [hpmEq, hpgEq, hgsEq]
                exact hInv t'
            · have hval : removePort st reg fuel g coords face t = none := by
                simp only [removePort, hstep, hpm, hfg, hpg, hmem, if_false]
              rw [hval] at h
              cases h

/-- Two one-output-port groups, ready to be merged. -/
def c10MergeG : WireGraph :=
  { nextGroupId := 2
    groups := [(0, ⟨false, none⟩), (1, ⟨true, none⟩)]
    groupOfOutputPort := [(p00R, 0), (⟨⟨1, 0, 0⟩, .Left⟩, 1)]
    groupOfInputPort := []
    outputPortsOfGroup := [(0, [p00R]), (1, [⟨⟨1, 0, 0⟩, .Left⟩])]
    inputPortsOfGroup := [(0, []), (1, [])] }

/-- C10, amended: bidirectional index consistency — for each port type, the
port-to-group map and group-to-ports lists have unique keys, a mapped port
occurs exactly once in its group's port list, every listed port is mapped back
to its group, and every group id keying a port list is live — is preserved by
`add_port` for a port absent from the map targeting a live group with a port
list, by `merge_adjacent_groups` when all indexed ids are below the id counter,
and by `remove_port` when its neighbor search finds a group or the removed
port is its group's sole port in both lists; it is not an invariant of
arbitrary operation sequences: re-adding an already-present output block
breaks it. -/
theorem c10_amended :
    (∀ (g : WireGraph) (c : Coord) (f : BlockFace) (gid : Nat) (t : PortType),
      IndexConsistent g →
      alistGet (g.portMap t) ⟨c, f⟩ = none →
      (alistGet (g.portsOfGroup t) gid).isSome = true →
      (alistGet g.groups gid).isSome = true →
      ∃ g', g.addPort c f gid t = some g' ∧ IndexConsistent g') ∧
    (∀ (g g' : WireGraph) (ids : List Nat) (coords : Coord),
      IndexConsistent g → CounterConsistent g →
      g.mergeAdjacentGroups ids coords = some g' → IndexConsistent g') ∧
    (∀ (st : Struct) (reg : LogicRegistry) (fuel : Nat) (g g' : WireGraph)
      (coords : Coord) (face : BlockFace) (t : PortType),
      IndexConsistent g →
      removePort st reg fuel g coords face t = some g' →
      (∀ gid,
        alistGet (g.portMap t) ⟨coords, (st.rotAt coords).globalToLocal face⟩ = some gid →
        (∃ nbr v g2, st.step coords ((st.rotAt coords).globalToLocal face) = some nbr ∧
            findGroup st reg g fuel nbr ((st.rotAt coords).globalToLocal face).inverse
              (Port.allFor coords) = some (v, some g2)) ∨
          (alistGet (g.portsOfGroup t) gid =
              some [⟨coords, (st.rotAt coords).globalToLocal face⟩] ∧
            ∀ t2, t2 ≠ t → (alistGet (g.portsOfGroup t2) gid).getD [] = [])) →
      IndexConsistent g') ∧
    (doubleAddFinal = some doubleAddExpected ∧ ¬ IndexConsistent doubleAddExpected) := by
  refine ⟨?_, ?_, ?_, ?_, ?_⟩
  · intro g c f gid t h1 h2 h3 h4
    exact indexConsistent_addPort h1 h2 h3 h4
  · intro g g' ids coords h1 h2 h3
    exact indexConsistent_merge h1 h2 h3
  · intro st reg fuel g g' coords face t h1 h2 h3
    exact indexConsistent_removePort h1 h2 h3
  · decide
  · decide

/-- C10, witness: the preservation clauses applied to concrete graphs — a
fresh port added to the one-group graph, the two-group merge, and the
sole-port removal. -/
theorem c10_witness :
    (∃ g', staleG.addPort ⟨1, 0, 0⟩ .Left 0 .Output = some g' ∧ IndexConsistent g') ∧
      IndexConsistent ((c10MergeG.mergeAdjacentGroups [0, 1] ⟨0, 0, 0⟩).getD
        WireGraph.empty) ∧
      IndexConsistent ((removePort dblSt testReg 32 staleG ⟨0, 0, 0⟩ .Right .Output).getD
        WireGraph.empty) := by
  refine ⟨?_, ?_, ?_⟩
  · exact c10_amended.1 staleG ⟨1, 0, 0⟩ .Left 0 .Output (by decide) (by decide) (by decide)
      (by decide)
  · exact c10_amended.2.1 c10MergeG
      ((c10MergeG.mergeAdjacentGroups [0, 1] ⟨0, 0, 0⟩).getD WireGraph.empty)
      [0, 1] ⟨0, 0, 0⟩ (by decide) (by decide) (by decide)
  · refine c10_amended.2.2.1 dblSt testReg 32 staleG
      ((removePort dblSt testReg 32 staleG ⟨0, 0, 0⟩ .Right .Output).getD WireGraph.empty)
      ⟨0, 0, 0⟩ .Right .Output (by decide) (by decide) ?_
    intro gid hgid
    have h1 : alistGet (staleG.portMap .Output)
        ⟨⟨0, 0, 0⟩, (dblSt.rotAt ⟨0, 0, 0⟩).globalToLocal .Right⟩ = some 0 := by decide
    rw [h1] at hgid
    have hg : gid = 0 := (Option.some.inj hgid).symm
    rw [hg]
    exact Or.inr (by decide)

/-- Two graphs that `find_group` cannot tell apart when every port of cell
`c0` is already visited: the port maps agree away from `c0` and the
representative-coordinate lookups agree. -/
def StEq (c0 : Coord) (a b : WireGraph) : Prop :=
  (∀ t (p : Port), p.coords ≠ c0 → alistGet (a.portMap t) p = alistGet (b.portMap t) p) ∧
    (∀ co, List.find? (fun e => e.2.recentWireCoords = some co) a.groups =
      List.find? (fun e => e.2.recentWireCoords = some co) b.groups)

theorem stEq_refl (c0 : Coord) (a : WireGraph) : StEq c0 a a :=
  ⟨fun _ _ _ => rfl, fun _ => rfl⟩

theorem stEq_trans {c0 : Coord} {a b c : WireGraph} (h1 : StEq c0 a b) (h2 : StEq c0 b c) :
    StEq c0 a c :=
  ⟨fun t p hp => (h1.1 t p hp).trans (h2.1 t p hp), fun co => (h1.2 co).trans (h2.2 co)⟩

theorem mem_vinsert_of_mem {p q : Port} {v : List Port} (h : q ∈ v) : q ∈ vinsert p v := by
  unfold vinsert
  split
  · exact h
  · exact List.mem_cons_of_mem _ h

theorem findGroupLoop_stEq {st : Struct} {c0 : Coord} {cur : Coord}
    {r1 r2 : Coord → BlockFace → List Port → Option (List Port × Option Nat)}
    (hrec : ∀ c' f' v, (∀ f0, Port.mk c0 f0 ∈ v) → c' ≠ c0 → r1 c' f' v = r2 c' f' v)
    (hmono : ∀ c' f' v v2 r, r2 c' f' v = some (v2, r) → v ⊆ v2) :
    ∀ (faces : List BlockFace) (v : List Port), (∀ f0, Port.mk c0 f0 ∈ v) →
      findGroupLoop st cur r1 faces v = findGroupLoop st cur r2 faces v := by
  intro faces
  induction faces with
  | nil => intro v hv; rfl
  | cons face rest ih =>
    intro v hv
    simp only [findGroupLoop]
    have hv1 : ∀ f0, Port.mk c0 f0 ∈
        vinsert ⟨cur, (st.rotAt cur).globalToLocal face⟩ v :=
      fun f0 => mem_vinsert_of_mem (hv f0)
    cases hstep : st.step cur ((st.rotAt cur).globalToLocal face) with
    | none => exact ih _ hv1
    | some nbr =>
      simp only
      split
      · exact ih _ hv1
      · rename_i hguard
        have hnbr : nbr ≠ c0 := by
          intro hc
          exact hguard (hc ▸ hv1 ((st.rotAt cur).globalToLocal face).inverse)
        rw [hrec nbr _ _ hv1 hnbr]
        cases hr2 : r2 nbr ((st.rotAt cur).globalToLocal face).inverse
            (vinsert ⟨cur, (st.rotAt cur).globalToLocal face⟩ v) with
        | none => rfl
        | some pr =>
          obtain ⟨v2, res⟩ := pr
          cases res with
          | some gid => rfl
          | none =>
            have hv2 : ∀ f0, Port.mk c0 f0 ∈ v2 :=
              fun f0 => hmono _ _ _ _ _ hr2 (hv1 f0)
            exact ih _ hv2

theorem findGroup_stEq {st : Struct} {reg : LogicRegistry} {c0 : Coord} {a b : WireGraph}
    (hst : StEq c0 a b) :
    ∀ (fuel : Nat) (cur : Coord) (enc : BlockFace) (v : List Port),
      (∀ f0, Port.mk c0 f0 ∈ v) → cur ≠ c0 →
      findGroup st reg a fuel cur enc v = findGroup st reg b fuel cur enc v := by
  intro fuel
  induction fuel with
  | zero => intro cur enc v _ _; rfl
  | succ n ih =>
    intro cur enc v hv hcur
    simp only [findGroup]
    cases hlb : logicBlockAt st reg cur with
    | none => rfl
    | some lb =>
      simp only
      cases hcn : lb.connectionOn ((st.rotAt cur).localToGlobal enc) with
      | none => rfl
      | some conn =>
        cases conn with
        | Wire =>
          simp only
          rw [hst.2 cur]
          cases hhint : List.find? (fun e => e.2.recentWireCoords = some cur) b.groups with
          | some e => rfl
          | none =>
            simp only
            have hv1 : ∀ f0, Port.mk c0 f0 ∈ vinsert ⟨cur, enc⟩ v :=
              fun f0 => mem_vinsert_of_mem (hv f0)
            exact findGroupLoop_stEq (fun c' f' v' hv' hc' => ih c' f' v' hv' hc')
              (fun c' f' v' v2 r hr => findGroup_mono n hr) lb.wireFaces _ hv1
        | Port pt =>
          cases pt with
          | Input =>
            have := hst.1 .Input ⟨cur, enc⟩ hcur
            simp only
            rw [show alistGet a.groupOfInputPort ⟨cur, enc⟩ =
              alistGet b.groupOfInputPort ⟨cur, enc⟩ from this]
          | Output =>
            have := hst.1 .Output ⟨cur, enc⟩ hcur
            simp only
            rw [show alistGet a.groupOfOutputPort ⟨cur, enc⟩ =
              alistGet b.groupOfOutputPort ⟨cur, enc⟩ from this]

theorem alistRemove_insert_self {K V : Type} [DecidableEq K] (l : List (K × V)) (k : K)
    (v : V) : alistRemove (alistInsert l k v) k = alistRemove l k := by
  induction l with
  | nil => simp [alistInsert, alistRemove]
  | cons e t ih =>
    by_cases he : e.1 = k
    · simp [alistInsert, alistRemove, he, ih]
    · simp [alistInsert, alistRemove, he, ih]

theorem alistRemove_of_freshkey {K V : Type} [DecidableEq K] {l : List (K × V)} {k : K}
    (h : ∀ e ∈ l, e.1 ≠ k) : alistRemove l k = l := by
  induction l with
  | nil => rfl
  | cons e t ih =>
    have he : ¬ e.1 = k := h e (List.mem_cons_self _ _)
    simp only [alistRemove, he, if_false]
    rw [ih (fun e2 he2 => h e2 (List.mem_cons_of_mem _ he2))]

theorem alistRemove_insert_comm {K V : Type} [DecidableEq K] (l : List (K × V)) {k k' : K}
    (v : V) (hne : k ≠ k') : alistRemove (alistInsert l k' v) k =
      alistInsert (alistRemove l k) k' v := by
  induction l with
  | nil => simp [alistInsert, alistRemove, Ne.symm hne]
  | cons e t ih =>
    by_cases he' : e.1 = k'
    · have hek : ¬ e.1 = k := by rw [he']; exact Ne.symm hne
      simp [alistInsert, alistRemove, he', hek, Ne.symm hne]
    · by_cases hek : e.1 = k
      · simp [alistInsert, alistRemove, he', hek, ih, hne]
      · simp [alistInsert, alistRemove, he', hek, ih]

theorem alistRemove_modify {K V : Type} [DecidableEq K] {l l' : List (K × V)} {k : K}
    {f : V → V} (h : alistModify l k f = some l') : alistRemove l' k = alistRemove l k := by
  induction l generalizing l' with
  | nil => simp [alistModify] at h
  | cons e t ih =>
    by_cases he : e.1 = k
    · simp only [alistModify, he, if_true, Option.some.injEq] at h
      subst h
      simp [alistRemove, he]
    · simp only [alistModify, he, if_false] at h
      cases hm : alistModify t k f with
      | none => rw [hm] at h; simp at h
      | some t2 =>
        rw [hm] at h
        simp only [Option.map_some', Option.some.injEq] at h
        subst h
        simp [alistRemove, he, ih hm]

theorem alistModify_insert_comm {K V : Type} [DecidableEq K] {l l' : List (K × V)} {k k' : K}
    {f : V → V} (v : V) (hne : k ≠ k') (h : alistModify l k f = some l') :
    alistModify (alistInsert l k' v) k f = some (alistInsert l' k' v) := by
  induction l generalizing l' with
  | nil => simp [alistModify] at h
  | cons e t ih =>
    by_cases he' : e.1 = k'
    · have hek : ¬ e.1 = k := by rw [he']; exact Ne.symm hne
      simp only [alistModify, hek, if_false] at h
      cases hm : alistModify t k f with
      | none => rw [hm] at h; simp at h
      | some t2 =>
        rw [hm] at h
        simp only [Option.map_some', Option.some.injEq] at h
        subst h
        simp [alistInsert, alistModify, he', Ne.symm hne, hm]
    · by_cases hek : e.1 = k
      · simp only [alistModify, hek, if_true, Option.some.injEq] at h
        subst h
        have hkk' : ¬ (k : K) = k' := hne
        simp [alistInsert, alistModify, he', hek, hkk']
      · simp only [alistModify, hek, if_false] at h
        cases hm : alistModify t k f with
        | none => rw [hm] at h; simp at h
        | some t2 =>
          rw [hm] at h
          simp only [Option.map_some', Option.some.injEq] at h
          subst h
          simp [alistInsert, alistModify, he', hek, ih hm]

theorem alistModify_remove_comm {K V : Type} [DecidableEq K] {l l' : List (K × V)} {k k' : K}
    {f : V → V} (hne : k ≠ k') (h : alistModify l k f = some l') :
    alistModify (alistRemove l k') k f = some (alistRemove l' k') := by
  induction l generalizing l' with
  | nil => simp [alistModify] at h
  | cons e t ih =>
    by_cases he' : e.1 = k'
    · have hek : ¬ e.1 = k := by rw [he']; exact Ne.symm hne
      simp only [alistModify, hek, if_false] at h
      cases hm : alistModify t k f with
      | none => rw [hm] at h; simp at h
      | some t2 =>
        rw [hm] at h
        simp only [Option.map_some', Option.some.injEq] at h
        subst h
        simp [alistRemove, alistModify, he', hek, ih hm]
    · by_cases hek : e.1 = k
      · simp only [alistModify, hek, if_true, Option.some.injEq] at h
        subst h
        simp [alistRemove, alistModify, he', hek, hne]
      · simp only [alistModify, hek, if_false] at h
        cases hm : alistModify t k f with
        | none => rw [hm] at h; simp at h
        | some t2 =>
          rw [hm] at h
          simp only [Option.map_some', Option.some.injEq] at h
          subst h
          simp [alistRemove, alistModify, he', hek, ih hm]

theorem alistModify_modify {K V : Type} [DecidableEq K] {l l1 : List (K × V)} {k : K}
    {f : V → V} (g : V → V) (h : alistModify l k f = some l1) :
    alistModify l1 k g = alistModify l k (fun v => g (f v)) := by
  induction l generalizing l1 with
  | nil => simp [alistModify] at h
  | cons e t ih =>
    by_cases he : e.1 = k
    · simp only [alistModify, he, if_true, Option.some.injEq] at h
      subst h
      simp [alistModify, he]
    · simp only [alistModify, he, if_false] at h
      cases hm : alistModify t k f with
      | none => rw [hm] at h; simp at h
      | some t2 =>
        rw [hm] at h
        simp only [Option.map_some', Option.some.injEq] at h
        subst h
        simp [alistModify, he, ih hm]

theorem alistModify_congr {K V : Type} [DecidableEq K] {l : List (K × V)} {k : K} {v : V}
    {f g : V → V} (hget : alistGet l k = some v) (hfg : f v = g v) :
    alistModify l k f = alistModify l k g := by
  induction l with
  | nil => rfl
  | cons e t ih =>
    by_cases he : e.1 = k
    · rw [alistGet_cons, if_pos he] at hget
      have hv : e.2 = v := Option.some.inj hget
      simp [alistModify, he, hv, hfg]
    · rw [alistGet_cons, if_neg he] at hget
      simp [alistModify, he, ih hget]

theorem alistModify_eq_insert {K V : Type} [DecidableEq K] {l : List (K × V)} {k : K} {v : V}
    (f : V → V) (hget : alistGet l k = some v) :
    alistModify l k f = some (alistInsert l k (f v)) := by
  induction l with
  | nil => simp [alistGet] at hget
  | cons e t ih =>
    by_cases he : e.1 = k
    · rw [alistGet_cons, if_pos he] at hget
      have hv : e.2 = v := Option.some.inj hget
      simp [alistModify, alistInsert, he, hv]
    · rw [alistGet_cons, if_neg he] at hget
      simp [alistModify, alistInsert, he, ih hget]

theorem alistGet_isSome_congr_keys {K V W : Type} [DecidableEq K] {l : List (K × V)}
    {l' : List (K × W)} (hk : l.map Prod.fst = l'.map Prod.fst) (k : K) :
    (alistGet l k).isSome = (alistGet l' k).isSome := by
  induction l generalizing l' with
  | nil =>
    cases l' with
    | nil => rfl
    | cons e t => simp at hk
  | cons e t ih =>
    cases l' with
    | nil => simp at hk
    | cons e' t' =>
      simp only [List.map_cons, List.cons.injEq] at hk
      by_cases he : e.1 = k
      · have he' : e'.1 = k := hk.1 ▸ he
        simp [alistGet_cons, he, he']
      · have he' : ¬ e'.1 = k := hk.1 ▸ he
        simp only [alistGet_cons, if_neg he, if_neg he']
        exact ih hk.2

theorem alistInsert_fresh {K V : Type} [DecidableEq K] {l : List (K × V)} {k : K} (v : V)
    (h : ∀ e ∈ l, e.1 ≠ k) : alistInsert l k v = l ++ [(k, v)] := by
  induction l with
  | nil => rfl
  | cons e t ih =>
    have he : ¬ e.1 = k := h e (List.mem_cons_self _ _)
    simp only [alistInsert, he, if_false, List.cons_append, List.cons.injEq, true_and]
    exact ih (fun e2 he2 => h e2 (List.mem_cons_of_mem _ he2))

theorem find?_append_eq {α : Type} (p : α → Bool) (l1 l2 : List α) :
    List.find? p (l1 ++ l2) =
      match List.find? p l1 with
      | some e => some e
      | none => List.find? p l2 := by
  induction l1 with
  | nil => simp
  | cons e t ih =>
    by_cases hp : p e
    · simp [List.find?_cons, hp]
    · simp only [List.cons_append, List.find?_cons, hp]
      simpa [hp] using ih

theorem keys_bound {K V W : Type} {l : List (K × V)} {l' : List (K × W)} {n : Nat}
    (f : K → Nat) (hk : l'.map Prod.fst = l.map Prod.fst)
    (h : ∀ e ∈ l, f e.1 < n) : ∀ e ∈ l', f e.1 < n := by
  intro e he
  have : e.1 ∈ l'.map Prod.fst := List.mem_map_of_mem Prod.fst he
  rw [hk] at this
  rcases List.mem_map.mp this with ⟨e2, he2, hfst⟩
  rw [← hfst]
  exact h e2 he2

theorem step_ne {st : Struct} {c n : Coord} {f : BlockFace} (h : st.step c f = some n) :
    n ≠ c := by
  intro hn
  subst hn
  cases f with
  | Right =>
    simp only [Struct.step] at h
    split at h
    · have hx : n.x + 1 = n.x := congrArg Coord.x (Option.some.inj h)
      omega
    · cases h
  | Left =>
    simp only [Struct.step] at h
    split at h
    · rename_i hb
      have hx : n.x - 1 = n.x := congrArg Coord.x (Option.some.inj h)
      omega
    · cases h
  | Top =>
    simp only [Struct.step] at h
    split at h
    · have hy : n.y + 1 = n.y := congrArg Coord.y (Option.some.inj h)
      omega
    · cases h
  | Bottom =>
    simp only [Struct.step] at h
    split at h
    · rename_i hb
      have hy : n.y - 1 = n.y := congrArg Coord.y (Option.some.inj h)
      omega
    · cases h
  | Front =>
    simp only [Struct.step] at h
    split at h
    · have hz : n.z + 1 = n.z := congrArg Coord.z (Option.some.inj h)
      omega
    · cases h
  | Back =>
    simp only [Struct.step] at h
    split at h
    · rename_i hb
      have hz : n.z - 1 = n.z := congrArg Coord.z (Option.some.inj h)
      omega
    · cases h

theorem mem_allFor (c : Coord) (f0 : BlockFace) : Port.mk c f0 ∈ Port.allFor c := by
  cases f0 <;> simp [Port.allFor, allBlockFaces]

theorem wireGraph_eq {a b : WireGraph} (h1 : a.nextGroupId = b.nextGroupId)
    (h2 : a.groups = b.groups) (h3 : a.groupOfOutputPort = b.groupOfOutputPort)
    (h4 : a.groupOfInputPort = b.groupOfInputPort)
    (h5 : a.outputPortsOfGroup = b.outputPortsOfGroup)
    (h6 : a.inputPortsOfGroup = b.inputPortsOfGroup) : a = b := by
  cases a
  cases b
  simp_all

theorem findGroupLoop_range {st : Struct} {cur : Coord} {P : Nat → Prop}
    {r : Coord → BlockFace → List Port → Option (List Port × Option Nat)}
    (hr : ∀ c' f' v v2 gid, r c' f' v = some (v2, some gid) → P gid) :
    ∀ (faces : List BlockFace) (v v2 : List Port) (gid : Nat),
      findGroupLoop st cur r faces v = some (v2, some gid) → P gid := by
  intro faces
  induction faces with
  | nil =>
    intro v v2 gid h
    simp only [findGroupLoop, Option.some.injEq, Prod.mk.injEq] at h
    cases h.2
  | cons face rest ih =>
    intro v v2 gid h
    simp only [findGroupLoop] at h
    cases hstep : st.step cur ((st.rotAt cur).globalToLocal face) with
    | none =>
      rw [hstep] at h
      exact ih _ _ _ h
    | some nbr =>
      rw [hstep] at h
      simp only at h
      split at h
      · exact ih _ _ _ h
      · cases hr2 : r nbr ((st.rotAt cur).globalToLocal face).inverse
            (vinsert ⟨cur, (st.rotAt cur).globalToLocal face⟩ v) with
        | none => rw [hr2] at h; cases h
        | some pr =>
          obtain ⟨v3, res⟩ := pr
          rw [hr2] at h
          cases res with
          | some gid2 =>
            simp only [Option.some.injEq, Prod.mk.injEq] at h
            exact h.2 ▸ hr _ _ _ _ _ hr2
          | none => exact ih _ _ _ h

theorem findGroup_range {st : Struct} {reg : LogicRegistry} {s : WireGraph} :
    ∀ (fuel : Nat) (cur : Coord) (enc : BlockFace) (v v' : List Port) (gid : Nat),
      findGroup st reg s fuel cur enc v = some (v', some gid) →
      (∃ t p, alistGet (s.portMap t) p = some gid) ∨ ∃ e ∈ s.groups, e.1 = gid := by
  intro fuel
  induction fuel with
  | zero => intro cur enc v v' gid h; cases h
  | succ n ih =>
    intro cur enc v v' gid h
    simp only [findGroup] at h
    cases hlb : logicBlockAt st reg cur with
    | none =>
      rw [hlb] at h
      simp only [Option.some.injEq, Prod.mk.injEq] at h
      cases h.2
    | some lb =>
      rw [hlb] at h
      simp only at h
      cases hcn : lb.connectionOn ((st.rotAt cur).localToGlobal enc) with
      | none =>
        rw [hcn] at h
        simp only [Option.some.injEq, Prod.mk.injEq] at h
        cases h.2
      | some conn =>
        rw [hcn] at h
        cases conn with
        | Wire =>
          simp only at h
          cases hhint : List.find? (fun e => e.2.recentWireCoords = some cur) s.groups with
          | some e =>
            rw [hhint] at h
            simp only [Option.some.injEq, Prod.mk.injEq] at h
            exact Or.inr ⟨e, List.mem_of_find?_eq_some hhint, h.2⟩
          | none =>
            rw [hhint] at h
            exact findGroupLoop_range (fun c' f' v0 v2 gid0 hr => ih c' f' v0 v2 gid0 hr)
              lb.wireFaces _ _ _ h
        | Port pt =>
          cases pt with
          | Input =>
            simp only [Option.some.injEq, Prod.mk.injEq] at h
            exact Or.inl ⟨.Input, ⟨cur, enc⟩, h.2⟩
          | Output =>
            simp only [Option.some.injEq, Prod.mk.injEq] at h
            exact Or.inl ⟨.Output, ⟨cur, enc⟩, h.2⟩

/-- The add-phase of the port faces of one block, over an explicit list of
(global face, port type) pairs — `add_logic_block`'s two `neighbor_port`
loops flattened into one. -/
def addFaces (st : Struct) (reg : LogicRegistry) (fuel : Nat) (coords : Coord) :
    List (BlockFace × PortType) → WireGraph → Option WireGraph
  | [], g => some g
  | ft :: fs, g =>
    match neighborPort st reg fuel g coords ft.1 ft.2 with
    | none => none
    | some g1 => addFaces st reg fuel coords fs g1

/-- The remove-phase counterpart: `remove_logic_block`'s two `remove_port`
loops flattened into one. -/
def removeFaces (st : Struct) (reg : LogicRegistry) (fuel : Nat) (coords : Coord) :
    List (BlockFace × PortType) → WireGraph → Option WireGraph
  | [], g => some g
  | ft :: fs, g =>
    match removePort st reg fuel g coords ft.1 ft.2 with
    | none => none
    | some g1 => removeFaces st reg fuel coords fs g1

theorem addFaces_map (st : Struct) (reg : LogicRegistry) (fuel : Nat) (coords : Coord)
    (t : PortType) : ∀ (l : List BlockFace) (g : WireGraph),
    addFaces st reg fuel coords (l.map (fun f => (f, t))) g =
      neighborPortsLoop st reg fuel coords t l g := by
  intro l
  induction l with
  | nil => intro g; rfl
  | cons f rest ih =>
    intro g
    simp only [List.map_cons, addFaces, neighborPortsLoop]
    cases neighborPort st reg fuel g coords f t with
    | none => rfl
    | some g1 => exact ih g1

theorem removeFaces_map (st : Struct) (reg : LogicRegistry) (fuel : Nat) (coords : Coord)
    (t : PortType) : ∀ (l : List BlockFace) (g : WireGraph),
    removeFaces st reg fuel coords (l.map (fun f => (f, t))) g =
      removePortsLoop st reg fuel coords t l g := by
  intro l
  induction l with
  | nil => intro g; rfl
  | cons f rest ih =>
    intro g
    simp only [List.map_cons, removeFaces, removePortsLoop]
    cases removePort st reg fuel g coords f t with
    | none => rfl
    | some g1 => exact ih g1

theorem addFaces_append (st : Struct) (reg : LogicRegistry) (fuel : Nat) (coords : Coord) :
    ∀ (fs1 fs2 : List (BlockFace × PortType)) (g : WireGraph),
    addFaces st reg fuel coords (fs1 ++ fs2) g =
      match addFaces st reg fuel coords fs1 g with
      | none => none
      | some g1 => addFaces st reg fuel coords fs2 g1 := by
  intro fs1
  induction fs1 with
  | nil => intro fs2 g; rfl
  | cons ft rest ih =>
    intro fs2 g
    simp only [List.cons_append, addFaces]
    cases neighborPort st reg fuel g coords ft.1 ft.2 with
    | none => rfl
    | some g1 => exact ih fs2 g1

theorem removeFaces_append (st : Struct) (reg : LogicRegistry) (fuel : Nat) (coords : Coord) :
    ∀ (fs1 fs2 : List (BlockFace × PortType)) (g : WireGraph),
    removeFaces st reg fuel coords (fs1 ++ fs2) g =
      match removeFaces st reg fuel coords fs1 g with
      | none => none
      | some g1 => removeFaces st reg fuel coords fs2 g1 := by
  intro fs1
  induction fs1 with
  | nil => intro fs2 g; rfl
  | cons ft rest ih =>
    intro fs2 g
    simp only [List.cons_append, removeFaces]
    cases removePort st reg fuel g coords ft.1 ft.2 with
    | none => rfl
    | some g1 => exact ih fs2 g1

theorem neighborPort_cc_stEq {st : Struct} {reg : LogicRegistry} {fuel : Nat}
    {g g1 : WireGraph} {c : Coord} {face : BlockFace} {t : PortType}
    (hcc : CounterConsistent g)
    (h : neighborPort st reg fuel g c face t = some g1) :
    CounterConsistent g1 ∧ StEq c g g1 ∧ g.nextGroupId ≤ g1.nextGroupId := by
  simp only [neighborPort] at h
  cases hstep : st.step c ((st.rotAt c).globalToLocal face) with
  | none =>
    rw [hstep] at h
    simp only [Option.some.injEq] at h
    rw [← h]
    exact ⟨hcc, stEq_refl _ _, Nat.le_refl _⟩
  | some nbr =>
    rw [hstep] at h
    simp only at h
    cases hfg : findGroup st reg g fuel nbr
        ((st.rotAt c).globalToLocal face).inverse (Port.allFor c) with
    | none => rw [hfg] at h; cases h
    | some pr =>
      rw [hfg] at h
      obtain ⟨v, res⟩ := pr
      cases res with
      | some gid =>
        simp only at h
        obtain ⟨hgroups, hnext, hmod, hlists, hmap, hmaps⟩ := addPort_spec h
        refine ⟨⟨?_, ?_, ?_⟩, ⟨?_, ?_⟩, ?_⟩
        · rw [hgroups, hnext]
          exact hcc.1
        · rw [hnext]
          have hkeys : g1.outputPortsOfGroup.map Prod.fst =
              g.outputPortsOfGroup.map Prod.fst := by
            cases t
            · exact congrArg (List.map Prod.fst) (hlists .Output (by simp))
            · exact alistModify_keys hmod
          exact keys_bound (fun k => k) hkeys hcc.2.1
        · rw [hnext]
          have hkeys : g1.inputPortsOfGroup.map Prod.fst =
              g.inputPortsOfGroup.map Prod.fst := by
            cases t
            · exact alistModify_keys hmod
            · exact congrArg (List.map Prod.fst) (hlists .Input (by simp))
          exact keys_bound (fun k => k) hkeys hcc.2.2
        · intro t2 p hp
          by_cases ht : t2 = t
          · subst ht
            rw [hmap]
            have hne : p ≠ ⟨c, (st.rotAt c).globalToLocal face⟩ := by
              intro hpe
              rw [hpe] at hp
              exact hp rfl
            rw [alistGet_insert_ne _ _ _ _ hne]
          · rw [hmaps t2 ht]
        · intro co
          rw [hgroups]
        · rw [hnext]
      | none =>
        simp only at h
        have hmapNew : ((g.newGroup false none).1).portMap t = g.portMap t :=
          newGroup_portMap g false none t
        obtain ⟨hgroups, hnext, hmod, hlists, hmap, hmaps⟩ := addPort_spec h
        have hg1groups : g1.groups = alistInsert g.groups g.nextGroupId ⟨false, none⟩ := by
          rw [hgroups, newGroup_groups]
        have hg1next : g1.nextGroupId = g.nextGroupId + 1 := by
          rw [hnext, newGroup_nextGroupId]
        have hfreshg : ∀ e ∈ g.groups, e.1 ≠ g.nextGroupId := by
          intro e he hne
          have := hcc.1 e he
          omega
        refine ⟨⟨?_, ?_, ?_⟩, ⟨?_, ?_⟩, ?_⟩
        · rw [hg1groups, hg1next]
          intro e he
          rcases mem_alistInsert he with he2 | he2
          · have := hcc.1 e he2
            omega
          · rw [he2]
            omega
        · rw [hg1next]
          have hkeys : g1.outputPortsOfGroup.map Prod.fst =
              ((g.newGroup false none).1.portsOfGroup .Output).map Prod.fst := by
            cases t
            · exact congrArg (List.map Prod.fst) (hlists .Output (by simp))
            · exact alistModify_keys hmod
          have hb : ∀ e ∈ (g.newGroup false none).1.portsOfGroup .Output,
              e.1 < g.nextGroupId + 1 := by
            rw [newGroup_portsOfGroup]
            intro e he
            rcases mem_alistInsert he with he2 | he2
            · have := hcc.2.1 e he2
              omega
            · rw [he2]
              omega
          exact keys_bound (fun k => k) hkeys hb
        · rw [hg1next]
          have hkeys : g1.inputPortsOfGroup.map Prod.fst =
              ((g.newGroup false none).1.portsOfGroup .Input).map Prod.fst := by
            cases t
            · exact alistModify_keys hmod
            · exact congrArg (List.map Prod.fst) (hlists .Input (by simp))
          have hb : ∀ e ∈ (g.newGroup false none).1.portsOfGroup .Input,
              e.1 < g.nextGroupId + 1 := by
            rw [newGroup_portsOfGroup]
            intro e he
            rcases mem_alistInsert he with he2 | he2
            · have := hcc.2.2 e he2
              omega
            · rw [he2]
              omega
          exact keys_bound (fun k => k) hkeys hb
        · intro t2 p hp
          by_cases ht : t2 = t
          · subst ht
            rw [hmap, hmapNew]
            have hne : p ≠ ⟨c, (st.rotAt c).globalToLocal face⟩ := by
              intro hpe
              rw [hpe] at hp
              exact hp rfl
            rw [alistGet_insert_ne _ _ _ _ hne]
          · rw [hmaps t2 ht, newGroup_portMap]
        · intro co
          rw [hg1groups, alistInsert_fresh _ hfreshg, find?_append_eq]
          cases hfind : List.find? (fun e => e.2.recentWireCoords = some co) g.groups with
          | some e => rfl
          | none => simp
        · rw [hg1next]
          omega

theorem addFaces_cc_stEq {st : Struct} {reg : LogicRegistry} {fuel : Nat} {c : Coord} :
    ∀ (fs : List (BlockFace × PortType)) {g h : WireGraph},
    CounterConsistent g → addFaces st reg fuel c fs g = some h →
    CounterConsistent h ∧ StEq c g h ∧ g.nextGroupId ≤ h.nextGroupId := by
  intro fs
  induction fs with
  | nil =>
    intro g h hcc hA
    simp only [addFaces, Option.some.injEq] at hA
    rw [← hA]
    exact ⟨hcc, stEq_refl _ _, Nat.le_refl _⟩
  | cons ft rest ih =>
    intro g h hcc hA
    simp only [addFaces] at hA
    cases hnp : neighborPort st reg fuel g c ft.1 ft.2 with
    | none => rw [hnp] at hA; cases hA
    | some g1 =>
      rw [hnp] at hA
      obtain ⟨hcc1, hst1, hle1⟩ := neighborPort_cc_stEq hcc hnp
      obtain ⟨hcc2, hst2, hle2⟩ := ih hcc1 hA
      exact ⟨hcc2, stEq_trans hst1 hst2, Nat.le_trans hle1 hle2⟩

theorem find?_alistRemove {K V : Type} [DecidableEq K] {l : List (K × V)} {k : K}
    {p : K × V → Bool} (h : ∀ e ∈ l, e.1 = k → p e = false) :
    List.find? p (alistRemove l k) = List.find? p l := by
  induction l with
  | nil => rfl
  | cons e t ih =>
    by_cases he : e.1 = k
    · have hp : p e = false := h e (List.mem_cons_self _ _) he
      simp only [alistRemove, he, if_true, List.find?_cons, hp]
      exact ih (fun e2 he2 hk => h e2 (List.mem_cons_of_mem _ he2) hk)
    · simp only [alistRemove, he, if_false, List.find?_cons]
      cases hp : p e with
      | true => rfl
      | false => exact ih (fun e2 he2 hk => h e2 (List.mem_cons_of_mem _ he2) hk)

theorem alistInsert_self_eq {K V : Type} [DecidableEq K] {l : List (K × V)} {k : K} {v : V}
    (h : alistGet l k = some v) : alistInsert l k v = l := by
  induction l with
  | nil => simp [alistGet] at h
  | cons e t ih =>
    by_cases he : e.1 = k
    · rw [alistGet_cons, if_pos he] at h
      have hv : e.2 = v := Option.some.inj h
      simp only [alistInsert, he, if_true]
      rw [← he, ← hv]
    · rw [alistGet_cons, if_neg he] at h
      simp only [alistInsert, he, if_false]
      rw [ih h]

theorem addPort_isSome (g : WireGraph) (c : Coord) (f : BlockFace) (gid : Nat)
    (t : PortType) :
    (g.addPort c f gid t).isSome = (alistGet (g.portsOfGroup t) gid).isSome := by
  simp only [WireGraph.addPort]
  split
  · rename_i hm
    rw [portsOfGroup_setPortMap] at hm
    have := alistModify_isSome (g.portsOfGroup t) gid (fun ports => ports ++ [⟨c, f⟩])
    rw [hm] at this
    exact this.symm ▸ rfl
  · rename_i m hm
    rw [portsOfGroup_setPortMap] at hm
    have := alistModify_isSome (g.portsOfGroup t) gid (fun ports => ports ++ [⟨c, f⟩])
    rw [hm] at this
    exact this.symm ▸ rfl

/-- The relation between the graph without (`s`) and with (`b`) the delta of
one already-attached port: the port joined the existing group `gid`, so `s` is
`b` with the port's map entry removed and the port erased from the group's
port list. -/
def RelAttach (c : Coord) (P : Port) (t : PortType) (gid : Nat) (s b : WireGraph) : Prop :=
  P.coords = c ∧
    b.nextGroupId = s.nextGroupId ∧
    b.groups = s.groups ∧
    alistRemove (b.portMap t) P = s.portMap t ∧
    (∀ t2, t2 ≠ t → b.portMap t2 = s.portMap t2) ∧
    alistModify (b.portsOfGroup t) gid (fun l => l.erase P) = some (s.portsOfGroup t) ∧
    (∀ t2, t2 ≠ t → b.portsOfGroup t2 = s.portsOfGroup t2) ∧
    alistGet (b.portMap t) P = some gid ∧
    (∃ lb, alistGet (b.portsOfGroup t) gid = some lb ∧ P ∈ lb) ∧
    gid < s.nextGroupId

/-- The relation between the graph without (`s`) and with (`b`) the delta of
one port attached to a freshly allocated group `fid`: `s` is `b` with the
group and the port's entries removed. -/
def RelFresh (c : Coord) (P : Port) (t : PortType) (fid : Nat) (s b : WireGraph) : Prop :=
  P.coords = c ∧
    b.nextGroupId = s.nextGroupId ∧
    alistRemove b.groups fid = s.groups ∧
    alistRemove (b.portMap t) P = s.portMap t ∧
    (∀ t2, t2 ≠ t → b.portMap t2 = s.portMap t2) ∧
    (∀ t2, alistRemove (b.portsOfGroup t2) fid = s.portsOfGroup t2) ∧
    alistGet (b.portMap t) P = some fid ∧
    alistGet b.groups fid = some ⟨false, none⟩ ∧
    fid < s.nextGroupId ∧
    (∀ t2 (p : Port), alistGet (s.portMap t2) p ≠ some fid) ∧
    (∀ e ∈ b.groups, e.1 = fid → e.2 = (⟨false, none⟩ : LogicGroup))

theorem relAttach_stEq {c : Coord} {P : Port} {t : PortType} {gid : Nat} {s b : WireGraph}
    (hr : RelAttach c P t gid s b) : StEq c s b := by
  obtain ⟨hc, -, hgroups, hpm, hpm2, -, -, -, -, -⟩ := hr
  constructor
  · intro t2 p hp
    by_cases ht : t2 = t
    · subst ht
      rw [← hpm, alistGet_remove_ne]
      intro hpe
      rw [hpe, hc] at hp
      exact hp rfl
    · rw [hpm2 t2 ht]
  · intro co
    rw [hgroups]

theorem relFresh_stEq {c : Coord} {P : Port} {t : PortType} {fid : Nat} {s b : WireGraph}
    (hr : RelFresh c P t fid s b) : StEq c s b := by
  obtain ⟨hc, -, hgroups, hpm, hpm2, -, -, -, -, -, h11⟩ := hr
  constructor
  · intro t2 p hp
    by_cases ht : t2 = t
    · subst ht
      rw [← hpm, alistGet_remove_ne]
      intro hpe
      rw [hpe, hc] at hp
      exact hp rfl
    · rw [hpm2 t2 ht]
  · intro co
    rw [← hgroups]
    refine find?_alistRemove ?_
    intro e he hk
    rw [h11 e he hk]
    simp

theorem alistModify_comm_ne {K V : Type} [DecidableEq K] {l l1 l2 : List (K × V)} {k k' : K}
    {f f' : V → V} (hne : k ≠ k') (h1 : alistModify l k f = some l1)
    (h2 : alistModify l k' f' = some l2) :
    ∃ m, alistModify l1 k' f' = some m ∧ alistModify l2 k f = some m := by
  induction l generalizing l1 l2 with
  | nil => simp [alistModify] at h1
  | cons e t ih =>
    by_cases hek : e.1 = k
    · have hek' : ¬ e.1 = k' := by rw [hek]; exact hne
      simp only [alistModify, hek, if_true, Option.some.injEq] at h1
      subst h1
      simp only [alistModify, hek', if_false] at h2
      cases hm : alistModify t k' f' with
      | none => rw [hm] at h2; simp at h2
      | some t2 =>
        rw [hm] at h2
        simp only [Option.map_some', Option.some.injEq] at h2
        subst h2
        refine ⟨(k, f e.2) :: t2, ?_, ?_⟩
        · simp [alistModify, hne, hm]
        · simp [alistModify, hek]
    · by_cases hek' : e.1 = k'
      · simp only [alistModify, hek', if_true, Option.some.injEq] at h2
        subst h2
        simp only [alistModify, hek, if_false] at h1
        cases hm : alistModify t k f with
        | none => rw [hm] at h1; simp at h1
        | some t1 =>
          rw [hm] at h1
          simp only [Option.map_some', Option.some.injEq] at h1
          subst h1
          refine ⟨(k', f' e.2) :: t1, ?_, ?_⟩
          · simp [alistModify, hek']
          · simp [alistModify, Ne.symm hne, hm]
      · simp only [alistModify, hek, hek', if_false] at h1 h2
        cases hm1 : alistModify t k f with
        | none => rw [hm1] at h1; simp at h1
        | some t1 =>
          cases hm2 : alistModify t k' f' with
          | none => rw [hm2] at h2; simp at h2
          | some t2 =>
            rw [hm1] at h1
            rw [hm2] at h2
            simp only [Option.map_some', Option.some.injEq] at h1 h2
            subst h1
            subst h2
            obtain ⟨m, hma, hmb⟩ := ih hm1 hm2
            refine ⟨e :: m, ?_, ?_⟩
            · simp [alistModify, hek', hma]
            · simp [alistModify, hek, hmb]

theorem erase_append_singleton {P : Port} {l : List Port} (h : P ∉ l) :
    (l ++ [P]).erase P = l := by
  rw [List.erase_append_right _ h]
  simp

theorem erase_push_comm {P q : Port} {l : List Port} (h : P ∈ l) :
    (l ++ [q]).erase P = l.erase P ++ [q] := by
  rw [List.erase_append_left _ h]

theorem neighborPort_relAttach {st : Struct} {reg : LogicRegistry} {fuel : Nat}
    {c : Coord} {P : Port} {t : PortType} {gid : Nat} {s b b1 : WireGraph}
    {face : BlockFace} {tA : PortType}
    (hr : RelAttach c P t gid s b)
    (hPne : (⟨c, (st.rotAt c).globalToLocal face⟩ : Port) ≠ P)
    (hb : neighborPort st reg fuel b c face tA = some b1) :
    ∃ s1, neighborPort st reg fuel s c face tA = some s1 ∧ RelAttach c P t gid s1 b1 := by
  obtain ⟨hc, hnext, hgroups, hpm, hpm2, hmod6, hpg2, hget8, ⟨lb, hget9, hPlb⟩, hlt⟩ := hr
  cases hstep : st.step c ((st.rotAt c).globalToLocal face) with
  | none =>
    simp only [neighborPort, hstep, Option.some.injEq] at hb
    refine ⟨s, by simp only [neighborPort, hstep], ?_⟩
    rw [← hb]
    exact ⟨hc, hnext, hgroups, hpm, hpm2, hmod6, hpg2, hget8, ⟨lb, hget9, hPlb⟩, hlt⟩
  | some nbr =>
    have hstEq : StEq c s b :=
      relAttach_stEq ⟨hc, hnext, hgroups, hpm, hpm2, hmod6, hpg2, hget8,
        ⟨lb, hget9, hPlb⟩, hlt⟩
    have hfind : findGroup st reg s fuel nbr
        ((st.rotAt c).globalToLocal face).inverse (Port.allFor c) =
      findGroup st reg b fuel nbr
        ((st.rotAt c).globalToLocal face).inverse (Port.allFor c) :=
      findGroup_stEq hstEq fuel nbr _ _ (fun f0 => mem_allFor c f0) (step_ne hstep)
    cases hfb : findGroup st reg b fuel nbr
        ((st.rotAt c).globalToLocal face).inverse (Port.allFor c) with
    | none =>
      simp only [neighborPort, hstep, hfb] at hb
      cases hb
    | some pr =>
      obtain ⟨v, res⟩ := pr
      rw [hfb] at hfind
      cases res with
      | some gidA =>
        simp only [neighborPort, hstep, hfb] at hb
        have hkeys : (s.portsOfGroup tA).map Prod.fst = (b.portsOfGroup tA).map Prod.fst := by
          by_cases ht : tA = t
          · subst ht
            exact alistModify_keys hmod6
          · rw [hpg2 tA ht]
        have hsome : (s.addPort c ((st.rotAt c).globalToLocal face) gidA tA).isSome = true := by
          rw [addPort_isSome, alistGet_isSome_congr_keys hkeys]
          rw [← addPort_isSome b c ((st.rotAt c).globalToLocal face) gidA tA, hb]
          rfl
        cases hadds : s.addPort c ((st.rotAt c).globalToLocal face) gidA tA with
        | none => rw [hadds] at hsome; cases hsome
        | some s1 =>
          refine ⟨s1, ?_, ?_⟩
          · simp only [neighborPort, hstep, hfind, hadds]
          · obtain ⟨groupsB, nextB, hmodB, listsB, mapB, mapsB⟩ := addPort_spec hb
            obtain ⟨groupsS, nextS, hmodS, listsS, mapS, mapsS⟩ := addPort_spec hadds
            have hPPA : P ≠ (⟨c, (st.rotAt c).globalToLocal face⟩ : Port) := Ne.symm hPne
            refine ⟨hc, ?_, ?_, ?_, ?_, ?_, ?_, ?_, ?_, ?_⟩
            · rw [nextB, nextS, hnext]
            · rw [groupsB, groupsS, hgroups]
            · by_cases ht : tA = t
              · subst ht
                rw [mapB, mapS, alistRemove_insert_comm _ _ hPPA, hpm]
              · rw [mapsB t (fun he => ht he.symm), mapsS t (fun he => ht he.symm), hpm]
            · intro t2 ht2
              by_cases htA : t2 = tA
              · subst htA
                rw [mapB, mapS, hpm2 t2 ht2]
              · rw [mapsB t2 htA, mapsS t2 htA, hpm2 t2 ht2]
            · by_cases ht : tA = t
              · subst ht
                by_cases hgid : gidA = gid
                · subst hgid
                  have e1 := alistModify_modify (fun l => l.erase P) hmodB
                  have e2 := alistModify_modify
                    (fun l => l ++ [(⟨c, (st.rotAt c).globalToLocal face⟩ : Port)]) hmod6
                  rw [hmodS] at e2
                  have e3 : alistModify (b.portsOfGroup tA) gidA
                      (fun v => (v ++ [(⟨c, (st.rotAt c).globalToLocal face⟩ : Port)]).erase P) =
                    alistModify (b.portsOfGroup tA) gidA
                      (fun v => v.erase P ++
                        [(⟨c, (st.rotAt c).globalToLocal face⟩ : Port)]) := by
                    refine alistModify_congr hget9 ?_
                    exact erase_push_comm hPlb
                  rw [e1, e3, ← e2]
                · obtain ⟨m, hma, hmb⟩ := alistModify_comm_ne hgid hmodB hmod6
                  rw [hmodS] at hmb
                  have hm : m = s1.portsOfGroup tA := (Option.some.inj hmb).symm
                  rw [hma, hm]
              · rw [listsB t (fun he => ht he.symm), listsS t (fun he => ht he.symm)]
                exact hmod6
            · intro t2 ht2
              by_cases htA : t2 = tA
              · subst htA
                rw [hpg2 t2 ht2] at hmodB
                rw [hmodB] at hmodS
                exact Option.some.inj hmodS
              · rw [listsB t2 htA, listsS t2 htA]
                exact hpg2 t2 ht2
            · by_cases ht : tA = t
              · subst ht
                rw [mapB, alistGet_insert_ne _ _ _ _ hPPA]
                exact hget8
              · rw [mapsB t (fun he => ht he.symm)]
                exact hget8
            · by_cases ht : tA = t
              · subst ht
                by_cases hgid : gidA = gid
                · subst hgid
                  refine ⟨lb ++ [⟨c, (st.rotAt c).globalToLocal face⟩], ?_, ?_⟩
                  · rw [alistGet_modify_self hmodB, hget9]
                    rfl
                  · exact List.mem_append_left _ hPlb
                · refine ⟨lb, ?_, hPlb⟩
                  rw [alistGet_modify_ne hmodB (fun he => hgid he.symm)]
                  exact hget9
              · refine ⟨lb, ?_, hPlb⟩
                rw [listsB t (fun he => ht he.symm)]
                exact hget9
            · rw [nextS]
              exact hlt
      | none =>
        simp only [neighborPort, hstep, hfb] at hb
        have hfid : (b.newGroup false none).2 = s.nextGroupId := by
          rw [newGroup_snd, hnext]
        have hfidS : (s.newGroup false none).2 = s.nextGroupId := newGroup_snd s false none
        have hsome : ((s.newGroup false none).1.addPort c
            ((st.rotAt c).globalToLocal face) (s.newGroup false none).2 tA).isSome = true := by
          rw [addPort_isSome, hfidS, newGroup_portsOfGroup, alistGet_insert_self]
          rfl
        cases hadds : (s.newGroup false none).1.addPort c
            ((st.rotAt c).globalToLocal face) (s.newGroup false none).2 tA with
        | none => rw [hadds] at hsome; cases hsome
        | some s1 =>
          refine ⟨s1, ?_, ?_⟩
          · simp only [neighborPort, hstep, hfind, hadds]
          · obtain ⟨groupsB, nextB, hmodB, listsB, mapB, mapsB⟩ := addPort_spec hb
            obtain ⟨groupsS, nextS, hmodS, listsS, mapS, mapsS⟩ := addPort_spec hadds
            have hPPA : P ≠ (⟨c, (st.rotAt c).globalToLocal face⟩ : Port) := Ne.symm hPne
            have hgidne : gid ≠ s.nextGroupId := Nat.ne_of_lt hlt
            rw [hfid] at hmodB hb mapB
            rw [hfidS] at hmodS hadds mapS
            rw [newGroup_portsOfGroup] at hmodB hmodS
            rw [hnext] at hmodB
            refine ⟨hc, ?_, ?_, ?_, ?_, ?_, ?_, ?_, ?_, ?_⟩
            · rw [nextB, nextS, newGroup_nextGroupId, newGroup_nextGroupId, hnext]
            · rw [groupsB, groupsS, newGroup_groups, newGroup_groups, hgroups, hnext]
            · by_cases ht : tA = t
              · subst ht
                rw [mapB, mapS, newGroup_portMap, newGroup_portMap,
                  alistRemove_insert_comm _ _ hPPA, hpm]
              · rw [mapsB t (fun he => ht he.symm), mapsS t (fun he => ht he.symm),
                  newGroup_portMap, newGroup_portMap, hpm]
            · intro t2 ht2
              by_cases htA : t2 = tA
              · subst htA
                rw [mapB, mapS, newGroup_portMap, newGroup_portMap, hpm2 t2 ht2]
              · rw [mapsB t2 htA, mapsS t2 htA, newGroup_portMap, newGroup_portMap,
                  hpm2 t2 ht2]
            · by_cases ht : tA = t
              · subst ht
                have hIns := alistModify_insert_comm
                  (K := Nat) (V := List Port) ([] : List Port) hgidne hmod6
                obtain ⟨m, hma, hmb⟩ := alistModify_comm_ne
                  (Ne.symm hgidne) hmodB hIns
                rw [hmodS] at hmb
                have hm : m = s1.portsOfGroup tA := (Option.some.inj hmb).symm
                rw [hma, hm]
              · rw [listsB t (fun he => ht he.symm), listsS t (fun he => ht he.symm),
                  newGroup_portsOfGroup, newGroup_portsOfGroup, hnext]
                exact alistModify_insert_comm _ hgidne hmod6
            · intro t2 ht2
              by_cases htA : t2 = tA
              · subst htA
                rw [hpg2 t2 ht2] at hmodB
                rw [hmodB] at hmodS
                exact Option.some.inj hmodS
              · rw [listsB t2 htA, listsS t2 htA, newGroup_portsOfGroup,
                  newGroup_portsOfGroup, hnext, hpg2 t2 ht2]
            · by_cases ht : tA = t
              · subst ht
                rw [mapB, newGroup_portMap, alistGet_insert_ne _ _ _ _ hPPA]
                exact hget8
              · rw [mapsB t (fun he => ht he.symm), newGroup_portMap]
                exact hget8
            · by_cases ht : tA = t
              · subst ht
                refine ⟨lb, ?_, hPlb⟩
                rw [alistGet_modify_ne hmodB hgidne, alistGet_insert_ne _ _ _ _ hgidne]
                exact hget9
              · refine ⟨lb, ?_, hPlb⟩
                rw [listsB t (fun he => ht he.symm), newGroup_portsOfGroup, hnext,
                  alistGet_insert_ne _ _ _ _ hgidne]
                exact hget9
            · rw [nextS, newGroup_nextGroupId]
              omega

theorem neighborPort_relFresh {st : Struct} {reg : LogicRegistry} {fuel : Nat}
    {c : Coord} {P : Port} {t : PortType} {fid : Nat} {s b b1 : WireGraph}
    {face : BlockFace} {tA : PortType}
    (hr : RelFresh c P t fid s b)
    (hPne : (⟨c, (st.rotAt c).globalToLocal face⟩ : Port) ≠ P)
    (hb : neighborPort st reg fuel b c face tA = some b1) :
    ∃ s1, neighborPort st reg fuel s c face tA = some s1 ∧ RelFresh c P t fid s1 b1 := by
  obtain ⟨hc, hnext, hgroups, hpm, hpm2, hpg6, hget7, hget8, hlt, hnofid, h11⟩ := hr
  cases hstep : st.step c ((st.rotAt c).globalToLocal face) with
  | none =>
    simp only [neighborPort, hstep, Option.some.injEq] at hb
    refine ⟨s, by simp only [neighborPort, hstep], ?_⟩
    rw [← hb]
    exact ⟨hc, hnext, hgroups, hpm, hpm2, hpg6, hget7, hget8, hlt, hnofid, h11⟩
  | some nbr =>
    have hstEq : StEq c s b :=
      relFresh_stEq ⟨hc, hnext, hgroups, hpm, hpm2, hpg6, hget7, hget8, hlt, hnofid, h11⟩
    have hfind : findGroup st reg s fuel nbr
        ((st.rotAt c).globalToLocal face).inverse (Port.allFor c) =
      findGroup st reg b fuel nbr
        ((st.rotAt c).globalToLocal face).inverse (Port.allFor c) :=
      findGroup_stEq hstEq fuel nbr _ _ (fun f0 => mem_allFor c f0) (step_ne hstep)
    cases hfb : findGroup st reg b fuel nbr
        ((st.rotAt c).globalToLocal face).inverse (Port.allFor c) with
    | none =>
      simp only [neighborPort, hstep, hfb] at hb
      cases hb
    | some pr =>
      obtain ⟨v, res⟩ := pr
      rw [hfb] at hfind
      cases res with
      | some gidA =>
        simp only [neighborPort, hstep, hfb] at hb
        have hgidfid : gidA ≠ fid := by
          rcases findGroup_range fuel nbr _ _ _ _ hfind with ⟨t2, p, hp⟩ | ⟨e, he, hk⟩
          · intro hg
            exact hnofid t2 p (hg ▸ hp)
          · intro hg
            rw [← hgroups] at he
            exact (mem_alistRemove.mp he).2 (hk.trans hg)
        obtain ⟨groupsB, nextB, hmodB, listsB, mapB, mapsB⟩ := addPort_spec hb
        have hmodS0 := alistModify_remove_comm hgidfid hmodB
        rw [hpg6 tA] at hmodS0
        have hsome : (s.addPort c ((st.rotAt c).globalToLocal face) gidA tA).isSome = true := by
          rw [addPort_isSome]
          have := alistModify_isSome (s.portsOfGroup tA) gidA
            (fun ports => ports ++ [(⟨c, (st.rotAt c).globalToLocal face⟩ : Port)])
          rw [hmodS0] at this
          exact this.symm ▸ rfl
        cases hadds : s.addPort c ((st.rotAt c).globalToLocal face) gidA tA with
        | none => rw [hadds] at hsome; cases hsome
        | some s1 =>
          refine ⟨s1, ?_, ?_⟩
          · simp only [neighborPort, hstep, hfind, hadds]
          · obtain ⟨groupsS, nextS, hmodS, listsS, mapS, mapsS⟩ := addPort_spec hadds
            have hPPA : P ≠ (⟨c, (st.rotAt c).globalToLocal face⟩ : Port) := Ne.symm hPne
            have hs1pg : s1.portsOfGroup tA = alistRemove (b1.portsOfGroup tA) fid := by
              rw [hmodS0] at hmodS
              exact (Option.some.inj hmodS).symm
            refine ⟨hc, ?_, ?_, ?_, ?_, ?_, ?_, ?_, ?_, ?_, ?_⟩
            · rw [nextB, nextS, hnext]
            · rw [groupsB, groupsS, hgroups]
            · by_cases ht : tA = t
              · subst ht
                rw [mapB, mapS, alistRemove_insert_comm _ _ hPPA, hpm]
              · rw [mapsB t (fun he => ht he.symm), mapsS t (fun he => ht he.symm), hpm]
            · intro t2 ht2
              by_cases htA : t2 = tA
              · subst htA
                rw [mapB, mapS, hpm2 t2 ht2]
              · rw [mapsB t2 htA, mapsS t2 htA, hpm2 t2 ht2]
            · intro t2
              by_cases htA : t2 = tA
              · subst htA
                rw [hs1pg]
              · rw [listsB t2 htA, listsS t2 htA, hpg6 t2]
            · by_cases ht : tA = t
              · subst ht
                rw [mapB, alistGet_insert_ne _ _ _ _ hPPA]
                exact hget7
              · rw [mapsB t (fun he => ht he.symm)]
                exact hget7
            · rw [groupsB]
              exact hget8
            · rw [nextS]
              exact hlt
            · intro t2 p
              by_cases htA : t2 = tA
              · subst htA
                rw [mapS]
                by_cases hp : p = ⟨c, (st.rotAt c).globalToLocal face⟩
                · rw [hp, alistGet_insert_self]
                  intro hcontra
                  exact hgidfid (Option.some.inj hcontra)
                · rw [alistGet_insert_ne _ _ _ _ hp]
                  exact hnofid _ p
              · rw [mapsS t2 htA]
                exact hnofid t2 p
            · rw [groupsB]
              exact h11
      | none =>
        simp only [neighborPort, hstep, hfb] at hb
        have hfid2 : (b.newGroup false none).2 = s.nextGroupId := by
          rw [newGroup_snd, hnext]
        have hfidS : (s.newGroup false none).2 = s.nextGroupId := newGroup_snd s false none
        have hfidne : fid ≠ s.nextGroupId := Nat.ne_of_lt hlt
        have hsome : ((s.newGroup false none).1.addPort c
            ((st.rotAt c).globalToLocal face) (s.newGroup false none).2 tA).isSome = true := by
          rw [addPort_isSome, hfidS, newGroup_portsOfGroup, alistGet_insert_self]
          rfl
        cases hadds : (s.newGroup false none).1.addPort c
            ((st.rotAt c).globalToLocal face) (s.newGroup false none).2 tA with
        | none => rw [hadds] at hsome; cases hsome
        | some s1 =>
          refine ⟨s1, ?_, ?_⟩
          · simp only [neighborPort, hstep, hfind, hadds]
          · obtain ⟨groupsB, nextB, hmodB, listsB, mapB, mapsB⟩ := addPort_spec hb
            obtain ⟨groupsS, nextS, hmodS, listsS, mapS, mapsS⟩ := addPort_spec hadds
            have hPPA : P ≠ (⟨c, (st.rotAt c).globalToLocal face⟩ : Port) := Ne.symm hPne
            rw [hfid2] at hmodB hb mapB
            rw [hfidS] at hmodS hadds mapS
            rw [newGroup_portsOfGroup] at hmodB hmodS
            rw [hnext] at hmodB
            refine ⟨hc, ?_, ?_, ?_, ?_, ?_, ?_, ?_, ?_, ?_, ?_⟩
            · rw [nextB, nextS, newGroup_nextGroupId, newGroup_nextGroupId, hnext]
            · rw [groupsB, groupsS, newGroup_groups, newGroup_groups, hnext,
                alistRemove_insert_comm _ _ hfidne, hgroups]
            · by_cases ht : tA = t
              · subst ht
                rw [mapB, mapS, newGroup_portMap, newGroup_portMap,
                  alistRemove_insert_comm _ _ hPPA, hpm]
              · rw [mapsB t (fun he => ht he.symm), mapsS t (fun he => ht he.symm),
                  newGroup_portMap, newGroup_portMap, hpm]
            · intro t2 ht2
              by_cases htA : t2 = tA
              · subst htA
                rw [mapB, mapS, newGroup_portMap, newGroup_portMap, hpm2 t2 ht2]
              · rw [mapsB t2 htA, mapsS t2 htA, newGroup_portMap, newGroup_portMap,
                  hpm2 t2 ht2]
            · intro t2
              by_cases htA : t2 = tA
              · subst htA
                have hcomm := alistModify_remove_comm (Ne.symm hfidne) hmodB
                rw [alistRemove_insert_comm _ _ hfidne, hpg6 _] at hcomm
                rw [hcomm] at hmodS
                exact Option.some.inj hmodS
              · rw [listsB t2 htA, listsS t2 htA, newGroup_portsOfGroup,
                  newGroup_portsOfGroup, hnext, alistRemove_insert_comm _ _ hfidne,
                  hpg6 t2]
            · by_cases ht : tA = t
              · subst ht
                rw [mapB, newGroup_portMap, alistGet_insert_ne _ _ _ _ hPPA]
                exact hget7
              · rw [mapsB t (fun he => ht he.symm), newGroup_portMap]
                exact hget7
            · rw [groupsB, newGroup_groups, hnext, alistGet_insert_ne _ _ _ _ hfidne]
              exact hget8
            · rw [nextS, newGroup_nextGroupId]
              omega
            · intro t2 p
              by_cases htA : t2 = tA
              · subst htA
                rw [mapS, newGroup_portMap]
                by_cases hp : p = ⟨c, (st.rotAt c).globalToLocal face⟩
                · rw [hp, alistGet_insert_self]
                  intro hcontra
                  exact hfidne (Option.some.inj hcontra).symm
                · rw [alistGet_insert_ne _ _ _ _ hp]
                  exact hnofid _ p
              · rw [mapsS t2 htA, newGroup_portMap]
                exact hnofid t2 p
            · rw [groupsB, newGroup_groups, hnext]
              intro e he hk
              rcases mem_alistInsert he with he2 | he2
              · exact h11 e he2 hk
              · rw [he2]

theorem addFaces_relAttach {st : Struct} {reg : LogicRegistry} {fuel : Nat} {c : Coord}
    {P : Port} {t : PortType} {gid : Nat} :
    ∀ (fs : List (BlockFace × PortType)) {s b h : WireGraph},
    RelAttach c P t gid s b →
    (∀ ft ∈ fs, (⟨c, (st.rotAt c).globalToLocal ft.1⟩ : Port) ≠ P) →
    addFaces st reg fuel c fs b = some h →
    ∃ h2, addFaces st reg fuel c fs s = some h2 ∧ RelAttach c P t gid h2 h := by
  intro fs
  induction fs with
  | nil =>
    intro s b h hr hne hA
    simp only [addFaces, Option.some.injEq] at hA
    exact ⟨s, rfl, hA ▸ hr⟩
  | cons ft rest ih =>
    intro s b h hr hne hA
    simp only [addFaces] at hA
    cases hnp : neighborPort st reg fuel b c ft.1 ft.2 with
    | none => rw [hnp] at hA; cases hA
    | some b1 =>
      rw [hnp] at hA
      obtain ⟨s1, hs1, hr1⟩ :=
        neighborPort_relAttach hr (hne ft (List.mem_cons_self _ _)) hnp
      obtain ⟨h2, hh2, hr2⟩ :=
        ih hr1 (fun ft2 hft2 => hne ft2 (List.mem_cons_of_mem _ hft2)) hA
      refine ⟨h2, ?_, hr2⟩
      simp only [addFaces, hs1]
      exact hh2

theorem addFaces_relFresh {st : Struct} {reg : LogicRegistry} {fuel : Nat} {c : Coord}
    {P : Port} {t : PortType} {fid : Nat} :
    ∀ (fs : List (BlockFace × PortType)) {s b h : WireGraph},
    RelFresh c P t fid s b →
    (∀ ft ∈ fs, (⟨c, (st.rotAt c).globalToLocal ft.1⟩ : Port) ≠ P) →
    addFaces st reg fuel c fs b = some h →
    ∃ h2, addFaces st reg fuel c fs s = some h2 ∧ RelFresh c P t fid h2 h := by
  intro fs
  induction fs with
  | nil =>
    intro s b h hr hne hA
    simp only [addFaces, Option.some.injEq] at hA
    exact ⟨s, rfl, hA ▸ hr⟩
  | cons ft rest ih =>
    intro s b h hr hne hA
    simp only [addFaces] at hA
    cases hnp : neighborPort st reg fuel b c ft.1 ft.2 with
    | none => rw [hnp] at hA; cases hA
    | some b1 =>
      rw [hnp] at hA
      obtain ⟨s1, hs1, hr1⟩ :=
        neighborPort_relFresh hr (hne ft (List.mem_cons_self _ _)) hnp
      obtain ⟨h2, hh2, hr2⟩ :=
        ih hr1 (fun ft2 hft2 => hne ft2 (List.mem_cons_of_mem _ hft2)) hA
      refine ⟨h2, ?_, hr2⟩
      simp only [addFaces, hs1]
      exact hh2

theorem peel_attach {st : Struct} {reg : LogicRegistry} {fuel : Nat} {c : Coord}
    {t : PortType} {gid : Nat} {s b : WireGraph} {face : BlockFace} {nbr : Coord}
    (hr : RelAttach c ⟨c, (st.rotAt c).globalToLocal face⟩ t gid s b)
    (hstep : st.step c ((st.rotAt c).globalToLocal face) = some nbr)
    {v : List Port} {g2 : Nat}
    (hfind : findGroup st reg b fuel nbr ((st.rotAt c).globalToLocal face).inverse
      (Port.allFor c) = some (v, some g2)) :
    removePort st reg fuel b c face t = some s := by
  obtain ⟨hc, hnext, hgroups, hpm, hpm2, hmod6, hpg2, hget8, ⟨lb, hget9, hPlb⟩, hlt⟩ := hr
  have hval : removePort st reg fuel b c face t = some
      ((b.setPortsOfGroup t (alistInsert (b.portsOfGroup t) gid
          (lb.erase ⟨c, (st.rotAt c).globalToLocal face⟩))).setPortMap t
        (alistRemove ((b.setPortsOfGroup t (alistInsert (b.portsOfGroup t) gid
            (lb.erase ⟨c, (st.rotAt c).globalToLocal face⟩))).portMap t)
          ⟨c, (st.rotAt c).globalToLocal face⟩)) := by
    simp only [removePort, hstep, hget8, hfind, hget9, hPlb, if_true]
  rw [hval]
  congr 1
  have hspg : s.portsOfGroup t = alistInsert (b.portsOfGroup t) gid
      (lb.erase ⟨c, (st.rotAt c).globalToLocal face⟩) := by
    have := alistModify_eq_insert
      (fun l => l.erase (⟨c, (st.rotAt c).globalToLocal face⟩ : Port)) hget9
    rw [this] at hmod6
    exact (Option.some.inj hmod6).symm
  have hpmAll : ∀ t2, ((b.setPortsOfGroup t (alistInsert (b.portsOfGroup t) gid
      (lb.erase ⟨c, (st.rotAt c).globalToLocal face⟩))).setPortMap t
        (alistRemove ((b.setPortsOfGroup t (alistInsert (b.portsOfGroup t) gid
            (lb.erase ⟨c, (st.rotAt c).globalToLocal face⟩))).portMap t)
          ⟨c, (st.rotAt c).globalToLocal face⟩)).portMap t2 = s.portMap t2 := by
    intro t2
    by_cases ht : t2 = t
    · subst ht
      rw [portMap_setPortMap_self, portMap_setPortsOfGroup]
      exact hpm
    · rw [portMap_setPortMap_ne _ _ _ _ ht, portMap_setPortsOfGroup]
      exact hpm2 t2 ht
  have hpgAll : ∀ t2, ((b.setPortsOfGroup t (alistInsert (b.portsOfGroup t) gid
      (lb.erase ⟨c, (st.rotAt c).globalToLocal face⟩))).setPortMap t
        (alistRemove ((b.setPortsOfGroup t (alistInsert (b.portsOfGroup t) gid
            (lb.erase ⟨c, (st.rotAt c).globalToLocal face⟩))).portMap t)
          ⟨c, (st.rotAt c).globalToLocal face⟩)).portsOfGroup t2 = s.portsOfGroup t2 := by
    intro t2
    by_cases ht : t2 = t
    · subst ht
      rw [portsOfGroup_setPortMap, portsOfGroup_setPortsOfGroup_self]
      exact hspg.symm
    · rw [portsOfGroup_setPortMap, portsOfGroup_setPortsOfGroup_ne _ _ _ _ ht]
      exact hpg2 t2 ht
  refine wireGraph_eq ?_ ?_ (hpmAll .Output) (hpmAll .Input) (hpgAll .Output) (hpgAll .Input)
  · rw [nextGroupId_setPortMap, nextGroupId_setPortsOfGroup]
    exact hnext
  · rw [groups_setPortMap, groups_setPortsOfGroup]
    exact hgroups

theorem peel_fresh {st : Struct} {reg : LogicRegistry} {fuel : Nat} {c : Coord}
    {t : PortType} {fid : Nat} {s b : WireGraph} {face : BlockFace} {nbr : Coord}
    (hr : RelFresh c ⟨c, (st.rotAt c).globalToLocal face⟩ t fid s b)
    (hstep : st.step c ((st.rotAt c).globalToLocal face) = some nbr)
    {v : List Port}
    (hfind : findGroup st reg b fuel nbr ((st.rotAt c).globalToLocal face).inverse
      (Port.allFor c) = some (v, none)) :
    removePort st reg fuel b c face t = some s := by
  obtain ⟨hc, hnext, hgroups, hpm, hpm2, hpg6, hget7, hget8, hlt, hnofid, h11⟩ := hr
  cases hrg : b.removeGroup fid with
  | none =>
    exfalso
    simp only [WireGraph.removeGroup, hget8] at hrg
    cases hrg
  | some pr =>
    obtain ⟨g1, gr⟩ := pr
    have hval : removePort st reg fuel b c face t = some
        (g1.setPortMap t (alistRemove (g1.portMap t)
          ⟨c, (st.rotAt c).globalToLocal face⟩)) := by
      simp only [removePort, hstep, hget7, hfind, hrg]
    rw [hval]
    congr 1
    obtain ⟨hg1groups, hg1out, hg1in, hg1next, -, -, -⟩ := removeGroup_spec hrg
    have hpmAll : ∀ t2, (g1.setPortMap t (alistRemove (g1.portMap t)
        ⟨c, (st.rotAt c).globalToLocal face⟩)).portMap t2 = s.portMap t2 := by
      intro t2
      by_cases ht : t2 = t
      · subst ht
        rw [portMap_setPortMap_self, removeGroup_portMap hrg]
        exact hpm
      · rw [portMap_setPortMap_ne _ _ _ _ ht, removeGroup_portMap hrg]
        exact hpm2 t2 ht
    have hpgAll : ∀ t2, (g1.setPortMap t (alistRemove (g1.portMap t)
        ⟨c, (st.rotAt c).globalToLocal face⟩)).portsOfGroup t2 = s.portsOfGroup t2 := by
      intro t2
      rw [portsOfGroup_setPortMap, removeGroup_portsOfGroup hrg]
      exact hpg6 t2
    refine wireGraph_eq ?_ ?_ (hpmAll .Output) (hpmAll .Input) (hpgAll .Output) (hpgAll .Input)
    · rw [nextGroupId_setPortMap, hg1next]
      exact hnext
    · rw [groups_setPortMap, hg1groups]
      exact hgroups

theorem roundTripFaces {st : Struct} {reg : LogicRegistry} {fuel : Nat} {c : Coord} :
    ∀ (fs : List (BlockFace × PortType)) {g h : WireGraph},
    CounterConsistent g →
    (∀ (t2 : PortType) (p : Port) (gid : Nat),
      alistGet (g.portMap t2) p = some gid → gid < g.nextGroupId) →
    (∀ (f0 : BlockFace) (t2 : PortType),
      alistGet (g.portMap t2) ⟨c, (st.rotAt c).globalToLocal f0⟩ = none) →
    (∀ (f0 : BlockFace) (t2 : PortType), ∀ e ∈ g.portsOfGroup t2,
      (⟨c, (st.rotAt c).globalToLocal f0⟩ : Port) ∉ e.2) →
    (∀ f1 f2 : BlockFace,
      (st.rotAt c).globalToLocal f1 = (st.rotAt c).globalToLocal f2 → f1 = f2) →
    (fs.map Prod.fst).Nodup →
    addFaces st reg fuel c fs g = some h →
    removeFaces st reg fuel c fs h = some { g with nextGroupId := h.nextGroupId } := by
  intro fs
  induction fs with
  | nil =>
    intro g h hcc hccm hfreshPm hfreshPg hinj hnd hA
    simp only [addFaces, Option.some.injEq] at hA
    subst hA
    rfl
  | cons ft rest ih =>
    obtain ⟨face, tA⟩ := ft
    intro g h hcc hccm hfreshPm hfreshPg hinj hnd hA
    simp only [List.map_cons, List.nodup_cons] at hnd
    have hNePorts : ∀ ft2 ∈ rest,
        (⟨c, (st.rotAt c).globalToLocal ft2.1⟩ : Port) ≠
          (⟨c, (st.rotAt c).globalToLocal face⟩ : Port) := by
      intro ft2 hft2 heq
      have hlf : (st.rotAt c).globalToLocal ft2.1 = (st.rotAt c).globalToLocal face := by
        have := congrArg Port.localFace heq
        exact this
      have hfe : ft2.1 = face := hinj _ _ hlf
      exact hnd.1 (hfe ▸ List.mem_map_of_mem Prod.fst hft2)
    simp only [addFaces] at hA
    cases hnp : neighborPort st reg fuel g c face tA with
    | none => rw [hnp] at hA; cases hA
    | some g1 =>
      rw [hnp] at hA
      cases hstep : st.step c ((st.rotAt c).globalToLocal face) with
      | none =>
        simp only [neighborPort, hstep, Option.some.injEq] at hnp
        subst hnp
        have hrp : removePort st reg fuel h c face tA = some h := by
          simp only [removePort, hstep]
        simp only [removeFaces, hrp]
        exact ih hcc hccm hfreshPm hfreshPg hinj hnd.2 hA
      | some nbr =>
        cases hfg : findGroup st reg g fuel nbr
            ((st.rotAt c).globalToLocal face).inverse (Port.allFor c) with
        | none =>
          simp only [neighborPort, hstep, hfg] at hnp
          cases hnp
        | some pr =>
          obtain ⟨v, res⟩ := pr
          cases res with
          | some gid =>
            simp only [neighborPort, hstep, hfg] at hnp
            obtain ⟨groups1, next1, hmod1, lists1, map1, maps1⟩ := addPort_spec hnp
            have hfreshKeys : ∀ e ∈ g.portMap tA, e.1 ≠
                (⟨c, (st.rotAt c).globalToLocal face⟩ : Port) := by
              intro e he heq
              have := alistGet_isSome_of_mem he
              rw [heq, hfreshPm face tA] at this
              cases this
            have hgetSome : (alistGet (g.portsOfGroup tA) gid).isSome = true := by
              have := alistModify_isSome (g.portsOfGroup tA) gid
                (fun ps => ps ++ [(⟨c, (st.rotAt c).globalToLocal face⟩ : Port)])
              rw [hmod1] at this
              exact this.symm ▸ rfl
            cases hget0 : alistGet (g.portsOfGroup tA) gid with
            | none => rw [hget0] at hgetSome; cases hgetSome
            | some l0 =>
              have hPl0 : (⟨c, (st.rotAt c).globalToLocal face⟩ : Port) ∉ l0 :=
                hfreshPg face tA (gid, l0) (alistGet_some_mem hget0)
              have hrel : RelAttach c ⟨c, (st.rotAt c).globalToLocal face⟩ tA gid g g1 := by
                refine ⟨rfl, next1, groups1, ?_, ?_, ?_, ?_, ?_, ?_, ?_⟩
                · rw [map1, alistRemove_insert_self, alistRemove_of_freshkey hfreshKeys]
                · intro t2 ht2
                  exact maps1 t2 ht2
                · have e1 := alistModify_modify
                    (fun l => l.erase (⟨c, (st.rotAt c).globalToLocal face⟩ : Port)) hmod1
                  have e2 : alistModify (g.portsOfGroup tA) gid
                      (fun v2 => (v2 ++ [(⟨c, (st.rotAt c).globalToLocal face⟩ : Port)]).erase
                        (⟨c, (st.rotAt c).globalToLocal face⟩ : Port)) =
                      alistModify (g.portsOfGroup tA) gid (fun v2 => v2) := by
                    refine alistModify_congr hget0 ?_
                    exact erase_append_singleton hPl0
                  rw [e1, e2, alistModify_eq_insert _ hget0, alistInsert_self_eq hget0]
                · intro t2 ht2
                  exact lists1 t2 ht2
                · rw [map1, alistGet_insert_self]
                · refine ⟨l0 ++ [⟨c, (st.rotAt c).globalToLocal face⟩], ?_, ?_⟩
                  · rw [alistGet_modify_self hmod1, hget0]
                    rfl
                  · exact List.mem_append_right _ (List.mem_singleton_self _)
                · rcases findGroup_range fuel nbr _ _ _ _ hfg with ⟨t2, p, hp⟩ | ⟨e, he, hk⟩
                  · exact hccm t2 p gid hp
                  · exact hk ▸ hcc.1 e he
              obtain ⟨h2, hAs, hrel2⟩ := addFaces_relAttach rest hrel hNePorts hA
              have hstEq1 : StEq c g h2 := (addFaces_cc_stEq rest hcc hAs).2.1
              have hstEq2 : StEq c h2 h := relAttach_stEq hrel2
              have hstEq : StEq c g h := stEq_trans hstEq1 hstEq2
              have hfind_h : findGroup st reg h fuel nbr
                  ((st.rotAt c).globalToLocal face).inverse (Port.allFor c) =
                  some (v, some gid) := by
                rw [← findGroup_stEq hstEq fuel nbr _ _ (fun f0 => mem_allFor c f0)
                  (step_ne hstep)]
                exact hfg
              have hrp := peel_attach hrel2 hstep hfind_h
              have hih := ih hcc hccm hfreshPm hfreshPg hinj hnd.2 hAs
              simp only [removeFaces, hrp]
              rw [hih]
              have hnx : h.nextGroupId = h2.nextGroupId := hrel2.2.1
              rw [hnx]
          | none =>
            simp only [neighborPort, hstep, hfg] at hnp
            rw [newGroup_snd] at hnp
            obtain ⟨groups1, next1, hmod1, lists1, map1, maps1⟩ := addPort_spec hnp
            rw [newGroup_groups] at groups1
            rw [newGroup_nextGroupId] at next1
            rw [newGroup_portsOfGroup] at hmod1
            have hfreshKeys : ∀ t2, ∀ e ∈ g.portMap t2, e.1 ≠
                (⟨c, (st.rotAt c).globalToLocal face⟩ : Port) := by
              intro t2 e he heq
              have := alistGet_isSome_of_mem he
              rw [heq, hfreshPm face t2] at this
              cases this
            have hfreshGid : ∀ e ∈ g.groups, e.1 ≠ g.nextGroupId := by
              intro e he heq
              have := hcc.1 e he
              omega
            have hfreshPgKeys : ∀ t2, ∀ e ∈ g.portsOfGroup t2, e.1 ≠ g.nextGroupId := by
              intro t2 e he heq
              have := counter_portsOfGroup hcc t2 e he
              omega
            have hbumpcc : CounterConsistent { g with nextGroupId := g.nextGroupId + 1 } := by
              refine ⟨?_, ?_, ?_⟩
              · intro e he
                have := hcc.1 e he
                show e.1 < g.nextGroupId + 1
                omega
              · intro e he
                have := hcc.2.1 e he
                show e.1 < g.nextGroupId + 1
                omega
              · intro e he
                have := hcc.2.2 e he
                show e.1 < g.nextGroupId + 1
                omega
            have hrel : RelFresh c ⟨c, (st.rotAt c).globalToLocal face⟩ tA g.nextGroupId
                { g with nextGroupId := g.nextGroupId + 1 } g1 := by
              refine ⟨rfl, next1, ?_, ?_, ?_, ?_, ?_, ?_, ?_, ?_, ?_⟩
              · show alistRemove g1.groups g.nextGroupId = g.groups
                rw [groups1, alistRemove_insert_self, alistRemove_of_freshkey hfreshGid]
              · show alistRemove (g1.portMap tA) _ = g.portMap tA
                rw [map1, newGroup_portMap, alistRemove_insert_self,
                  alistRemove_of_freshkey (hfreshKeys tA)]
              · intro t2 ht2
                show g1.portMap t2 = g.portMap t2
                rw [maps1 t2 ht2, newGroup_portMap]
              · intro t2
                show alistRemove (g1.portsOfGroup t2) g.nextGroupId = g.portsOfGroup t2
                by_cases ht : t2 = tA
                · subst ht
                  rw [alistRemove_modify hmod1, alistRemove_insert_self,
                    alistRemove_of_freshkey (hfreshPgKeys t2)]
                · rw [lists1 t2 ht, newGroup_portsOfGroup, alistRemove_insert_self,
                    alistRemove_of_freshkey (hfreshPgKeys t2)]
              · rw [map1, newGroup_portMap, alistGet_insert_self]
              · rw [groups1, alistGet_insert_self]
              · show g.nextGroupId < g.nextGroupId + 1
                omega
              · intro t2 p hp
                have := hccm t2 p g.nextGroupId hp
                omega
              · rw [groups1]
                intro e he hk
                rcases mem_alistInsert he with he2 | he2
                · exact absurd hk (hfreshGid e he2)
                · rw [he2]
            obtain ⟨h2, hAs, hrel2⟩ := addFaces_relFresh rest hrel hNePorts hA
            have hstEq0 : StEq c g { g with nextGroupId := g.nextGroupId + 1 } :=
              ⟨fun _ _ _ => rfl, fun _ => rfl⟩
            have hstEq1 : StEq c { g with nextGroupId := g.nextGroupId + 1 } h2 :=
              (addFaces_cc_stEq rest hbumpcc hAs).2.1
            have hstEq2 : StEq c h2 h := relFresh_stEq hrel2
            have hstEq : StEq c g h := stEq_trans hstEq0 (stEq_trans hstEq1 hstEq2)
            have hfind_h : findGroup st reg h fuel nbr
                ((st.rotAt c).globalToLocal face).inverse (Port.allFor c) =
                some (v, none) := by
              rw [← findGroup_stEq hstEq fuel nbr _ _ (fun f0 => mem_allFor c f0)
                (step_ne hstep)]
              exact hfg
            have hrp := peel_fresh hrel2 hstep hfind_h
            have hih := ih hbumpcc
              (fun t2 p gid hp => by
                have := hccm t2 p gid hp
                show gid < g.nextGroupId + 1
                omega)
              hfreshPm hfreshPg hinj hnd.2 hAs
            simp only [removeFaces, hrp]
            rw [hih]
            have hnx : h.nextGroupId = h2.nextGroupId := hrel2.2.1
            rw [hnx]

instance decidableForallBlockFace (p : BlockFace → Prop) [DecidablePred p] :
    Decidable (∀ f : BlockFace, p f) :=
  decidable_of_iff (p .Right ∧ p .Left ∧ p .Top ∧ p .Bottom ∧ p .Front ∧ p .Back)
    ⟨fun h f => match f with
      | .Right => h.1
      | .Left => h.2.1
      | .Top => h.2.2.1
      | .Bottom => h.2.2.2.1
      | .Front => h.2.2.2.2.1
      | .Back => h.2.2.2.2.2,
      fun h => ⟨h _, h _, h _, h _, h _, h _⟩⟩

theorem addLogicBlock_portOnly {st : Struct} {reg : LogicRegistry} {fuel : Nat}
    {g : WireGraph} {lb : LogicBlock} {c : Coord} (hwf : lb.wireFaces = []) :
    addLogicBlock st reg fuel g lb c =
      addFaces st reg fuel c (lb.inputFaces.map (fun f => (f, PortType.Input)) ++
        lb.outputFaces.map (fun f => (f, PortType.Output))) g := by
  rw [addFaces_append]
  simp only [addFaces_map]
  simp only [addLogicBlock, hwf]
  cases hIn : neighborPortsLoop st reg fuel c PortType.Input lb.inputFaces g with
  | none => simp only [hIn]
  | some g1 =>
    simp only [hIn]
    cases hOut : neighborPortsLoop st reg fuel c PortType.Output lb.outputFaces g1 with
    | none => simp only [hOut]
    | some g2 =>
      simp only [hOut]
      simp

theorem removeLogicBlock_portOnly {st : Struct} {reg : LogicRegistry} {fuel : Nat}
    {g : WireGraph} {lb : LogicBlock} {c : Coord} (hwf : lb.wireFaces = []) :
    removeLogicBlock st reg fuel g lb c =
      removeFaces st reg fuel c (lb.inputFaces.map (fun f => (f, PortType.Input)) ++
        lb.outputFaces.map (fun f => (f, PortType.Output))) g := by
  rw [removeFaces_append]
  simp only [removeFaces_map]
  simp only [removeLogicBlock, hwf]
  cases hIn : removePortsLoop st reg fuel c PortType.Input lb.inputFaces g with
  | none => simp only [hIn]
  | some g1 =>
    simp only [hIn]
    cases hOut : removePortsLoop st reg fuel c PortType.Output lb.outputFaces g1 with
    | none => simp only [hOut]
    | some g2 =>
      simp only [hOut]
      simp

theorem portFaces_nodup (lb : LogicBlock) :
    (((lb.inputFaces.map (fun f => (f, PortType.Input)) ++
      lb.outputFaces.map (fun f => (f, PortType.Output))).map Prod.fst)).Nodup := by
  have hone : ∀ (t : PortType) (l : List BlockFace),
      (l.map (fun f => (f, t))).map Prod.fst = l := by
    intro t l
    induction l with
    | nil => rfl
    | cons x xs ih => simp only [List.map_cons, ih]
  have hmap : ((lb.inputFaces.map (fun f => (f, PortType.Input)) ++
      lb.outputFaces.map (fun f => (f, PortType.Output))).map Prod.fst) =
      lb.inputFaces ++ lb.outputFaces := by
    rw [List.map_append, hone, hone]
  rw [hmap]
  have hall : allBlockFaces.Nodup := by decide
  have hin : lb.inputFaces.Nodup := List.Nodup.filter _ hall
  have hout : lb.outputFaces.Nodup := List.Nodup.filter _ hall
  rw [List.nodup_append]
  refine ⟨hin, hout, ?_⟩
  intro f hfin hfout
  simp only [LogicBlock.inputFaces, LogicBlock.facesWith, List.mem_filter,
    decide_eq_true_eq] at hfin
  simp only [LogicBlock.outputFaces, LogicBlock.facesWith, List.mem_filter,
    decide_eq_true_eq] at hfout
  rw [hfin.2] at hfout
  cases hfout.2

/-- C5, amended: for a block all of whose declared faces are input or output
ports (no wire faces), if none of the block's ports occurs anywhere in the
graph's indices, every group id recorded in the indices is below the id
counter, and the block's rotation maps faces injectively, then
`add_logic_block` followed immediately by `remove_logic_block` for the same
block, coordinates and rotation restores the graph exactly — same groups,
same signals, same port indices — except that the group-id counter keeps any
advance from groups allocated and deleted along the way.  (For arbitrary
prior graph states the round trip changes the partition, as the stale-port
counterexample shows.) -/
theorem c5_amended (st : Struct) (reg : LogicRegistry) (fuel : Nat) (g h : WireGraph)
    (lb : LogicBlock) (coords : Coord)
    (hwf : lb.wireFaces = [])
    (hcc : CounterConsistent g)
    (hccm : ∀ (t2 : PortType) (p : Port) (gid : Nat),
      alistGet (g.portMap t2) p = some gid → gid < g.nextGroupId)
    (hfreshPm : ∀ (f0 : BlockFace) (t2 : PortType),
      alistGet (g.portMap t2) ⟨coords, (st.rotAt coords).globalToLocal f0⟩ = none)
    (hfreshPg : ∀ (f0 : BlockFace) (t2 : PortType), ∀ e ∈ g.portsOfGroup t2,
      (⟨coords, (st.rotAt coords).globalToLocal f0⟩ : Port) ∉ e.2)
    (hinj : ∀ f1 f2 : BlockFace, (st.rotAt coords).globalToLocal f1 =
      (st.rotAt coords).globalToLocal f2 → f1 = f2)
    (hA : addLogicBlock st reg fuel g lb coords = some h) :
    removeLogicBlock st reg fuel h lb coords =
      some { g with nextGroupId := h.nextGroupId } := by
  rw [removeLogicBlock_portOnly hwf]
  rw [addLogicBlock_portOnly hwf] at hA
  exact roundTripFaces _ hcc hccm hfreshPm hfreshPg hinj (portFaces_nodup lb) hA

/-- C5, witness: adding the single-output block to the empty graph of the
2-cell structure and removing it again restores the empty graph with the
counter advanced to 1. -/
theorem c5_witness :
    removeLogicBlock dblSt testReg 32
      ((addLogicBlock dblSt testReg 32 WireGraph.empty outRightBlock ⟨0, 0, 0⟩).getD
        WireGraph.empty) outRightBlock ⟨0, 0, 0⟩ =
    some { WireGraph.empty with nextGroupId :=
      ((addLogicBlock dblSt testReg 32 WireGraph.empty outRightBlock ⟨0, 0, 0⟩).getD
        WireGraph.empty).nextGroupId } := by
  refine c5_amended dblSt testReg 32 WireGraph.empty _ outRightBlock ⟨0, 0, 0⟩
    (by decide) (by decide) ?_ ?_ ?_ (by decide) (by decide)
  · intro t2 p gid hp
    cases t2 <;> exact absurd hp (by simp [alistGet, WireGraph.empty, WireGraph.portMap])
  · intro f0 t2
    cases t2 <;> rfl
  · intro f0 t2 e he
    cases t2 <;> exact absurd he (by simp [WireGraph.empty, WireGraph.portsOfGroup])
